import Mathlib

/-!
# OCD container export: byte buffer, block resolver and chained block index

A shallow embedding of `src/fileformats/ocd_types.cpp` (`Ocd::getBlockChecked`,
`OcdEntityIndex<F,T>::insert`, `OcdFile<F>::OcdFile`) and of
`src/fileformats/ocd_file_export.cpp` (`doExport`, `exportImplementation`,
`exportGeoreferencing`, `makeString1039`, `exportColors`, `makeString9`,
`setupBaseSymbol`, `exportPointSymbol`, `exportSymbols`), with the comparison
operators of `MapColorCmyk` from `src/core/map_color.h`.

Modelling conventions.

* A `QByteArray` is a list of bytes; a pointer into it is the offset from
  `data()`.  Storage reallocation is outside the model: a view taken before an
  `append` denotes the same offset after it.
* `quint32` values are natural numbers reduced modulo `2^32` wherever the C++
  code converts or computes; `QByteArray::size()` is an `int`, therefore the
  theorems about documents carry a bound `length < 2^31`.
* Every memory access is checked: an access outside the buffer ends the
  operation with the outcome `undefined`.
* Record layouts come from headers that are not part of the sources at hand;
  they are the fields of the parameters `Format`, `LayoutV8`,
  `BaseSymbolType` and `PointSymbolType`.
* The `float` and `double` values of the map are rational numbers; `int`
  arithmetic that leaves the range of `int` has no result.
-/

namespace Ocd

/-! ## Bytes and little-endian words -/

/-- One byte of a `QByteArray`. -/
abbrev Byte := Fin 256

/-- The content of a `QByteArray`. -/
abbrev QByteArray := List Byte

/-- Conversion to `quint32`. -/
def u32 (n : Nat) : Nat := n % 2 ^ 32

/-- A run of `n` zero bytes: the representation of a value-initialised record. -/
def zeros (n : Nat) : QByteArray := List.replicate n 0

/-- The value of a little-endian byte string. -/
def leToNat : List Byte → Nat
  | [] => 0
  | b :: bs => b.val + 256 * leToNat bs

/-- The `n` low-order bytes of `v`, little-endian. -/
def natToLe : Nat → Nat → List Byte
  | 0, _ => []
  | n + 1, v => ⟨v % 256, Nat.mod_lt v (by decide)⟩ :: natToLe n (v / 256)

/-- The `n` bytes starting at offset `off` (fewer when the buffer ends before). -/
def mid (buf : QByteArray) (off n : Nat) : List Byte := (buf.drop off).take n

/-- Overwrite the bytes at `off` by `bs`, without any bounds check. -/
def put (buf : QByteArray) (off : Nat) (bs : List Byte) : QByteArray :=
  buf.take off ++ bs ++ buf.drop (off + bs.length)

/-- A checked read of `n` bytes at `off`. -/
def readBytes (buf : QByteArray) (off n : Nat) : Option (List Byte) :=
  if off + n ≤ buf.length then some (mid buf off n) else none

/-- A checked store of `bs` at `off`. -/
def writeBytes (buf : QByteArray) (off : Nat) (bs : List Byte) : Option QByteArray :=
  if off + bs.length ≤ buf.length then some (put buf off bs) else none

/-- A checked load of a `quint32` field at `off`. -/
def readU32 (buf : QByteArray) (off : Nat) : Option Nat :=
  (readBytes buf off 4).map leToNat

/-- A checked store of a `quint32` field at `off`. -/
def writeU32 (buf : QByteArray) (off v : Nat) : Option QByteArray :=
  writeBytes buf off (natToLe 4 v)

/-! ## Ocd::getBlockChecked (ocd_types.cpp, lines 49-61) -/

/-- The result of `getBlockChecked`: the returned pointer (as an offset, `none`
for `nullptr`) and whether `qWarning` was called. -/
structure Resolved where
  block : Option Nat
  warned : Bool
  deriving DecidableEq, Repr

/-- The function `Ocd::getBlockChecked`.  `pos` and `block_size` are `quint32`
arguments; the comparison is the unsigned 32-bit one of line 55. -/
def getBlockChecked (byte_array : QByteArray) (pos block_size : Nat) : Resolved :=
  if pos = 0 then
    { block := none, warned := false }
  else if u32 (pos + block_size - 1) ≥ u32 byte_array.length then
    { block := none, warned := true }
  else
    { block := some pos, warned := false }

/-! ## Record layouts (declared in ocd_types.h and ocd_types_v*.h) -/

/-- The three entity indexes owned by an `OcdFile`: `string_index`,
`symbol_index` and `object_index`. -/
inductive Chain where
  | strings
  | symbols
  | objects
  deriving DecidableEq, Repr

/-- The layout of an index entry type: `sizeof(EntryType)` and the offset of
its `quint32` member `pos`. -/
structure EntryLayout where
  size : Nat
  posOff : Nat
  deriving DecidableEq, Repr

/-- A format descriptor `F`: the constants and record layouts that
`ocd_types.cpp` takes from the format headers.  `headerInit` is the object
representation of `FileHeader header = {}` and `setupInit` that of
`Ocd::SetupV8{}`. -/
structure Format where
  version : Nat
  headerInit : List Byte
  versionOff : Nat
  subversionOff : Nat
  firstStringBlockOff : Nat
  firstSymbolBlockOff : Nat
  firstObjectBlockOff : Nat
  setupInit : List Byte
  stringEntry : EntryLayout
  symbolEntry : EntryLayout
  objectEntry : EntryLayout

/-- The index entry layout of a chain. -/
def Format.entry (F : Format) : Chain → EntryLayout
  | .strings => F.stringEntry
  | .symbols => F.symbolEntry
  | .objects => F.objectEntry

/-- The offset in the file header of the field holding the first block of a
chain (`first_string_block`, `first_symbol_block`, `first_object_block`). -/
def Format.firstBlockOff (F : Format) : Chain → Nat
  | .strings => F.firstStringBlockOff
  | .symbols => F.firstSymbolBlockOff
  | .objects => F.firstObjectBlockOff

/-- The value of `sizeof(FileHeader)`. -/
def Format.headerSize (F : Format) : Nat := F.headerInit.length

/-- The number of bytes that precede the first index block of a fresh file:
the header, and for version 8 the setup record. -/
def Format.imageStart (F : Format) : Nat :=
  F.headerSize + (if F.version = 8 then F.setupInit.length else 0)

/-- The value of `sizeof(IndexBlock)`: a `quint32 next_block` followed by 256
packed entries. -/
def blockSize (E : EntryLayout) : Nat := 4 + 256 * E.size

/-- The offset of `block->entries[index]` for a block at offset `block`. -/
def entryOff (E : EntryLayout) (block index : Nat) : Nat := block + 4 + index * E.size

/-- The offset of `block->entries[index].pos`. -/
def entryPosOff (E : EntryLayout) (block index : Nat) : Nat :=
  entryOff E block index + E.posOff

/-- Two byte ranges, each given by offset and length, do not overlap. -/
def Disjoint2 (a n b m : Nat) : Prop := a + n ≤ b ∨ b + m ≤ a

instance (a n b m : Nat) : Decidable (Disjoint2 a n b m) := by
  unfold Disjoint2; infer_instance

/-- Well-formedness of a format descriptor: the fields used by the code lie
inside the records that hold them and do not overlap. -/
structure Format.WF (F : Format) : Prop where
  version_lt : F.version < 2 ^ 16
  version_in : F.versionOff + 2 ≤ F.headerSize
  subversion_in : F.subversionOff + 1 ≤ F.headerSize
  first_in : ∀ c, F.firstBlockOff c + 4 ≤ F.headerSize
  first_disj : ∀ c d, c ≠ d → Disjoint2 (F.firstBlockOff c) 4 (F.firstBlockOff d) 4
  first_version : ∀ c, Disjoint2 (F.firstBlockOff c) 4 F.versionOff 2
  first_subversion : ∀ c, Disjoint2 (F.firstBlockOff c) 4 F.subversionOff 1
  version_subversion : Disjoint2 F.versionOff 2 F.subversionOff 1
  pos_in : ∀ c, (F.entry c).posOff + 4 ≤ (F.entry c).size
  block_lt : ∀ c, 4 + 256 * (F.entry c).size < 2 ^ 31

end Ocd

open Ocd

/-! ## OcdEntityIndex<F,T>::insert (ocd_types.cpp, lines 69-105) -/

/-- The outcome of the do-while loop of `insert` (lines 75-85). -/
inductive WalkResult where
  /-- The loop ended; the value is the offset of the last block resolved. -/
  | tail (block : Nat)
  /-- The resolver returned `nullptr`: `qFatal` is called. -/
  | fatal
  /-- The resolved block cannot be read inside the buffer. -/
  | undefined
  /-- The loop was still running when the step budget ended. -/
  | running
  deriving DecidableEq, Repr

/-- The outcome of `insert`. -/
inductive InsertResult where
  /-- Normal return: the new buffer content and the offset of the returned
  entry `block->entries[index]`. -/
  | ok (byte_array : QByteArray) (entry : Nat)
  /-- The call ended in `qFatal`; the argument is the buffer at that moment. -/
  | fatal (byte_array : QByteArray)
  /-- An access outside the buffer. -/
  | undefined
  /-- The do-while loop does not end. -/
  | diverges
  deriving DecidableEq, Repr

namespace OcdEntityIndex

/-- The member `firstBlock<E>()`: the header field of the chain. -/
def firstBlock (F : Format) (c : Chain) (byte_array : QByteArray) : Option Nat :=
  readU32 byte_array (F.firstBlockOff c)

/-- The do-while loop of lines 75-85, run for at most `fuel` iterations from
the offset `pos`. -/
def walk (byte_array : QByteArray) (block_size : Nat) : Nat → Nat → WalkResult
  | 0, _ => .running
  | fuel + 1, pos =>
    match (getBlockChecked byte_array pos block_size).block with
    | none => .fatal
    | some block =>
      match readU32 byte_array block with
      | none => .undefined
      | some next_block =>
        if next_block ≠ 0 then walk byte_array block_size fuel next_block
        else .tail block

/-- The loop of lines 87-89, `while (index < 256 && block->entries[index].pos)
++index;`, with `n = 256 - index` iterations left.  The result is the final
value of `index`, or `none` when an entry lies outside the buffer. -/
def scan (byte_array : QByteArray) (E : EntryLayout) (block : Nat) : Nat → Nat → Option Nat
  | 0, index => some index
  | n + 1, index =>
    match readU32 byte_array (entryPosOff E block index) with
    | none => none
    | some p => if p ≠ 0 then scan byte_array E block n (index + 1) else some index

/-- Lines 100-104: append the entity, store the entry, store its `pos`. -/
def place (E : EntryLayout) (byte_array : QByteArray) (block index : Nat)
    (entity_data entry : List Byte) : InsertResult :=
  let entity_pos := u32 byte_array.length
  let appended := byte_array ++ entity_data
  match writeBytes appended (entryOff E block index) entry with
  | none => .undefined
  | some stored =>
    match writeU32 stored (entryPosOff E block index) entity_pos with
    | none => .undefined
    | some final => .ok final (entryOff E block index)

/-- The function `OcdEntityIndex<F,T>::insert` for the chain `c` of a file whose
buffer is `byte_array`.  `entry` is the object representation of the
`EntryType` argument.  The walk is given `length + 1` iterations: a walk that
needs more has met some offset twice and therefore never ends. -/
def insert (F : Format) (c : Chain) (byte_array : QByteArray)
    (entity_data entry : List Byte) : InsertResult :=
  let E := F.entry c
  match firstBlock F c byte_array with
  | none => .undefined
  | some pos =>
    match walk byte_array (blockSize E) (byte_array.length + 1) pos with
    | .fatal => .fatal byte_array
    | .undefined => .undefined
    | .running => .diverges
    | .tail block =>
      match scan byte_array E block 256 0 with
      | none => .undefined
      | some index =>
        if index = 256 then
          match writeU32 byte_array block (u32 byte_array.length) with
          | none => .undefined
          | some linked =>
            let grown := linked ++ zeros (blockSize E)
            match readU32 grown block with
            | none => .undefined
            | some new_block => place E grown new_block 0 entity_data entry
        else
          place E byte_array block index entity_data entry

end OcdEntityIndex

/-! ## OcdFile<F>::OcdFile (ocd_types.cpp, lines 111-160) -/

namespace OcdFile

/-- Lines 121-124: the local `header`, value-initialised, with `version` set and
`subversion = 3` for version 11. -/
def initialHeader (F : Format) : Option (List Byte) :=
  match writeBytes F.headerInit F.versionOff (natToLe 2 F.version) with
  | none => none
  | some h =>
    if F.version = 11 then writeBytes h F.subversionOff (natToLe 1 3) else some h

/-- One of the three blocks of lines 137-159: store the current size in the
header field of chain `c`, then append an empty index block. -/
def appendFirstBlock (F : Format) (c : Chain) (byte_array : QByteArray) : Option QByteArray :=
  match writeU32 byte_array (F.firstBlockOff c) (u32 byte_array.length) with
  | none => none
  | some b => some (b ++ zeros (blockSize (F.entry c)))

set_option linter.dupNamespace false in
/-- The constructor `OcdFile<F>::OcdFile()`: the buffer of a fresh file, or
`none` when a header field lies outside the header. -/
def OcdFile (F : Format) : Option QByteArray :=
  match initialHeader F with
  | none => none
  | some header =>
    let b0 : QByteArray := [] ++ header
    let b1 := if F.version = 8 then b0 ++ F.setupInit else b0
    match appendFirstBlock F .strings b1 with
    | none => none
    | some b2 =>
      match appendFirstBlock F .symbols b2 with
      | none => none
      | some b3 => appendFirstBlock F .objects b3

end OcdFile

namespace OcdEntityIndex

/-- The offset examined by iteration number `k` (counted from 0) of the
do-while loop started at `pos`; `none` when the loop has ended before. -/
def walkPos (byte_array : QByteArray) (block_size : Nat) : Nat → Nat → Option Nat
  | 0, pos => some pos
  | k + 1, pos =>
    match (getBlockChecked byte_array pos block_size).block with
    | none => none
    | some block =>
      match readU32 byte_array block with
      | none => none
      | some next_block =>
        if next_block ≠ 0 then walkPos byte_array block_size k next_block else none

end OcdEntityIndex

namespace OcdEntityIndex

/-- The buffer left by lines 100-104 when every access is inside the buffer:
the entity appended, the entry stored at `entries[index]`, its `pos` set to the
size before the append. -/
def placed (E : EntryLayout) (byte_array : QByteArray) (block index : Nat)
    (entity_data entry : List Byte) : QByteArray :=
  put (put (byte_array ++ entity_data) (entryOff E block index) entry)
    (entryPosOff E block index) (natToLe 4 (u32 byte_array.length))

/-- The buffer left by lines 93-95 when the store is inside the buffer: the
old tail block linked to the old size, an empty block appended. -/
def grown (E : EntryLayout) (byte_array : QByteArray) (block : Nat) : QByteArray :=
  put byte_array block (natToLe 4 (u32 byte_array.length)) ++ zeros (blockSize E)

end OcdEntityIndex

/-! ## Concrete format descriptors -/

namespace Ocd

/-- An instance of the format descriptor for version 9, used as a concrete
input.  The header has the 48 bytes asserted in ocd_types.cpp; the field
offsets and entry sizes are those of the OCD version 9 file layout
(`first_symbol_block` at 8, `first_object_block` at 12, `first_string_block` at
32; entries of 16, 4 and 40 bytes). -/
def FormatV9 : Format where
  version := 9
  headerInit := zeros 48
  versionOff := 4
  subversionOff := 6
  firstStringBlockOff := 32
  firstSymbolBlockOff := 8
  firstObjectBlockOff := 12
  setupInit := []
  stringEntry := { size := 16, posOff := 0 }
  symbolEntry := { size := 4, posOff := 0 }
  objectEntry := { size := 40, posOff := 16 }

/-- The same layout with the version number 11. -/
def FormatV11 : Format := { FormatV9 with version := 11 }

end Ocd

namespace Ocd

/-- A descriptor of a version 8 layout, used as a concrete input: a header of
19272 bytes (48 bytes of fields followed by a symbol header of 19224 bytes)
whose field `setup_pos` at offset 16 is initialised to the size of the header,
a setup record of 1348 bytes, and index entries of 16, 4 and 24 bytes. -/
def FormatV8 : Format where
  version := 8
  headerInit := zeros 16 ++ natToLe 4 19272 ++ zeros 19252
  versionOff := 4
  subversionOff := 6
  firstStringBlockOff := 32
  firstSymbolBlockOff := 8
  firstObjectBlockOff := 12
  setupInit := zeros 1348
  stringEntry := { size := 16, posOff := 0 }
  symbolEntry := { size := 4, posOff := 0 }
  objectEntry := { size := 24, posOff := 16 }

end Ocd

/-! ## Concrete buffers -/

namespace Ocd

end Ocd

/-! ## The layout of a document: regions, chains, invariant

The definitions of this section are not code of the program.  They describe
what a buffer built by the constructor and by calls of `insert` looks like:
after the header (and the version 8 setup record) it is a sequence of regions,
each one an index block of a chain or an entity. -/

namespace Ocd

/-- What a region of the buffer holds. -/
inductive Seg where
  | block (c : Chain)
  | entity (c : Chain) (data : List Byte)
  deriving DecidableEq

/-- A region of the buffer: its first offset and what it holds. -/
structure Region where
  start : Nat
  seg : Seg
  deriving DecidableEq

/-- The number of bytes of a region. -/
def Region.size (F : Format) (r : Region) : Nat :=
  match r.seg with
  | .block c => blockSize (F.entry c)
  | .entity _ data => data.length

/-- The offsets of the index blocks of chain `c`, in allocation order. -/
def blocksOf (c : Chain) (regs : List Region) : List Nat :=
  regs.filterMap fun r =>
    match r.seg with
    | .block d => if d = c then some r.start else none
    | .entity _ _ => none

/-- The offsets of the entities of chain `c`, in allocation order. -/
def entitiesOf (c : Chain) (regs : List Region) : List Nat :=
  regs.filterMap fun r =>
    match r.seg with
    | .block _ => none
    | .entity d _ => if d = c then some r.start else none

/-- The entities of all chains in allocation order: offset, chain, bytes. -/
def entityRegs (regs : List Region) : List (Nat × Chain × List Byte) :=
  regs.filterMap fun r =>
    match r.seg with
    | .block _ => none
    | .entity c data => some (r.start, c, data)

/-- The state of one chain: `bl` are the offsets of its blocks in chain order
and `ps` the `pos` values of its entries in block-then-slot order. -/
structure ChainInv (F : Format) (buf : QByteArray) (c : Chain) (bl ps : List Nat) : Prop where
  nonempty : 0 < bl.length
  head : readU32 buf (F.firstBlockOff c) = some (bl.getD 0 0)
  link : ∀ k, k < bl.length →
    readU32 buf (bl.getD k 0) = some (if k + 1 < bl.length then bl.getD (k + 1) 0 else 0)
  slot : ∀ j, j < 256 * bl.length →
    readU32 buf (entryPosOff (F.entry c) (bl.getD (j / 256) 0) (j % 256)) =
      some (if j < ps.length then ps.getD j 0 else 0)
  count_le : ps.length ≤ 256 * bl.length
  count_ge : 256 * (bl.length - 1) ≤ ps.length

/-- The invariant of a document with the regions `regs`. -/
structure Inv (F : Format) (buf : QByteArray) (regs : List Region) : Prop where
  contig : buf.length = F.imageStart + (regs.map (Region.size F)).sum
  ordered : regs.Pairwise fun r s => r.start + r.size F ≤ s.start
  bounds : ∀ r, r ∈ regs → F.imageStart ≤ r.start ∧ r.start + r.size F ≤ buf.length
  content : ∀ r c data, r ∈ regs → r.seg = .entity c data → mid buf r.start data.length = data
  chain : ∀ c, ChainInv F buf c (blocksOf c regs) (entitiesOf c regs)

/-- Every chain has just one block or an entry in its last block. -/
def Tight (regs : List Region) : Prop :=
  ∀ c, (blocksOf c regs).length = 1 ∨
    256 * ((blocksOf c regs).length - 1) < (entitiesOf c regs).length

end Ocd

/-! ## The image of a fresh file -/

namespace OcdFile

/-- The offset at which the constructor places the first block of a chain. -/
def firstBlockPos (F : Format) : Chain → Nat
  | .strings => F.imageStart
  | .symbols => F.imageStart + blockSize F.stringEntry
  | .objects => F.imageStart + blockSize F.stringEntry + blockSize F.symbolEntry

/-- The regions of a fresh file: one empty index block per chain. -/
def freshRegs (F : Format) : List Region :=
  [⟨firstBlockPos F .strings, .block .strings⟩,
   ⟨firstBlockPos F .symbols, .block .symbols⟩,
   ⟨firstBlockPos F .objects, .block .objects⟩]

/-- The number of bytes of a fresh file. -/
def freshLength (F : Format) : Nat :=
  F.imageStart + blockSize F.stringEntry + blockSize F.symbolEntry + blockSize F.objectEntry

/-- The header written by lines 121-125 when the fields lie inside it. -/
def headerImage (F : Format) : List Byte :=
  let h := put F.headerInit F.versionOff (natToLe 2 F.version)
  if F.version = 11 then put h F.subversionOff (natToLe 1 3) else h

/-- The buffer after lines 120-135: header and, for version 8, setup record. -/
def preamble (F : Format) : QByteArray :=
  if F.version = 8 then headerImage F ++ F.setupInit else headerImage F

/-- The buffer built by the constructor when the fields lie inside the header. -/
def image (F : Format) : QByteArray :=
  OcdEntityIndex.grown F.objectEntry
    (OcdEntityIndex.grown F.symbolEntry
      (OcdEntityIndex.grown F.stringEntry (preamble F) F.firstStringBlockOff)
      F.firstSymbolBlockOff)
    F.firstObjectBlockOff

end OcdFile

/-! ## Sequences of calls of insert -/

/-- The arguments of one call of `insert`: the chain whose index is used, the
entity bytes and the entry. -/
structure InsertCall where
  chain : Chain
  entity_data : List Byte
  entry : List Byte

/-- What one call of `insert` returned: the offset of the returned entry and
the value of its member `pos`. -/
structure Inserted where
  entry : Nat
  pos : Nat
  deriving DecidableEq, Repr

/-! ## Walking a chain (the reading direction)

The traversal of a chain as the format defines it: from the head offset,
block by block via `next_block`, entries 0 to 255 inside each block, every
block resolved by `getBlockChecked`. -/

namespace OcdEntityIndex

/-- The entries in use among `entries[index]`, ..., `entries[index + n - 1]` of
the block at `block`, in slot order: the offset of the entry and its `pos`. -/
def usedEntries (byte_array : QByteArray) (E : EntryLayout) (block : Nat) :
    Nat → Nat → List Inserted
  | 0, _ => []
  | n + 1, index =>
    match readU32 byte_array (entryPosOff E block index) with
    | some p =>
      if p ≠ 0 then
        { entry := entryOff E block index, pos := p } ::
          usedEntries byte_array E block n (index + 1)
      else usedEntries byte_array E block n (index + 1)
    | none => usedEntries byte_array E block n (index + 1)

/-- The entries in use met by walking the chain from the offset `pos`, visiting
at most `fuel` blocks; `none` when a block does not resolve or cannot be read,
or when the walk has not ended after `fuel` blocks. -/
def chainEntries (byte_array : QByteArray) (E : EntryLayout) : Nat → Nat → Option (List Inserted)
  | 0, _ => none
  | fuel + 1, pos =>
    match (getBlockChecked byte_array pos (blockSize E)).block with
    | none => none
    | some block =>
      match readU32 byte_array block with
      | none => none
      | some next_block =>
        if next_block ≠ 0 then
          match chainEntries byte_array E fuel next_block with
          | none => none
          | some rest => some (usedEntries byte_array E block 256 0 ++ rest)
        else some (usedEntries byte_array E block 256 0)

/-- The entries of a chain with the blocks `bl` and the `pos` values `ps`:
entry number `j` is slot `j % 256` of block number `j / 256`. -/
def chainView (E : EntryLayout) (bl ps : List Nat) : List Inserted :=
  (List.range ps.length).map fun j =>
    { entry := entryOff E (bl.getD (j / 256) 0) (j % 256), pos := ps.getD j 0 }

end OcdEntityIndex

namespace OcdFile

/-- One call of `insert` on the buffer of a file; `none` unless the call
returns normally. -/
def insertCall (F : Format) (byte_array : QByteArray) (call : InsertCall) :
    Option (QByteArray × Inserted) :=
  match OcdEntityIndex.insert F call.chain byte_array call.entity_data call.entry with
  | .ok final e =>
    match readU32 final (e + (F.entry call.chain).posOff) with
    | some p => some (final, { entry := e, pos := p })
    | none => none
  | _ => none

/-- A sequence of calls of `insert`, one after the other, on the same file. -/
def run (F : Format) : QByteArray → List InsertCall → Option (QByteArray × List Inserted)
  | byte_array, [] => some (byte_array, [])
  | byte_array, call :: calls =>
    match insertCall F byte_array call with
    | none => none
    | some (next, r) =>
      match run F next calls with
      | none => none
      | some (final, rs) => some (final, r :: rs)

/-- The number of calls that go to chain `c`. -/
def callsOf (c : Chain) (calls : List InsertCall) : Nat :=
  (calls.filter fun call => call.chain = c).length

/-- The number of index blocks of a chain that holds `n` entries. -/
def blocksNeeded (n : Nat) : Nat := 1 + (n - 1) / 256

/-- The size of the buffer after the calls: header and setup record, the index
blocks of the three chains, the entities. -/
def expectedLength (F : Format) (calls : List InsertCall) : Nat :=
  F.imageStart
    + blocksNeeded (callsOf .strings calls) * blockSize F.stringEntry
    + blocksNeeded (callsOf .symbols calls) * blockSize F.symbolEntry
    + blocksNeeded (callsOf .objects calls) * blockSize F.objectEntry
    + (calls.map fun call => call.entity_data.length).sum

/-- What holds after a sequence of calls on a fresh file: `buf` is the buffer,
`recs` the returned entries, `regs` the regions of the buffer. -/
structure RunInv (F : Format) (calls : List InsertCall) (buf : QByteArray)
    (recs : List Inserted) (regs : List Region) : Prop where
  inv : Inv F buf regs
  tight : Tight regs
  length_eq : buf.length = expectedLength F calls
  count : ∀ c, (entitiesOf c regs).length = callsOf c calls
  recs_length : recs.length = calls.length
  entities : entityRegs regs =
    List.zipWith (fun call r => (r.pos, call.chain, call.entity_data)) calls recs
  views : ∀ c, OcdEntityIndex.chainView (F.entry c) (blocksOf c regs) (entitiesOf c regs) =
    (List.zip calls recs).filterMap fun cr => if cr.1.chain = c then some cr.2 else none

end OcdFile

namespace Ocd

/-- A 48-byte buffer: a version 9 header whose `first_symbol_block` is
`2^32 - 1027`, the offset at which a symbol index block of 1028 bytes wraps. -/
def wrappedHeadDoc : QByteArray :=
  zeros 8 ++ natToLe 4 4294966269 ++ zeros 36

end Ocd

/-! ## The map model (accessors used by the exporter) -/

namespace Mapper

/-- The struct `MapColorCmyk` (core/map_color.h); the `float` components are
taken as rationals. -/
structure MapColorCmyk where
  c : ℚ
  m : ℚ
  y : ℚ
  k : ℚ

/-- The data of a `MapColor` that the exporter reads: `getName`, `getPriority`,
`getCmyk`, `getKnockout`, `getOpacity`. -/
structure MapColor where
  name : String
  priority : Int
  cmyk : MapColorCmyk
  knockout : Bool
  opacity : ℚ

/-- The values of `Symbol::Type` that a symbol of a map can have. -/
inductive SymbolType where
  | point
  | line
  | area
  | text
  | combined
  deriving DecidableEq, Repr

/-- The data of a `Symbol` that the exporter reads: `getType`, `getName`,
`getNumberComponent(0)`, `getNumberComponent(1)`, `isProtected`, `isHidden`
and, for a point symbol, `isRotatable`. -/
structure Symbol where
  type : SymbolType
  name : String
  number0 : Int
  number1 : Int
  isProtected : Bool
  isHidden : Bool
  isRotatable : Bool

/-- The data of the `Georeferencing` that the exporter reads:
`getScaleDenominator`, `getProjectedRefPoint`, `getGrivation`, and the point
`toProjectedCoords(MapCoord{})`, the projected coordinates of the origin of
the map, which `makeString1039` takes. -/
structure Georeferencing where
  scaleDenominator : Nat
  projectedRefPointX : ℚ
  projectedRefPointY : ℚ
  grivation : ℚ
  toProjectedCoordsOriginX : ℚ := projectedRefPointX
  toProjectedCoordsOriginY : ℚ := projectedRefPointY

/-- The values of `MapGrid::Unit` that `makeString1039` switches on. -/
inductive MapGrid.Unit where
  | MillimetersOnMap
  | MetersInTerrain
  deriving DecidableEq

/-- The data of the `MapGrid` that `makeString1039` reads: `getUnit`,
`getHorizontalSpacing`, `getVerticalSpacing`. -/
structure MapGrid where
  unit : MapGrid.Unit
  horizontalSpacing : ℚ
  verticalSpacing : ℚ

/-- The data of a `Map` that the exporter reads. -/
structure Map where
  georeferencing : Georeferencing
  colors : List MapColor
  symbols : List Symbol
  grid : MapGrid :=
    { unit := .MetersInTerrain, horizontalSpacing := 500, verticalSpacing := 500 }

end Mapper

/-! ## The exporter (ocd_file_export.cpp) -/

namespace OcdFileExport

open Mapper

/-- The warnings that the exporter adds with `addWarning`. -/
inductive Warning where
  /-- The text "OcdFileExport: WORK IN PROGRESS, FILE INCOMPLETE". -/
  | workInProgress
  /-- The text "Encoding '%1' is not available. Check the settings.". -/
  | encodingNotAvailable
  /-- The text "Too many colors for OCD version 8.". -/
  | tooManyColors
  /-- The text "Spot color information was ignored.". -/
  | spotColorIgnored
  deriving DecidableEq, Repr

/-- The four instantiations of `exportImplementation`. -/
inductive FormatId where
  | V8
  | V9
  | V11
  | V12
  deriving DecidableEq, Repr

/-- The constant `Format::version` of an instantiation. -/
def FormatId.version : FormatId → Nat
  | .V8 => 8
  | .V9 => 9
  | .V11 => 11
  | .V12 => 12

/-- The layout of the version 8 records that the exporter writes in place
(declared in ocd_types_v8.h): the header field `setup_pos`, the `double`
members of `SetupV8`, and inside the header the `symbol_header` with its
`num_colors` and its array `color_info` of 256 `ColorInfoV8` records. -/
structure LayoutV8 where
  setupPosOff : Nat
  mapScaleOff : Nat
  realOffsetXOff : Nat
  realOffsetYOff : Nat
  realAngleOff : Nat
  symbolHeaderOff : Nat
  numColorsOff : Nat
  colorInfoOff : Nat
  colorInfoSize : Nat
  numberOff : Nat
  nameOff : Nat
  nameSize : Nat
  cmykOff : Nat
  separationsOff : Nat
  separationsSize : Nat

/-- The format descriptors of the four instantiations, the version 8 layout,
and for each instantiation whether `Format::Encoding` is
`Ocd::Custom8BitEncoding`. -/
structure Formats where
  format : FormatId → Format
  layoutV8 : LayoutV8
  custom8Bit : FormatId → Bool

/-- What the exporter takes from Qt and from the overloads of `insert` declared
in ocd_types.h: the object representation of a `double`; the encoded strings
`toOcdString(makeString1039(map, version))` and `toOcdString(makeString9(color))`;
the bytes of the `PascalString` member `name` of a color record; the record
built by `exportPointSymbol`; and the arguments `(entity_data, entry)` that
`strings().insert(type, string)` and `symbols().insert(data)` pass on to
`insert(entity_data, entry)`. -/
structure Encoders where
  doubleBytes : ℚ → List Byte
  string1039 : Map → Nat → List Byte
  string9 : MapColor → List Byte
  colorName : String → List Byte
  pointSymbol : Symbol → List Byte
  stringInsert : Nat → List Byte → List Byte × List Byte
  symbolInsert : List Byte → List Byte × List Byte

/-- The state of an export in progress: the buffer of the file and the
warnings added so far. -/
structure ExportState where
  byte_array : QByteArray
  warnings : List Warning

/-- The method `addWarning`. -/
def ExportState.addWarning (s : ExportState) (w : Warning) : ExportState :=
  { s with warnings := s.warnings ++ [w] }

/-- The conversion `int(x)` of C++: truncation toward zero. -/
def truncate (x : ℚ) : Int := if 0 ≤ x then ⌊x⌋ else ⌈x⌉

/-- The function `qRound` of Qt 5. -/
def qRound (d : ℚ) : Int :=
  if 0 ≤ d then truncate (d + 1 / 2)
  else truncate (d - (truncate (d - 1) : ℚ) + 1 / 2) + truncate (d - 1)

/-- The function `qIsNull` of Qt for a `double`: the value is zero. -/
def qIsNull (d : ℚ) : Bool := decide (d = 0)

/-- Conversion of an `int` to `quint8`. -/
def u8 (x : Int) : Byte := ⟨(x % 256).toNat % 256, Nat.mod_lt _ (by decide)⟩

/-- The call `strings().insert(type, string)`. -/
def stringCall (enc : Encoders) (type : Nat) (string : List Byte) : InsertCall :=
  { chain := .strings, entity_data := (enc.stringInsert type string).1,
    entry := (enc.stringInsert type string).2 }

/-- The call `symbols().insert(data)`. -/
def symbolCall (enc : Encoders) (data : List Byte) : InsertCall :=
  { chain := .symbols, entity_data := (enc.symbolInsert data).1,
    entry := (enc.symbolInsert data).2 }

/-- A sequence of calls of `insert` on the file of an export. -/
def runCalls (F : Format) (s : ExportState) (calls : List InsertCall) : Option ExportState :=
  match OcdFile.run F s.byte_array calls with
  | none => none
  | some (final, _) => some { s with byte_array := final }

/-- The specialisation `exportGeoreferencing(OcdFile<Ocd::FormatV8>&)`, lines
195-210. -/
def exportGeoreferencingV8 (L : LayoutV8) (enc : Encoders) (map : Map) (s : ExportState) :
    Option ExportState :=
  match readU32 s.byte_array L.setupPosOff with
  | none => none
  | some setup_pos =>
    match writeBytes s.byte_array (setup_pos + L.mapScaleOff)
        (enc.doubleBytes map.georeferencing.scaleDenominator) with
    | none => none
    | some b1 =>
      match writeBytes b1 (setup_pos + L.realOffsetXOff)
          (enc.doubleBytes map.georeferencing.projectedRefPointX) with
      | none => none
      | some b2 =>
        match writeBytes b2 (setup_pos + L.realOffsetYOff)
            (enc.doubleBytes map.georeferencing.projectedRefPointY) with
        | none => none
        | some b3 =>
          if qIsNull map.georeferencing.grivation then some { s with byte_array := b3 }
          else
            match writeBytes b3 (setup_pos + L.realAngleOff)
                (enc.doubleBytes map.georeferencing.grivation) with
            | none => none
            | some b4 => some { s with byte_array := b4 }

/-- The calls of insert made by the generic `exportGeoreferencing`, lines
258-264. -/
def georeferencingCalls (enc : Encoders) (map : Map) (version : Nat) : List InsertCall :=
  [stringCall enc 1039 (enc.string1039 map version)]

/-- The generic `exportGeoreferencing`. -/
def exportGeoreferencing (F : Format) (enc : Encoders) (map : Map) (s : ExportState) :
    Option ExportState :=
  runCalls F s (georeferencingCalls enc map F.version)

/-- The body of the loop of lines 281-299 for color number `i`: the record
`color_info[i]` is given its number, its name, its four CMYK bytes on the
scale 0 to 200, and zero separations. -/
def exportColorV8 (L : LayoutV8) (enc : Encoders) (byte_array : QByteArray) (i : Nat)
    (color : MapColor) : Option QByteArray :=
  let base := L.symbolHeaderOff + L.colorInfoOff + i * L.colorInfoSize
  match writeBytes byte_array (base + L.numberOff) (natToLe 2 i) with
  | none => none
  | some b1 =>
    match writeBytes b1 (base + L.nameOff) (enc.colorName color.name) with
    | none => none
    | some b2 =>
      match writeBytes b2 (base + L.cmykOff)
          [u8 (qRound (200 * color.cmyk.c)), u8 (qRound (200 * color.cmyk.m)),
           u8 (qRound (200 * color.cmyk.y)), u8 (qRound (200 * color.cmyk.k))] with
      | none => none
      | some b3 => writeBytes b3 (base + L.separationsOff) (zeros L.separationsSize)

/-- The loop of lines 281-299 over the colors `i`, `i + 1`, ... -/
def exportColorsV8Loop (L : LayoutV8) (enc : Encoders) :
    QByteArray → Nat → List MapColor → Option QByteArray
  | byte_array, _, [] => some byte_array
  | byte_array, i, color :: rest =>
    match exportColorV8 L enc byte_array i color with
    | none => none
    | some next => exportColorsV8Loop L enc next (i + 1) rest

/-- The specialisation `exportColors(OcdFile<Ocd::FormatV8>&)`, lines 267-302. -/
def exportColorsV8 (L : LayoutV8) (enc : Encoders) (map : Map) (s : ExportState) :
    Option ExportState :=
  let s1 := if map.colors.length > 256 then s.addWarning .tooManyColors else s
  let num_colors := if map.colors.length > 256 then 256 else map.colors.length
  match writeBytes s1.byte_array (L.symbolHeaderOff + L.numColorsOff) (natToLe 2 num_colors) with
  | none => none
  | some b1 =>
    match exportColorsV8Loop L enc b1 0 (map.colors.take num_colors) with
    | none => none
    | some b2 => some ({ s1 with byte_array := b2 }.addWarning .spotColorIgnored)

/-- The calls of insert made by the generic `exportColors`, lines 323-334. -/
def colorCalls (enc : Encoders) (map : Map) : List InsertCall :=
  map.colors.map fun color => stringCall enc 9 (enc.string9 color)

/-- The generic `exportColors`. -/
def exportColors (F : Format) (enc : Encoders) (map : Map) (s : ExportState) :
    Option ExportState :=
  match runCalls F s (colorCalls enc map) with
  | none => none
  | some s1 => some (s1.addWarning .spotColorIgnored)

/-- The calls of insert made by `exportSymbols`, lines 396-449: one for each
point symbol, none for a symbol of another type. -/
def symbolCalls (enc : Encoders) (map : Map) : List InsertCall :=
  map.symbols.filterMap fun symbol =>
    match symbol.type with
    | .point => some (symbolCall enc (enc.pointSymbol symbol))
    | _ => none

/-- The function `exportSymbols`. -/
def exportSymbols (F : Format) (enc : Encoders) (map : Map) (s : ExportState) :
    Option ExportState :=
  runCalls F s (symbolCalls enc map)

/-- The result of `doExport`. -/
inductive ExportResult where
  /-- The buffer was written to the stream. -/
  | written (bytes : QByteArray) (warnings : List Warning)
  /-- The export was handed to `OCAD8FileExport`. -/
  | legacy
  /-- A `FileFormatException` for the version. -/
  | unsupported (version : Int)
  /-- The export ended in `qFatal` or in an access outside the buffer. -/
  | aborted

/-- The warnings after lines 176-178: the warning of line 176 and, when
`Format::Encoding` is the custom 8-bit encoding and `codecFromSettings()`
returns no codec, the warning of `initEncoding`. -/
def startWarnings (fs : Formats) (id : FormatId) (codecAvailable : Bool) : List Warning :=
  if fs.custom8Bit id && !codecAvailable then [.workInProgress, .encodingNotAvailable]
  else [.workInProgress]

/-- The function `exportImplementation<Format>(actual_version)`, lines 173-192,
for the instantiation `id`.  `codecAvailable` tells whether
`codecFromSettings()` returns a codec. -/
def exportImplementation (fs : Formats) (enc : Encoders) (id : FormatId)
    (actual_version : Nat) (codecAvailable : Bool) (map : Map) : ExportResult :=
  let F := fs.format id
  match OcdFile.OcdFile F with
  | none => .aborted
  | some fresh =>
    match writeBytes fresh F.versionOff (natToLe 2 actual_version) with
    | none => .aborted
    | some b1 =>
      let s1 : ExportState :=
        { byte_array := b1, warnings := startWarnings fs id codecAvailable }
      let georeferenced :=
        match id with
        | .V8 => exportGeoreferencingV8 fs.layoutV8 enc map s1
        | _ => exportGeoreferencing F enc map s1
      match georeferenced with
      | none => .aborted
      | some s2 =>
        let colored :=
          match id with
          | .V8 => exportColorsV8 fs.layoutV8 enc map s2
          | _ => exportColors F enc map s2
        match colored with
        | none => .aborted
        | some s3 =>
          match exportSymbols F enc map s3 with
          | none => .aborted
          | some s4 => .written s4.byte_array s4.warnings

/-- The version chosen at the start of `doExport`, lines 110-124: the default,
or the version named by the file name of a `QFileDevice`. -/
def resolveVersion (default_version : Int) (fileName : Option String) : Int :=
  match fileName with
  | none => default_version
  | some name =>
    if "test-v8.ocd".toList.isSuffixOf name.toList then 8
    else if "test-v9.ocd".toList.isSuffixOf name.toList then 9
    else if "test-v10.ocd".toList.isSuffixOf name.toList then 10
    else if "test-v11.ocd".toList.isSuffixOf name.toList then 11
    else if "test-v12.ocd".toList.isSuffixOf name.toList then 12
    else default_version

/-- The function `doExport`, lines 108-158. -/
def doExport (fs : Formats) (enc : Encoders) (default_version : Int)
    (fileName : Option String) (codecAvailable : Bool) (map : Map) : ExportResult :=
  match resolveVersion default_version fileName with
  | 0 => .legacy
  | 8 => exportImplementation fs enc .V8 8 codecAvailable map
  | 9 => exportImplementation fs enc .V9 9 codecAvailable map
  | 10 => exportImplementation fs enc .V9 10 codecAvailable map
  | 11 => exportImplementation fs enc .V11 11 codecAvailable map
  | 12 => exportImplementation fs enc .V12 12 codecAvailable map
  | v => .unsupported v

/-- The calls of insert of an export with the instantiation `id`. -/
def exportCalls (fs : Formats) (enc : Encoders) (id : FormatId) (map : Map) : List InsertCall :=
  match id with
  | .V8 => symbolCalls enc map
  | _ =>
    georeferencingCalls enc map (fs.format id).version ++ colorCalls enc map ++
      symbolCalls enc map

/-- The instantiation that `doExport` uses for a version. -/
def formatIdOf (v : Nat) : FormatId :=
  if v = 8 then .V8 else if v = 11 then .V11 else if v = 12 then .V12 else .V9

/-- What the version 8 specialisations need of the layout: `setup_pos` is
initialised to the end of the header, the fields written in place lie inside
the setup record or inside the symbol header, and the symbol header lies
behind the fields of the header that the constructor writes. -/
structure LayoutV8.WF (F : Format) (enc : Encoders) (L : LayoutV8) : Prop where
  setup_pos_init : readU32 F.headerInit L.setupPosOff = some F.headerSize
  setup_pos_low : L.setupPosOff + 4 ≤ L.symbolHeaderOff
  setup_pos_version : Disjoint2 L.setupPosOff 4 F.versionOff 2
  setup_pos_first : ∀ c, Disjoint2 L.setupPosOff 4 (F.firstBlockOff c) 4
  version_low : F.versionOff + 2 ≤ L.symbolHeaderOff
  subversion_low : F.subversionOff + 1 ≤ L.symbolHeaderOff
  first_low : ∀ c, F.firstBlockOff c + 4 ≤ L.symbolHeaderOff
  map_scale_in : L.mapScaleOff + 8 ≤ F.setupInit.length
  real_offset_x_in : L.realOffsetXOff + 8 ≤ F.setupInit.length
  real_offset_y_in : L.realOffsetYOff + 8 ≤ F.setupInit.length
  real_angle_in : L.realAngleOff + 8 ≤ F.setupInit.length
  double_size : ∀ x, (enc.doubleBytes x).length = 8
  num_colors_in : L.symbolHeaderOff + L.numColorsOff + 2 ≤ F.headerSize
  color_info_in : L.symbolHeaderOff + L.colorInfoOff + 256 * L.colorInfoSize ≤ F.headerSize
  number_in : L.numberOff + 2 ≤ L.colorInfoSize
  name_in : L.nameOff + L.nameSize ≤ L.colorInfoSize
  name_size : ∀ s, (enc.colorName s).length = L.nameSize
  cmyk_in : L.cmykOff + 4 ≤ L.colorInfoSize
  separations_in : L.separationsOff + L.separationsSize ≤ L.colorInfoSize

/-- What an export with the instantiation `id` needs of the descriptors: the
format is well formed and has the version of the instantiation, the member
`subversion` of a value-initialised header is 0, the entries that the
overloads of insert build have the size of their entry type, and for version
8 the layout is well formed. -/
structure ExportWF (fs : Formats) (enc : Encoders) (id : FormatId) : Prop where
  format_wf : (fs.format id).WF
  version_eq : (fs.format id).version = id.version
  subversion_init : mid (fs.format id).headerInit (fs.format id).subversionOff 1 = [0]
  string_entry : ∀ t s, (enc.stringInsert t s).2.length = (fs.format id).stringEntry.size
  symbol_entry : ∀ d, (enc.symbolInsert d).2.length = (fs.format id).symbolEntry.size
  layout : id = .V8 → LayoutV8.WF (fs.format id) enc fs.layoutV8

end OcdFileExport

namespace OcdFileExport

/-- A buffer that has the layout of a fresh file and whose header holds the
version `v` and the sub-version `sub`. -/
structure HeaderState (F : Format) (v sub : Nat) (buf : QByteArray) : Prop where
  inv : Inv F buf (OcdFile.freshRegs F)
  version : mid buf F.versionOff 2 = natToLe 2 v
  subversion : mid buf F.subversionOff 1 = natToLe 1 sub

end OcdFileExport

/-! ## A concrete export -/

namespace OcdFileExport

open Mapper

/-- A set of descriptors: the version 8 descriptor with its layout (the
`double` members of the setup record from offset 24 on, color records of 72
bytes from offset 24 of the symbol header on), and for the other
instantiations the version 9 header layout with their own version number. -/
def sampleFormats : Formats where
  format := fun id =>
    match id with
    | .V8 => FormatV8
    | _ => { FormatV9 with version := id.version }
  layoutV8 :=
    { setupPosOff := 16, mapScaleOff := 24, realOffsetXOff := 32, realOffsetYOff := 40,
      realAngleOff := 48, symbolHeaderOff := 48, numColorsOff := 0, colorInfoOff := 24,
      colorInfoSize := 72, numberOff := 0, nameOff := 8, nameSize := 32, cmykOff := 4,
      separationsOff := 40, separationsSize := 32 }
  custom8Bit := fun id => decide (id = .V8 ∨ id = .V9)

/-- Encoders that store every string as it is, with a zero entry. -/
def sampleEncoders : Encoders where
  doubleBytes := fun _ => zeros 8
  string1039 := fun _ _ => [9, 109, 50, 53, 48, 48, 48]
  string9 := fun _ => [82, 101, 100]
  colorName := fun _ => zeros 32
  pointSymbol := fun _ => zeros 24
  stringInsert := fun _ s => (s, zeros 16)
  symbolInsert := fun d => (d, zeros 4)

/-- A map with one color, one point symbol and one line symbol. -/
def sampleMap : Map where
  georeferencing :=
    { scaleDenominator := 25000, projectedRefPointX := 0, projectedRefPointY := 0,
      grivation := 0 }
  colors :=
    [{ name := "Red", priority := 0, cmyk := { c := 0, m := 1, y := 1, k := 0 },
       knockout := false, opacity := 1 }]
  symbols :=
    [{ type := .point, name := "Knoll", number0 := 101, number1 := 0, isProtected := false,
       isHidden := false, isRotatable := false },
     { type := .line, name := "Path", number0 := 505, number1 := 0, isProtected := false,
       isHidden := false, isRotatable := false }]

end OcdFileExport

namespace OcdFileExport

/-- The tests of lines 114-123 in the order of the source: the suffix looked
for in the file name and the version that it selects. -/
def versionSuffixes : List (String × Int) :=
  [("test-v8.ocd", 8), ("test-v9.ocd", 9), ("test-v10.ocd", 10), ("test-v11.ocd", 11),
   ("test-v12.ocd", 12)]

/-- An if-else chain over a list of suffix tests: the version of the first test
whose suffix ends the name, the default version when there is none. -/
def resolveWith (tests : List (String × Int)) (default_version : Int) (name : String) : Int :=
  match tests with
  | [] => default_version
  | test :: rest =>
    if test.1.toList.isSuffixOf name.toList then test.2
    else resolveWith rest default_version name

end OcdFileExport

/-! ## Text output, color strings and base symbols -/

namespace OcdFileExport

open Mapper

/-- A `QTextStream` opened on a string with `QIODevice::Append`: the text
written to the string so far. -/
structure QTextStream where
  string : String

/-- The operator `out << s` for a string. -/
def QTextStream.putString (out : QTextStream) (s : String) : QTextStream :=
  { string := out.string ++ s }

/-- The operator `out << i` for an `int`: its decimal digits, after a minus
sign when it is negative. -/
def QTextStream.putInt (out : QTextStream) (i : Int) : QTextStream :=
  { string := out.string ++ toString i }

/-- The operator `out << c` for a `char`. -/
def QTextStream.putChar (out : QTextStream) (c : Char) : QTextStream :=
  { string := out.string.push c }

/-- The function `makeString9`, lines 305-320. -/
def makeString9 (color : MapColor) : String :=
  let out : QTextStream := { string := "" }
  let out := out.putString color.name
  let out := out.putString "\tn"
  let out := out.putInt color.priority
  let out := out.putString "\tc"
  let out := out.putInt (qRound (color.cmyk.c * 100))
  let out := out.putString "\tm"
  let out := out.putInt (qRound (color.cmyk.m * 100))
  let out := out.putString "\ty"
  let out := out.putInt (qRound (color.cmyk.y * 100))
  let out := out.putString "\tk"
  let out := out.putInt (qRound (color.cmyk.k * 100))
  let out := out.putString "\to"
  let out := out.putChar (if color.knockout then '0' else '1')
  let out := out.putString "\tt"
  let out := out.putInt (qRound (color.opacity * 100))
  out.string

/-- The offset of the record `symbol_header.color_info[i]` in a version 8
header. -/
def LayoutV8.colorInfoAt (L : LayoutV8) (i : Nat) : Nat :=
  L.symbolHeaderOff + L.colorInfoOff + i * L.colorInfoSize

/-- The members of `ColorInfoV8` that the exporter writes do not overlap, and
`num_colors` lies in front of the array `color_info`. -/
structure LayoutV8.Fields (L : LayoutV8) : Prop where
  number_name : Disjoint2 L.numberOff 2 L.nameOff L.nameSize
  number_cmyk : Disjoint2 L.numberOff 2 L.cmykOff 4
  number_separations : Disjoint2 L.numberOff 2 L.separationsOff L.separationsSize
  name_cmyk : Disjoint2 L.nameOff L.nameSize L.cmykOff 4
  name_separations : Disjoint2 L.nameOff L.nameSize L.separationsOff L.separationsSize
  cmyk_separations : Disjoint2 L.cmykOff 4 L.separationsOff L.separationsSize
  num_colors_low : L.numColorsOff + 2 ≤ L.colorInfoOff

/-- A fixed-width integer type of C++: its width in bits and whether it is
signed. -/
structure IntType where
  bits : Nat
  signed : Bool
  deriving DecidableEq, Repr

/-- Conversion of an integer value to a fixed-width integer type. -/
def IntType.convert (T : IntType) (x : Int) : Int :=
  if T.signed then (x + 2 ^ (T.bits - 1)) % 2 ^ T.bits - 2 ^ (T.bits - 1)
  else x % 2 ^ T.bits

/-- Whether a value lies in the range of `int`. -/
def inInt (x : Int) : Bool := decide (-2 ^ 31 ≤ x ∧ x < 2 ^ 31)

/-- What `setupBaseSymbol` takes from the record type `OcdBaseSymbol` and from
ocd_types.h: the constant `symbol_number_factor`, the type of the member
`number`, and the status bits `Ocd::SymbolProtected` and `Ocd::SymbolHidden`. -/
structure BaseSymbolType where
  symbol_number_factor : Int
  numberType : IntType
  symbolProtected : Nat
  symbolHidden : Nat

/-- The members of a base symbol record that the exporter sets; every other
member is zero. -/
structure OcdBaseSymbol where
  description : List Byte
  number : Int
  type : Nat
  flags : Nat
  status : Nat
  deriving DecidableEq

/-- The value of the local variable `number` of `setupBaseSymbol` after lines
342-344, computed in `int`; `none` when the arithmetic leaves the range of
`int` or divides by zero, where the behaviour is undefined. -/
def symbolNumber (factor : Int) (symbol : Symbol) : Option Int :=
  let number := symbol.number0 * factor
  if inInt number then
    if symbol.number1 ≥ 0 then
      if factor = 0 then none
      else if inInt (number + symbol.number1.tmod factor) then
        some (number + symbol.number1.tmod factor)
      else none
    else some number
  else none

/-- The function `setupBaseSymbol`, lines 337-376; `description` is the
conversion `toOcdString` followed by the assignment to the member
`description`. -/
def setupBaseSymbol (B : BaseSymbolType) (description : String → List Byte)
    (symbol : Symbol) : Option OcdBaseSymbol :=
  match symbolNumber B.symbol_number_factor symbol with
  | none => none
  | some number =>
    some
      { description := description symbol.name
        number := if number ≠ 0 then B.numberType.convert number else 1
        type := 0
        flags := 0
        status :=
          (if symbol.isProtected then B.symbolProtected else 0) |||
            (if symbol.isHidden then B.symbolHidden else 0) }

end OcdFileExport

namespace OcdFileExport

open Mapper

/-- The record `color_info[i]` of a version 8 header in `buf` holds the number
`i`, the name and the CMYK bytes of `color`, and zero separations. -/
def ColorStored (L : LayoutV8) (enc : Encoders) (buf : QByteArray) (i : Nat)
    (color : MapColor) : Prop :=
  mid buf (L.colorInfoAt i + L.numberOff) 2 = natToLe 2 i ∧
  mid buf (L.colorInfoAt i + L.nameOff) L.nameSize = enc.colorName color.name ∧
  mid buf (L.colorInfoAt i + L.cmykOff) 4 =
    [u8 (qRound (200 * color.cmyk.c)), u8 (qRound (200 * color.cmyk.m)),
     u8 (qRound (200 * color.cmyk.y)), u8 (qRound (200 * color.cmyk.k))] ∧
  mid buf (L.colorInfoAt i + L.separationsOff) L.separationsSize = zeros L.separationsSize

end OcdFileExport

namespace OcdFileExport

open Mapper

/-- A map with 300 colors and no symbol. -/
def manyColorsMap : Map where
  georeferencing :=
    { scaleDenominator := 25000, projectedRefPointX := 0, projectedRefPointY := 0,
      grivation := 0 }
  colors :=
    List.replicate 300
      { name := "Red", priority := 0, cmyk := { c := 0, m := 1, y := 1, k := 0 },
        knockout := false, opacity := 1 }
  symbols := []

end OcdFileExport

namespace Mapper

/-- The constant `epsilon` of `operator==`, map_color.h line 481: the greatest
difference of two components that are regarded as equal, `0.0005f`. -/
def MapColorCmyk.epsilon : ℚ := 5 / 10000

/-- The function `operator==(const MapColorCmyk&, const MapColorCmyk&)`,
map_color.h lines 474-485. -/
def MapColorCmyk.operator_eq (lhs rhs : MapColorCmyk) : Bool :=
  decide (|lhs.c - rhs.c| ≤ MapColorCmyk.epsilon) &&
  decide (|lhs.m - rhs.m| ≤ MapColorCmyk.epsilon) &&
  decide (|lhs.y - rhs.y| ≤ MapColorCmyk.epsilon) &&
  decide (|lhs.k - rhs.k| ≤ MapColorCmyk.epsilon)

/-- The function `operator!=(const MapColorCmyk&, const MapColorCmyk&)`,
map_color.h lines 487-490. -/
def MapColorCmyk.operator_ne (lhs rhs : MapColorCmyk) : Bool :=
  !(MapColorCmyk.operator_eq lhs rhs)

end Mapper

namespace OcdFileExport

open Mapper

/-- The decimal digits of `n`, filled with zeros on the left to `width`
characters. -/
def padDigits (width n : Nat) : String :=
  String.mk (List.replicate (width - (toString n).length) '0') ++ toString n

/-- The text that a `QTextStream` in `fixed` notation writes for a real number
with `precision` digits after the decimal point: the value rounded to that
many digits, a half away from zero. -/
def fixedNotation (precision : Nat) (x : ℚ) : String :=
  let scaled : Nat := (2 * x.num.natAbs * 10 ^ precision + x.den) / (2 * x.den)
  (if x.num < 0 then "-" else "") ++ toString (scaled / 10 ^ precision) ++
    (if precision = 0 then "" else "." ++ padDigits precision (scaled % 10 ^ precision))

/-- The operator `out << n` for an `unsigned int`. -/
def QTextStream.putUInt (out : QTextStream) (n : Nat) : QTextStream :=
  { string := out.string ++ toString n }

/-- The operator `out << x` for a `double` on a stream in `fixed` notation
after `qSetRealNumberPrecision(precision)`. -/
def QTextStream.putReal (out : QTextStream) (precision : Nat) (x : ℚ) : QTextStream :=
  { string := out.string ++ fixedNotation precision x }

/-- The values of `grid_spacing_real` and `grid_spacing_map` after the switch
of lines 222-233. -/
def gridSpacing (map : Map) : ℚ × ℚ :=
  let spacing := min map.grid.horizontalSpacing map.grid.verticalSpacing
  match map.grid.unit with
  | .MillimetersOnMap => (spacing * map.georeferencing.scaleDenominator / 1000, spacing)
  | .MetersInTerrain => (spacing, spacing * 1000 / map.georeferencing.scaleDenominator)

/-- The function `makeString1039`, lines 213-255. -/
def makeString1039 (map : Map) (version : Nat) : String :=
  let georef := map.georeferencing
  let grid_spacing_real := (gridSpacing map).1
  let grid_spacing_map := (gridSpacing map).2
  let out : QTextStream := { string := "" }
  let out := out.putString "\tm"
  let out := out.putUInt georef.scaleDenominator
  let out := out.putString "\tg"
  let out := out.putReal 4 grid_spacing_map
  let out := out.putString "\tr"
  let out := out.putInt 1
  let out := out.putString "\tx"
  let out := out.putInt (qRound georef.toProjectedCoordsOriginX)
  let out := out.putString "\ty"
  let out := out.putInt (qRound georef.toProjectedCoordsOriginY)
  let out := out.putString "\ta"
  let out := out.putReal 8 georef.grivation
  let out := out.putString "\td"
  let out := out.putReal 6 grid_spacing_real
  let out := out.putString "\ti"
  let out := out.putInt 0
  let out :=
    if version > 9 then
      let out := out.putString "\tb"
      let out := out.putReal 2 0
      let out := out.putString "\tc"
      out.putReal 2 0
    else out
  out.string

/-- What `exportPointSymbol` takes from the declaration of the point symbol
record of a format (ocd_types_v*.h): the constants of the base symbol, the
constant `Ocd::SymbolTypePoint`, `sizeof(OcdPointSymbol)`,
`sizeof(OcdPointSymbol::Element)`, and the object representation of a record
whose member `base` is given and whose other members are zero. -/
structure PointSymbolType where
  base : BaseSymbolType
  symbolTypePoint : Nat
  size : Nat
  elementSize : Nat
  objectBytes : OcdBaseSymbol → List Byte

/-- The record `ocd_symbol` of `exportPointSymbol` after lines 383-387; no
value when `setupBaseSymbol` has none. -/
def exportPointSymbolRecord (P : PointSymbolType) (description : String → List Byte)
    (symbol : Symbol) : Option OcdBaseSymbol :=
  match setupBaseSymbol P.base description symbol with
  | none => none
  | some base =>
    let base := { base with type := P.symbolTypePoint }
    some (if symbol.isRotatable then { base with flags := base.flags ||| 1 } else base)

/-- The function `exportPointSymbol`, lines 380-392: the first
`sizeof(OcdPointSymbol) - sizeof(Element)` bytes of the record. -/
def exportPointSymbol (P : PointSymbolType) (description : String → List Byte)
    (symbol : Symbol) : Option (List Byte) :=
  match exportPointSymbolRecord P description symbol with
  | none => none
  | some ocd_symbol => some ((P.objectBytes ocd_symbol).take (P.size - P.elementSize))

/-- One round of the loop of `exportSymbols`, lines 406-447: a point symbol is
encoded and inserted, a symbol of another type is reported with `qInfo` and
left out. -/
def exportSymbol (F : Format) (enc : Encoders) (s : ExportState) (symbol : Symbol) :
    Option ExportState :=
  match symbol.type with
  | .point => runCalls F s [symbolCall enc (enc.pointSymbol symbol)]
  | _ => some s

/-- The loop of `exportSymbols` over the symbols of the map in the order of
their definition. -/
def exportSymbolsLoop (F : Format) (enc : Encoders) : ExportState → List Symbol → Option ExportState
  | s, [] => some s
  | s, symbol :: rest =>
    match exportSymbol F enc s symbol with
    | none => none
    | some next => exportSymbolsLoop F enc next rest

/-- A symbol whose number is 6553.6 and a base symbol with an unsigned 16 bit
`number` and the factor 10. -/
def wrappingSymbol : Symbol :=
  { type := .point, name := "Knoll", number0 := 6553, number1 := 6, isProtected := false,
    isHidden := false, isRotatable := false }

/-- A base symbol with the factor 10, an unsigned 16 bit `number`, and the
status bits 1 and 2. -/
def sampleBaseSymbolType : BaseSymbolType :=
  { symbol_number_factor := 10, numberType := { bits := 16, signed := false },
    symbolProtected := 1, symbolHidden := 2 }

end OcdFileExport

namespace OcdFileExport

open Mapper

/-- The bytes of a text in Latin-1. -/
def latin1 (s : String) : List Byte :=
  s.toList.map fun c => ⟨c.toNat % 256, Nat.mod_lt _ (by decide)⟩

/-- A point symbol record of 28 bytes whose elements have 4 bytes: the number
in two bytes, the type, the flags and the status in one byte each. -/
def samplePointSymbolType : PointSymbolType :=
  { base := sampleBaseSymbolType, symbolTypePoint := 1, size := 28, elementSize := 4,
    objectBytes := fun r =>
      natToLe 2 r.number.toNat ++ natToLe 1 r.type ++ natToLe 1 r.flags ++
        natToLe 1 r.status ++ zeros 23 }

/-- Encoders that store the text of `makeString1039` in Latin-1 and the record
of `exportPointSymbol` for the sample record type. -/
def textEncoders : Encoders :=
  { sampleEncoders with
    string1039 := fun map version => latin1 (makeString1039 map version)
    pointSymbol := fun symbol =>
      (exportPointSymbol samplePointSymbolType latin1 symbol).getD [] }

end OcdFileExport

namespace Ocd

/-- A 1076-byte buffer: a version 9 header whose `first_symbol_block` is 48,
followed by one symbol index block whose `next_block` is 48, the offset of the
block itself. -/
def cyclicSymbolDoc : QByteArray :=
  zeros 8 ++ natToLe 4 48 ++ zeros 36 ++ natToLe 4 48 ++ zeros 1024

end Ocd

/-! ## Theorems -/

namespace Ocd

theorem u32_of_lt {n : Nat} (h : n < 2 ^ 32) : u32 n = n := Nat.mod_eq_of_lt h

theorem u32_idem (n : Nat) : u32 (u32 n) = u32 n := by simp [u32]

/-- C6 (as the code has it): offset 0 gives "no block" without a warning; for a
non-zero 32-bit offset whose block end does not wrap, the logged out-of-bounds
path is taken exactly when `offset + block_size - 1` is greater than or equal
to the buffer size, and otherwise the view at that offset is returned. -/
theorem getBlockChecked_cases (byte_array : QByteArray) (pos block_size : Nat)
    (hlen : byte_array.length < 2 ^ 31) (hwrap : pos + block_size - 1 < 2 ^ 32) :
    getBlockChecked byte_array 0 block_size = { block := none, warned := false } ∧
    (pos ≠ 0 →
      (getBlockChecked byte_array pos block_size = { block := none, warned := true } ↔
        byte_array.length ≤ pos + block_size - 1) ∧
      (¬ byte_array.length ≤ pos + block_size - 1 →
        getBlockChecked byte_array pos block_size = { block := some pos, warned := false })) := by
  have h1 : u32 (pos + block_size - 1) = pos + block_size - 1 := u32_of_lt hwrap
  have h2 : u32 byte_array.length = byte_array.length := u32_of_lt (by omega)
  refine ⟨by simp [getBlockChecked], fun hpos => ⟨?_, ?_⟩⟩
  · simp only [getBlockChecked, if_neg hpos, h1, h2]
    constructor
    · intro h
      by_contra hc
      rw [if_neg (by simpa using hc)] at h
      simp at h
    · intro h
      rw [if_pos h]
  · intro h
    simp only [getBlockChecked, if_neg hpos, h1, h2]
    rw [if_neg (by simpa using h)]

/-- Witness for C6: a 10-byte buffer, offset 4, block size 4. -/
theorem getBlockChecked_cases_witness :
    getBlockChecked (zeros 10) 0 4 = { block := none, warned := false } ∧
    ((4 : Nat) ≠ 0 →
      (getBlockChecked (zeros 10) 4 4 = { block := none, warned := true } ↔
        (zeros 10).length ≤ 4 + 4 - 1) ∧
      (¬ (zeros 10).length ≤ 4 + 4 - 1 →
        getBlockChecked (zeros 10) 4 4 = { block := some 4, warned := false })) :=
  getBlockChecked_cases (zeros 10) 4 4 (by decide) (by decide)

/-- C6 as stated fails: with a 10-byte buffer, offset 10 and block size 1 the
value `offset + block_size - 1 = 10` does not exceed the size 10, yet the
logged out-of-bounds path is taken and no view is returned. -/
theorem getBlockChecked_exceeds_counterexample :
    ¬ (∀ (byte_array : QByteArray) (pos block_size : Nat), pos ≠ 0 →
        pos < 2 ^ 32 → block_size < 2 ^ 32 →
        ((getBlockChecked byte_array pos block_size).warned = true ↔
          byte_array.length < pos + block_size - 1)) := by
  intro h
  have h1 := h (zeros 10) 10 1 (by decide) (by decide) (by decide)
  revert h1
  decide

end Ocd

namespace Ocd

/-! ### Little-endian words -/

theorem length_natToLe (n v : Nat) : (natToLe n v).length = n := by
  induction n generalizing v with
  | zero => rfl
  | succ n ih => simp [natToLe, ih]

theorem leToNat_natToLe (n v : Nat) : leToNat (natToLe n v) = v % 256 ^ n := by
  induction n generalizing v with
  | zero => simp [natToLe, leToNat, Nat.mod_one]
  | succ n ih =>
    simp only [natToLe, leToNat, ih]
    rw [pow_succ, Nat.mul_comm (256 ^ n) 256, Nat.mod_mul]

theorem leToNat_lt (bs : List Byte) : leToNat bs < 256 ^ bs.length := by
  induction bs with
  | nil => simp [leToNat]
  | cons b bs ih =>
    simp only [leToNat, List.length_cons, pow_succ]
    have := b.isLt
    omega

theorem length_zeros (n : Nat) : (zeros n).length = n := by simp [zeros]

theorem leToNat_zeros (n : Nat) : leToNat (zeros n) = 0 := by
  induction n with
  | zero => rfl
  | succ n ih =>
    have : zeros (n + 1) = (0 : Byte) :: zeros n := by simp [zeros, List.replicate_succ]
    rw [this]; simp [leToNat, ih]

/-! ### Reading and writing byte ranges -/

theorem length_mid (buf : QByteArray) (off n : Nat) (h : off + n ≤ buf.length) :
    (mid buf off n).length = n := by
  simp [mid]; omega

theorem getElem?_mid (buf : QByteArray) (off n k : Nat) :
    (mid buf off n)[k]? = if k < n then buf[off + k]? else none := by
  simp [mid, List.getElem?_take, List.getElem?_drop]

theorem mid_congr {a b : QByteArray} {o o' n : Nat}
    (h : ∀ k, k < n → a[o + k]? = b[o' + k]?) : mid a o n = mid b o' n := by
  apply List.ext_getElem?
  intro k
  rw [getElem?_mid, getElem?_mid]
  by_cases hk : k < n
  · simp [hk, h k hk]
  · simp [hk]

theorem length_put (buf : QByteArray) (off : Nat) (bs : List Byte)
    (h : off + bs.length ≤ buf.length) : (put buf off bs).length = buf.length := by
  simp [put]; omega

theorem getElem?_put (buf : QByteArray) (off : Nat) (bs : List Byte) (i : Nat)
    (h : off + bs.length ≤ buf.length) :
    (put buf off bs)[i]? =
      if i < off then buf[i]? else if i < off + bs.length then bs[i - off]? else buf[i]? := by
  unfold put
  have hl : (List.take off buf).length = off := by simp; omega
  by_cases h1 : i < off
  · rw [if_pos h1, List.append_assoc, List.getElem?_append_left (by omega)]
    exact List.getElem?_take_of_lt h1
  · rw [if_neg h1]
    by_cases h2 : i < off + bs.length
    · rw [if_pos h2, List.getElem?_append_left (by simp; omega),
        List.getElem?_append_right (by omega), hl]
    · rw [if_neg h2, List.getElem?_append_right (by simp; omega), List.getElem?_drop]
      congr 1
      simp
      omega

theorem getElem?_put_outside (buf : QByteArray) (off : Nat) (bs : List Byte) (i : Nat)
    (h : off + bs.length ≤ buf.length) (hi : i < off ∨ off + bs.length ≤ i) :
    (put buf off bs)[i]? = buf[i]? := by
  rw [getElem?_put buf off bs i h]
  rcases hi with hi | hi
  · rw [if_pos hi]
  · rw [if_neg (by omega), if_neg (by omega)]

theorem mid_put_disjoint (buf : QByteArray) (off : Nat) (bs : List Byte) (o n : Nat)
    (h : off + bs.length ≤ buf.length) (hd : o + n ≤ off ∨ off + bs.length ≤ o) :
    mid (put buf off bs) o n = mid buf o n := by
  apply mid_congr
  intro k hk
  apply getElem?_put_outside buf off bs (o + k) h
  omega

theorem mid_put_same (buf : QByteArray) (off : Nat) (bs : List Byte)
    (h : off + bs.length ≤ buf.length) : mid (put buf off bs) off bs.length = bs := by
  apply List.ext_getElem?
  intro k
  rw [getElem?_mid]
  by_cases hk : k < bs.length
  · rw [if_pos hk, getElem?_put buf off bs (off + k) h, if_neg (by omega), if_pos (by omega)]
    congr 1
    omega
  · rw [if_neg hk, List.getElem?_eq_none (by omega)]

theorem mid_append_left (a b : QByteArray) (o n : Nat) (h : o + n ≤ a.length) :
    mid (a ++ b) o n = mid a o n := by
  apply mid_congr
  intro k hk
  exact List.getElem?_append_left (by omega)

theorem mid_append_right (a b : QByteArray) : mid (a ++ b) a.length b.length = b := by
  simp [mid]

theorem mid_mid (buf : QByteArray) (o n o' n' : Nat) (h : o' + n' ≤ n) :
    mid (mid buf o n) o' n' = mid buf (o + o') n' := by
  apply List.ext_getElem?
  intro k
  rw [getElem?_mid, getElem?_mid]
  by_cases hk : k < n'
  · simp only [getElem?_mid, if_pos hk, if_pos (show o' + k < n by omega), Nat.add_assoc]
  · simp only [getElem?_mid, if_neg hk]

theorem readBytes_eq_some {buf : QByteArray} {off n : Nat} (h : off + n ≤ buf.length) :
    readBytes buf off n = some (mid buf off n) := by simp [readBytes, h]

theorem readU32_eq_some {buf : QByteArray} {off : Nat} (h : off + 4 ≤ buf.length) :
    readU32 buf off = some (leToNat (mid buf off 4)) := by
  simp [readU32, readBytes_eq_some h]

theorem readU32_eq_none {buf : QByteArray} {off : Nat} (h : ¬ off + 4 ≤ buf.length) :
    readU32 buf off = none := by simp [readU32, readBytes, h]

theorem readU32_bound {buf : QByteArray} {off v : Nat} (h : readU32 buf off = some v) :
    off + 4 ≤ buf.length ∧ v < 2 ^ 32 := by
  by_cases hb : off + 4 ≤ buf.length
  · rw [readU32_eq_some hb] at h
    refine ⟨hb, ?_⟩
    have h1 := leToNat_lt (mid buf off 4)
    rw [length_mid buf off 4 hb] at h1
    simp only [Option.some.injEq] at h
    omega
  · rw [readU32_eq_none hb] at h
    exact absurd h (by simp)

theorem writeBytes_eq_some {buf : QByteArray} {off : Nat} {bs : List Byte}
    (h : off + bs.length ≤ buf.length) : writeBytes buf off bs = some (put buf off bs) := by
  simp [writeBytes, h]

theorem writeU32_eq_some {buf : QByteArray} {off : Nat} (v : Nat) (h : off + 4 ≤ buf.length) :
    writeU32 buf off v = some (put buf off (natToLe 4 v)) := by
  unfold writeU32
  rw [writeBytes_eq_some (by rw [length_natToLe]; exact h)]

theorem readU32_put_disjoint (buf : QByteArray) (off : Nat) (bs : List Byte) (o : Nat)
    (h : off + bs.length ≤ buf.length) (hd : o + 4 ≤ off ∨ off + bs.length ≤ o) :
    readU32 (put buf off bs) o = readU32 buf o := by
  simp only [readU32, readBytes, length_put buf off bs h, mid_put_disjoint buf off bs o 4 h hd]

theorem readU32_put_same (buf : QByteArray) (off v : Nat) (h : off + 4 ≤ buf.length) :
    readU32 (put buf off (natToLe 4 v)) off = some (u32 v) := by
  have hl : off + (natToLe 4 v).length ≤ buf.length := by rw [length_natToLe]; exact h
  have hm := mid_put_same buf off (natToLe 4 v) hl
  rw [length_natToLe] at hm
  rw [readU32_eq_some (by rw [length_put buf off _ hl]; exact h), hm, leToNat_natToLe]
  rfl

theorem readU32_append_left (a b : QByteArray) (o : Nat) (h : o + 4 ≤ a.length) :
    readU32 (a ++ b) o = readU32 a o := by
  rw [readU32_eq_some h, readU32_eq_some (by simp; omega), mid_append_left a b o 4 h]

end Ocd

namespace Ocd

/-! ### The block resolver -/

/-- C7 (as the code has it): offset 0 yields "no block" for every buffer and
block size; a non-zero offset at or beyond the buffer length yields the logged
bounds-check failure for every block size of at least one byte whose block end
`offset + block_size` does not pass `2^32`. -/
theorem getBlockChecked_beyond (byte_array : QByteArray) (pos block_size : Nat)
    (hlen : byte_array.length < 2 ^ 31) (hpos : pos ≠ 0) (hbs : 1 ≤ block_size)
    (hwrap : pos + block_size ≤ 2 ^ 32) (hge : byte_array.length ≤ pos) :
    getBlockChecked byte_array pos block_size = { block := none, warned := true } ∧
    getBlockChecked byte_array 0 block_size = { block := none, warned := false } := by
  have h1 : u32 (pos + block_size - 1) = pos + block_size - 1 := u32_of_lt (by omega)
  have h2 : u32 byte_array.length = byte_array.length := u32_of_lt (by omega)
  refine ⟨?_, by simp [getBlockChecked]⟩
  simp only [getBlockChecked, if_neg hpos, h1, h2]
  rw [if_pos (by omega)]

/-- Witness for C7: a 10-byte buffer, offset 12, block size 4. -/
theorem getBlockChecked_beyond_witness :
    getBlockChecked (zeros 10) 12 4 = { block := none, warned := true } ∧
    getBlockChecked (zeros 10) 0 4 = { block := none, warned := false } :=
  getBlockChecked_beyond (zeros 10) 12 4 (by decide) (by decide) (by decide) (by decide)
    (by decide)

/-- C7 as stated fails for the block size 0: on a one-byte buffer the offset 1
is not below the buffer length, and a view is returned. -/
theorem getBlockChecked_beyond_counterexample :
    ¬ (∀ (byte_array : QByteArray) (pos block_size : Nat), pos ≠ 0 →
        pos < 2 ^ 32 → block_size < 2 ^ 32 → byte_array.length ≤ pos →
        (getBlockChecked byte_array pos block_size).block = none) := by
  intro h
  have h1 := h (zeros 1) 1 0 (by decide) (by decide) (by decide) (by decide)
  revert h1
  decide

/-- C8 at a failing input: for a 48-byte buffer, the offset `2^32 - 4099` and
the block size 4100 the sum `pos + block_size - 1` wraps to 0, the check
passes and a view far outside the buffer is returned. -/
theorem getBlockChecked_wraps :
    getBlockChecked (zeros 48) 4294963197 4100 = { block := some 4294963197, warned := false } ∧
    (4294963197 : Nat) < 2 ^ 32 ∧ (4100 : Nat) < 2 ^ 32 ∧
    ¬ (4294963197 + 4100 ≤ (zeros 48).length) := by
  decide

/-- Without wrap-around a returned view lies inside the buffer. -/
theorem getBlockChecked_some {byte_array : QByteArray} {pos block_size b : Nat}
    (hlen : byte_array.length < 2 ^ 31) (hwrap : pos + block_size ≤ 2 ^ 32)
    (hbs : 1 ≤ block_size)
    (h : (getBlockChecked byte_array pos block_size).block = some b) :
    b = pos ∧ pos ≠ 0 ∧ pos + block_size ≤ byte_array.length := by
  unfold getBlockChecked at h
  by_cases hpos : pos = 0
  · simp [hpos] at h
  · rw [if_neg hpos] at h
    have h1 : u32 (pos + block_size - 1) = pos + block_size - 1 := u32_of_lt (by omega)
    have h2 : u32 byte_array.length = byte_array.length := u32_of_lt (by omega)
    rw [h1, h2] at h
    by_cases hc : pos + block_size - 1 ≥ byte_array.length
    · rw [if_pos hc] at h
      simp at h
    · rw [if_neg hc] at h
      simp only [Option.some.injEq] at h
      exact ⟨h.symm, hpos, by omega⟩

theorem getBlockChecked_inside {byte_array : QByteArray} {pos block_size : Nat}
    (hlen : byte_array.length < 2 ^ 31) (hpos : pos ≠ 0) (hbs : 1 ≤ block_size)
    (hin : pos + block_size ≤ byte_array.length) :
    getBlockChecked byte_array pos block_size = { block := some pos, warned := false } := by
  have h1 : u32 (pos + block_size - 1) = pos + block_size - 1 := u32_of_lt (by omega)
  have h2 : u32 byte_array.length = byte_array.length := u32_of_lt (by omega)
  simp only [getBlockChecked, if_neg hpos, h1, h2]
  rw [if_neg (by omega)]

end Ocd

namespace OcdEntityIndex

/-! ### The walk to the tail block and the scan for a free entry -/

theorem getBlockChecked_block_eq {buf : QByteArray} {pos bs b : Nat}
    (h : (getBlockChecked buf pos bs).block = some b) : b = pos ∧ pos ≠ 0 := by
  unfold getBlockChecked at h
  by_cases hpos : pos = 0
  · simp [hpos] at h
  · rw [if_neg hpos] at h
    split at h
    · simp at h
    · simp only [Option.some.injEq] at h
      exact ⟨h.symm, hpos⟩

theorem walk_succ (buf : QByteArray) (bs fuel pos : Nat) :
    walk buf bs (fuel + 1) pos =
      match (getBlockChecked buf pos bs).block with
      | none => .fatal
      | some block =>
        match readU32 buf block with
        | none => .undefined
        | some next_block =>
          if next_block ≠ 0 then walk buf bs fuel next_block else .tail block := rfl

/-- One iteration of the walk at a block that resolves and has a successor. -/
theorem walk_step {buf : QByteArray} {bs fuel pos next : Nat}
    (hres : (getBlockChecked buf pos bs).block = some pos)
    (hnext : readU32 buf pos = some next) (hne : next ≠ 0) :
    walk buf bs (fuel + 1) pos = walk buf bs fuel next := by
  rw [walk_succ, hres]
  simp only [hnext, if_pos hne]

/-- The last iteration of the walk. -/
theorem walk_last {buf : QByteArray} {bs fuel pos : Nat}
    (hres : (getBlockChecked buf pos bs).block = some pos)
    (hnext : readU32 buf pos = some 0) :
    walk buf bs (fuel + 1) pos = .tail pos := by
  rw [walk_succ, hres]
  simp [hnext]

/-- A walk that ends normally ends at a block that lies inside the buffer and
whose `next_block` is 0. -/
theorem walk_tail_spec {buf : QByteArray} {bs fuel pos b : Nat}
    (hlen : buf.length < 2 ^ 31) (hbs1 : 1 ≤ bs) (hbs : bs < 2 ^ 31)
    (h : walk buf bs fuel pos = .tail b) :
    b ≠ 0 ∧ b + bs ≤ buf.length ∧ readU32 buf b = some 0 := by
  induction fuel generalizing pos with
  | zero => simp [walk] at h
  | succ fuel ih =>
    rw [walk_succ] at h
    cases hres : (getBlockChecked buf pos bs).block with
    | none => simp [hres] at h
    | some block =>
      obtain ⟨hb, hpos⟩ := getBlockChecked_block_eq hres
      subst hb
      simp only [hres] at h
      cases hnext : readU32 buf block with
      | none => simp [hnext] at h
      | some next =>
        simp only [hnext] at h
        by_cases hne : next ≠ 0
        · rw [if_pos hne] at h
          exact ih h
        · rw [if_neg hne] at h
          simp only [WalkResult.tail.injEq] at h
          subst h
          have hb4 := (readU32_bound hnext).1
          have := getBlockChecked_some hlen (by omega) hbs1 hres
          refine ⟨hpos, this.2.2, ?_⟩
          rw [hnext]
          simp at hne
          rw [hne]

theorem scan_succ (buf : QByteArray) (E : EntryLayout) (b n index : Nat) :
    scan buf E b (n + 1) index =
      match readU32 buf (entryPosOff E b index) with
      | none => none
      | some p => if p ≠ 0 then scan buf E b n (index + 1) else some index := rfl

/-- The scan stops at the first entry whose `pos` is 0, or at `index + n`. -/
theorem scan_spec (buf : QByteArray) (E : EntryLayout) (b n index : Nat)
    (hin : ∀ j, index ≤ j → j < index + n → ∃ p, readU32 buf (entryPosOff E b j) = some p) :
    ∃ i, scan buf E b n index = some i ∧ index ≤ i ∧ i ≤ index + n ∧
      (∀ j, index ≤ j → j < i → ∃ p, p ≠ 0 ∧ readU32 buf (entryPosOff E b j) = some p) ∧
      (i < index + n → readU32 buf (entryPosOff E b i) = some 0) := by
  induction n generalizing index with
  | zero =>
    refine ⟨index, rfl, le_refl _, le_refl _, ?_, ?_⟩
    · intro j h1 h2; omega
    · intro h; omega
  | succ n ih =>
    obtain ⟨p, hp⟩ := hin index (le_refl _) (by omega)
    rw [scan_succ, hp]
    by_cases hz : p ≠ 0
    · simp only [if_pos hz]
      obtain ⟨i, h1, h2, h3, h4, h5⟩ := ih (index + 1) (fun j hj1 hj2 => hin j (by omega) (by omega))
      refine ⟨i, h1, by omega, by omega, ?_, ?_⟩
      · intro j hj1 hj2
        by_cases hj : j = index
        · subst hj; exact ⟨p, hz, hp⟩
        · exact h4 j (by omega) hj2
      · intro h; exact h5 (by omega)
    · simp only [if_neg hz]
      simp at hz
      subst hz
      refine ⟨index, rfl, le_refl _, by omega, ?_, ?_⟩
      · intro j h1 h2; omega
      · intro _; exact hp

/-- Entries of a block inside the buffer are inside the buffer. -/
theorem entry_in_block (E : EntryLayout) (b j : Nat) (hj : j < 256) :
    entryOff E b j + E.size ≤ b + blockSize E := by
  unfold entryOff blockSize
  have : j * E.size + E.size ≤ 256 * E.size := by
    have := Nat.mul_le_mul_right E.size (show j + 1 ≤ 256 by omega)
    rw [Nat.add_mul, Nat.one_mul] at this
    exact this
  omega

theorem entryPos_readable {buf : QByteArray} {E : EntryLayout} {b j : Nat}
    (hpos : E.posOff + 4 ≤ E.size) (hin : b + blockSize E ≤ buf.length) (hj : j < 256) :
    entryPosOff E b j + 4 ≤ buf.length := by
  have := entry_in_block E b j hj
  unfold entryPosOff
  omega

/-- Distinct entries of one block do not overlap. -/
theorem entry_disjoint (E : EntryLayout) (b i j : Nat) (h : i ≠ j) :
    entryOff E b i + E.size ≤ entryOff E b j ∨ entryOff E b j + E.size ≤ entryOff E b i := by
  unfold entryOff
  rcases Nat.lt_or_gt_of_ne h with h | h
  · left
    have := Nat.mul_le_mul_right E.size (show i + 1 ≤ j by omega)
    rw [Nat.add_mul, Nat.one_mul] at this
    omega
  · right
    have := Nat.mul_le_mul_right E.size (show j + 1 ≤ i by omega)
    rw [Nat.add_mul, Nat.one_mul] at this
    omega

end OcdEntityIndex

namespace OcdEntityIndex

/-! ### The step budget of the walk is sufficient -/

theorem walkPos_succ (buf : QByteArray) (bs k pos : Nat) :
    walkPos buf bs (k + 1) pos =
      match (getBlockChecked buf pos bs).block with
      | none => none
      | some block =>
        match readU32 buf block with
        | none => none
        | some next_block =>
          if next_block ≠ 0 then walkPos buf bs k next_block else none := rfl

theorem walk_running_iff (buf : QByteArray) (bs fuel pos : Nat) :
    walk buf bs fuel pos = .running ↔ walkPos buf bs fuel pos ≠ none := by
  induction fuel generalizing pos with
  | zero => simp [walk, walkPos]
  | succ fuel ih =>
    rw [walk_succ, walkPos_succ]
    cases hres : (getBlockChecked buf pos bs).block with
    | none => simp
    | some block =>
      simp only []
      cases hnext : readU32 buf block with
      | none => simp
      | some next =>
        simp only []
        by_cases hne : next ≠ 0
        · simp only [if_pos hne]
          exact ih next
        · simp only [if_neg hne]
          simp

theorem walkPos_add (buf : QByteArray) (bs j k pos : Nat) :
    walkPos buf bs (j + k) pos = (walkPos buf bs j pos).bind (walkPos buf bs k) := by
  induction j generalizing pos with
  | zero => simp [walkPos]
  | succ j ih =>
    rw [Nat.add_right_comm, walkPos_succ, walkPos_succ]
    cases hres : (getBlockChecked buf pos bs).block with
    | none => simp
    | some block =>
      simp only []
      cases hnext : readU32 buf block with
      | none => simp
      | some next =>
        simp only []
        by_cases hne : next ≠ 0
        · simp only [if_pos hne]
          exact ih next
        · simp only [if_neg hne]
          simp

theorem walkPos_le {buf : QByteArray} {bs j k pos : Nat} (hjk : j ≤ k)
    (h : walkPos buf bs k pos ≠ none) : walkPos buf bs j pos ≠ none := by
  obtain ⟨d, rfl⟩ := Nat.exists_eq_add_of_le hjk
  rw [walkPos_add] at h
  intro hj
  rw [hj] at h
  simp at h

/-- An offset that is followed by a further iteration lies inside the buffer. -/
theorem walkPos_lt_length {buf : QByteArray} {bs k pos p : Nat}
    (hp : walkPos buf bs k pos = some p) (h : walkPos buf bs (k + 1) pos ≠ none) :
    p < buf.length := by
  rw [walkPos_add, hp] at h
  simp only [Option.some_bind] at h
  rw [walkPos_succ] at h
  cases hres : (getBlockChecked buf p bs).block with
  | none => simp [hres] at h
  | some block =>
    obtain ⟨hb, _⟩ := getBlockChecked_block_eq hres
    subst hb
    simp only [hres] at h
    cases hnext : readU32 buf block with
    | none => simp [hnext] at h
    | some next =>
      have := (readU32_bound hnext).1
      omega

/-- A walk that is still running after `length + 1` iterations runs forever. -/
theorem walkPos_forever {buf : QByteArray} {bs pos : Nat}
    (h : walkPos buf bs (buf.length + 1) pos ≠ none) (n : Nat) :
    walkPos buf bs n pos ≠ none := by
  have hsome : ∀ i, i ≤ buf.length → ∃ p, walkPos buf bs i pos = some p ∧ p < buf.length := by
    intro i hi
    have h1 : walkPos buf bs (i + 1) pos ≠ none := walkPos_le (by omega) h
    have h0 : walkPos buf bs i pos ≠ none := walkPos_le (by omega) h1
    obtain ⟨p, hp⟩ := Option.ne_none_iff_exists'.mp h0
    exact ⟨p, hp, walkPos_lt_length hp h1⟩
  have hmaps : ∀ i ∈ Finset.range (buf.length + 1),
      (walkPos buf bs i pos).getD 0 ∈ Finset.range buf.length := by
    intro i hi
    obtain ⟨p, hp, hlt⟩ := hsome i (by simpa [Nat.lt_succ_iff] using hi)
    simp [hp, hlt]
  obtain ⟨x, hx, y, hy, hxy, hfxy⟩ :=
    Finset.exists_ne_map_eq_of_card_lt_of_maps_to (by simp) hmaps
  have key : ∀ i j, i < j → j ≤ buf.length →
      (walkPos buf bs i pos).getD 0 = (walkPos buf bs j pos).getD 0 →
      ∀ n, walkPos buf bs n pos ≠ none := by
    intro i j hij hj heq n
    obtain ⟨p, hp, _⟩ := hsome i (by omega)
    obtain ⟨q, hq, _⟩ := hsome j hj
    simp only [hp, hq, Option.getD_some] at heq
    subst heq
    induction n using Nat.strong_induction_on with
    | _ n ih =>
      by_cases hn : n ≤ j
      · exact walkPos_le (by omega) h
      · have e1 : n = j + (n - j) := by omega
        have e2 : walkPos buf bs n pos = walkPos buf bs (i + (n - j)) pos := by
          rw [e1, walkPos_add, hq, Nat.add_sub_cancel_left, walkPos_add, hp]
        rw [e2]
        exact ih (i + (n - j)) (by omega)
  simp only [Finset.mem_range, Nat.lt_succ_iff] at hx hy
  rcases Nat.lt_or_gt_of_ne hxy with hlt | hlt
  · exact key x y hlt hy hfxy n
  · exact key y x hlt hx hfxy.symm n

theorem walk_mono {buf : QByteArray} {bs fuel pos : Nat} {r : WalkResult}
    (h : walk buf bs fuel pos = r) (hr : r ≠ .running) (d : Nat) :
    walk buf bs (fuel + d) pos = r := by
  induction fuel generalizing pos with
  | zero => simp [walk] at h; exact absurd h.symm hr
  | succ fuel ih =>
    rw [Nat.add_right_comm, walk_succ]
    rw [walk_succ] at h
    cases hres : (getBlockChecked buf pos bs).block with
    | none => simpa [hres] using h
    | some block =>
      simp only [hres] at h ⊢
      cases hnext : readU32 buf block with
      | none => simpa [hnext] using h
      | some next =>
        simp only [hnext] at h ⊢
        by_cases hne : next ≠ 0
        · rw [if_pos hne] at h ⊢
          exact ih h
        · rw [if_neg hne] at h ⊢
          exact h

/-- Fuel adequacy: whatever the walk yields with some step budget, it yields
with the budget `length + 1` used by `insert`. -/
theorem walk_adequate {buf : QByteArray} {bs fuel pos : Nat} {r : WalkResult}
    (h : walk buf bs fuel pos = r) (hr : r ≠ .running) :
    walk buf bs (buf.length + 1) pos = r := by
  have hnr : walk buf bs (buf.length + 1) pos ≠ .running := by
    intro hrun
    have h1 := walkPos_forever ((walk_running_iff buf bs _ pos).mp hrun) fuel
    have h2 := (walk_running_iff buf bs fuel pos).mpr h1
    rw [h] at h2
    exact hr h2
  rcases Nat.le_total fuel (buf.length + 1) with hle | hle
  · obtain ⟨d, hd⟩ := Nat.exists_eq_add_of_le hle
    rw [hd]
    exact walk_mono h hr d
  · obtain ⟨d, hd⟩ := Nat.exists_eq_add_of_le hle
    have := walk_mono (rfl : walk buf bs (buf.length + 1) pos = _) hnr d
    rw [← hd, h] at this
    exact this.symm

end OcdEntityIndex

namespace OcdEntityIndex

/-! ### One call of insert, step by step -/

theorem place_eq {E : EntryLayout} {buf : QByteArray} {b i : Nat} (data : List Byte)
    {entry : List Byte} (hentry : entry.length = E.size) (hpos : E.posOff + 4 ≤ E.size)
    (hin : entryOff E b i + E.size ≤ buf.length) :
    place E buf b i data entry = .ok (placed E buf b i data entry) (entryOff E b i) := by
  unfold place placed
  have h1 : entryOff E b i + entry.length ≤ (buf ++ data).length := by
    rw [hentry, List.length_append]; omega
  simp only [writeBytes_eq_some h1]
  have h2 : entryPosOff E b i + 4 ≤ (put (buf ++ data) (entryOff E b i) entry).length := by
    rw [length_put _ _ _ h1, List.length_append]; unfold entryPosOff; omega
  simp only [writeU32_eq_some _ h2]

section placedFacts

variable {E : EntryLayout} {buf : QByteArray} {b i : Nat} {data entry : List Byte}

theorem length_placed (hentry : entry.length = E.size) (hpos : E.posOff + 4 ≤ E.size)
    (hin : entryOff E b i + E.size ≤ buf.length) :
    (placed E buf b i data entry).length = buf.length + data.length := by
  unfold placed
  have h1 : entryOff E b i + entry.length ≤ (buf ++ data).length := by
    rw [hentry, List.length_append]; omega
  rw [length_put, length_put _ _ _ h1, List.length_append]
  rw [length_put _ _ _ h1, length_natToLe, List.length_append]
  unfold entryPosOff; omega

/-- Bytes of the old buffer outside the filled entry are unchanged. -/
theorem getElem?_placed (hentry : entry.length = E.size) (hpos : E.posOff + 4 ≤ E.size)
    (hin : entryOff E b i + E.size ≤ buf.length) (j : Nat) (hj : j < buf.length)
    (hout : j < entryOff E b i ∨ entryOff E b i + E.size ≤ j) :
    (placed E buf b i data entry)[j]? = buf[j]? := by
  unfold placed
  have h1 : entryOff E b i + entry.length ≤ (buf ++ data).length := by
    rw [hentry, List.length_append]; omega
  have h2 : entryPosOff E b i + (natToLe 4 (u32 buf.length)).length ≤
      (put (buf ++ data) (entryOff E b i) entry).length := by
    rw [length_put _ _ _ h1, length_natToLe, List.length_append]; unfold entryPosOff; omega
  rw [getElem?_put_outside _ _ _ _ h2 (by rw [length_natToLe]; unfold entryPosOff; omega),
    getElem?_put_outside _ _ _ _ h1 (by rw [hentry]; omega),
    List.getElem?_append_left hj]

theorem mid_placed_old (hentry : entry.length = E.size) (hpos : E.posOff + 4 ≤ E.size)
    (hin : entryOff E b i + E.size ≤ buf.length) (o n : Nat) (hon : o + n ≤ buf.length)
    (hout : o + n ≤ entryOff E b i ∨ entryOff E b i + E.size ≤ o) :
    mid (placed E buf b i data entry) o n = mid buf o n := by
  apply mid_congr
  intro k hk
  exact getElem?_placed hentry hpos hin (o + k) (by omega) (by omega)

theorem readU32_placed_old (hentry : entry.length = E.size) (hpos : E.posOff + 4 ≤ E.size)
    (hin : entryOff E b i + E.size ≤ buf.length) (o : Nat) (hon : o + 4 ≤ buf.length)
    (hout : o + 4 ≤ entryOff E b i ∨ entryOff E b i + E.size ≤ o) :
    readU32 (placed E buf b i data entry) o = readU32 buf o := by
  rw [readU32_eq_some hon, readU32_eq_some (by rw [length_placed hentry hpos hin]; omega),
    mid_placed_old hentry hpos hin o 4 hon hout]

/-- The entity bytes are at the old end of the buffer. -/
theorem mid_placed_entity (hentry : entry.length = E.size) (hpos : E.posOff + 4 ≤ E.size)
    (hin : entryOff E b i + E.size ≤ buf.length) :
    mid (placed E buf b i data entry) buf.length data.length = data := by
  unfold placed
  have h1 : entryOff E b i + entry.length ≤ (buf ++ data).length := by
    rw [hentry, List.length_append]; omega
  have h2 : entryPosOff E b i + (natToLe 4 (u32 buf.length)).length ≤
      (put (buf ++ data) (entryOff E b i) entry).length := by
    rw [length_put _ _ _ h1, length_natToLe, List.length_append]; unfold entryPosOff; omega
  rw [mid_put_disjoint _ _ _ _ _ h2 (by rw [length_natToLe]; unfold entryPosOff; omega),
    mid_put_disjoint _ _ _ _ _ h1 (by rw [hentry]; omega)]
  exact mid_append_right buf data

/-- The `pos` field of the filled entry is the old size of the buffer. -/
theorem readU32_placed_pos (hentry : entry.length = E.size) (hpos : E.posOff + 4 ≤ E.size)
    (hin : entryOff E b i + E.size ≤ buf.length) :
    readU32 (placed E buf b i data entry) (entryPosOff E b i) = some (u32 buf.length) := by
  unfold placed
  have h1 : entryOff E b i + entry.length ≤ (buf ++ data).length := by
    rw [hentry, List.length_append]; omega
  have h := readU32_put_same (put (buf ++ data) (entryOff E b i) entry) (entryPosOff E b i)
    (u32 buf.length) (by
      rw [length_put _ _ _ h1, List.length_append]; unfold entryPosOff; omega)
  rw [u32_idem] at h
  exact h

/-- The filled entry holds the entry argument with its `pos` overwritten. -/
theorem mid_placed_entry (hentry : entry.length = E.size) (hpos : E.posOff + 4 ≤ E.size)
    (hin : entryOff E b i + E.size ≤ buf.length) :
    mid (placed E buf b i data entry) (entryOff E b i) E.size =
      put entry E.posOff (natToLe 4 (u32 buf.length)) := by
  unfold placed
  have h1 : entryOff E b i + entry.length ≤ (buf ++ data).length := by
    rw [hentry, List.length_append]; omega
  have h2 : entryPosOff E b i + (natToLe 4 (u32 buf.length)).length ≤
      (put (buf ++ data) (entryOff E b i) entry).length := by
    rw [length_put _ _ _ h1, length_natToLe, List.length_append]; unfold entryPosOff; omega
  have h3 : E.posOff + (natToLe 4 (u32 buf.length)).length ≤ entry.length := by
    rw [length_natToLe, hentry]; exact hpos
  apply List.ext_getElem?
  intro k
  rw [getElem?_mid, getElem?_put _ _ _ _ h3]
  by_cases hk : k < E.size
  · rw [if_pos hk, getElem?_put _ _ _ _ h2]
    rw [length_natToLe] at *
    unfold entryPosOff
    by_cases hk1 : k < E.posOff
    · rw [if_pos hk1, if_pos (by omega), getElem?_put _ _ _ _ h1, if_neg (by omega),
        if_pos (by omega)]
      congr 1; omega
    · rw [if_neg hk1, if_neg (by omega)]
      by_cases hk2 : k < E.posOff + 4
      · rw [if_pos hk2, if_pos (by omega)]
        congr 1; omega
      · rw [if_neg hk2, if_neg (by omega), getElem?_put _ _ _ _ h1, if_neg (by omega),
          if_pos (by omega)]
        congr 1; omega
  · rw [if_neg hk]
    rw [length_natToLe] at *
    rw [if_neg (by omega), if_neg (by omega), List.getElem?_eq_none (by omega)]

end placedFacts

end OcdEntityIndex

namespace OcdEntityIndex

section grownFacts

variable {E : EntryLayout} {buf : QByteArray} {b : Nat}

theorem length_grown (hb : b + 4 ≤ buf.length) :
    (grown E buf b).length = buf.length + blockSize E := by
  unfold grown
  rw [List.length_append, length_put _ _ _ (by rw [length_natToLe]; exact hb), length_zeros]

theorem getElem?_grown (hb : b + 4 ≤ buf.length) (j : Nat) (hj : j < buf.length)
    (hout : j < b ∨ b + 4 ≤ j) : (grown E buf b)[j]? = buf[j]? := by
  unfold grown
  have h1 : b + (natToLe 4 (u32 buf.length)).length ≤ buf.length := by
    rw [length_natToLe]; exact hb
  rw [List.getElem?_append_left (by rw [length_put _ _ _ h1]; exact hj),
    getElem?_put_outside _ _ _ _ h1 (by rw [length_natToLe]; exact hout)]

theorem mid_grown_old (hb : b + 4 ≤ buf.length) (o n : Nat) (hon : o + n ≤ buf.length)
    (hout : o + n ≤ b ∨ b + 4 ≤ o) : mid (grown E buf b) o n = mid buf o n := by
  apply mid_congr
  intro k hk
  exact getElem?_grown hb (o + k) (by omega) (by omega)

theorem readU32_grown_old (hb : b + 4 ≤ buf.length) (o : Nat) (hon : o + 4 ≤ buf.length)
    (hout : o + 4 ≤ b ∨ b + 4 ≤ o) : readU32 (grown E buf b) o = readU32 buf o := by
  rw [readU32_eq_some hon, readU32_eq_some (by rw [length_grown hb]; omega),
    mid_grown_old hb o 4 hon hout]

/-- The old tail block is linked to the old end of the buffer. -/
theorem readU32_grown_link (hb : b + 4 ≤ buf.length) :
    readU32 (grown E buf b) b = some (u32 buf.length) := by
  unfold grown
  have h1 : b + (natToLe 4 (u32 buf.length)).length ≤ buf.length := by
    rw [length_natToLe]; exact hb
  rw [readU32_append_left _ _ _ (by rw [length_put _ _ _ h1]; exact hb)]
  have h := readU32_put_same buf b (u32 buf.length) hb
  rw [u32_idem] at h
  exact h

/-- The appended block is entirely zero. -/
theorem getElem?_grown_new (hb : b + 4 ≤ buf.length) (k : Nat) (hk : k < blockSize E) :
    (grown E buf b)[buf.length + k]? = some 0 := by
  unfold grown
  have h1 : b + (natToLe 4 (u32 buf.length)).length ≤ buf.length := by
    rw [length_natToLe]; exact hb
  rw [List.getElem?_append_right (by rw [length_put _ _ _ h1]; omega), length_put _ _ _ h1]
  simp [zeros, hk]

theorem mid_grown_new (hb : b + 4 ≤ buf.length) (o n : Nat) (hon : o + n ≤ blockSize E) :
    mid (grown E buf b) (buf.length + o) n = zeros n := by
  apply List.ext_getElem?
  intro k
  rw [getElem?_mid]
  by_cases hk : k < n
  · rw [if_pos hk, Nat.add_assoc, getElem?_grown_new hb (o + k) (by omega)]
    simp [zeros, hk]
  · rw [if_neg hk]
    simp [zeros]
    omega

theorem readU32_grown_new (hb : b + 4 ≤ buf.length) (o : Nat) (hon : o + 4 ≤ blockSize E) :
    readU32 (grown E buf b) (buf.length + o) = some 0 := by
  rw [readU32_eq_some (by rw [length_grown hb]; omega), mid_grown_new hb o 4 hon, leToNat_zeros]

end grownFacts

/-- The call of `insert` when the tail block has a free entry at `i`. -/
theorem insert_free {F : Format} {c : Chain} {buf : QByteArray} {data entry : List Byte}
    {head b i fuel : Nat}
    (hlen : buf.length < 2 ^ 31) (hbs : blockSize (F.entry c) < 2 ^ 31)
    (hpos : (F.entry c).posOff + 4 ≤ (F.entry c).size)
    (hentry : entry.length = (F.entry c).size)
    (hhead : firstBlock F c buf = some head)
    (hwalk : walk buf (blockSize (F.entry c)) fuel head = .tail b)
    (hscan : scan buf (F.entry c) b 256 0 = some i) (hi : i < 256) :
    insert F c buf data entry =
      .ok (placed (F.entry c) buf b i data entry) (entryOff (F.entry c) b i) := by
  have hw := walk_adequate hwalk (by simp)
  have hb := (walk_tail_spec hlen (by unfold blockSize; omega) hbs hwalk).2.1
  have hin := entry_in_block (F.entry c) b i hi
  unfold insert
  simp only [hhead, hw, hscan, if_neg (show ¬ i = 256 by omega)]
  exact place_eq data hentry hpos (by omega)

/-- The call of `insert` when all 256 entries of the tail block are in use. -/
theorem insert_full {F : Format} {c : Chain} {buf : QByteArray} {data entry : List Byte}
    {head b fuel : Nat}
    (hlen : buf.length < 2 ^ 31) (hbs : blockSize (F.entry c) < 2 ^ 31)
    (hpos : (F.entry c).posOff + 4 ≤ (F.entry c).size)
    (hentry : entry.length = (F.entry c).size)
    (hhead : firstBlock F c buf = some head)
    (hwalk : walk buf (blockSize (F.entry c)) fuel head = .tail b)
    (hscan : scan buf (F.entry c) b 256 0 = some 256) :
    insert F c buf data entry =
      .ok (placed (F.entry c) (grown (F.entry c) buf b) buf.length 0 data entry)
        (entryOff (F.entry c) buf.length 0) := by
  have hw := walk_adequate hwalk (by simp)
  have hb := (walk_tail_spec hlen (by unfold blockSize; omega) hbs hwalk).2.1
  have hb4 : b + 4 ≤ buf.length := by unfold blockSize at hb; omega
  have hL : u32 buf.length = buf.length := u32_of_lt (by omega)
  have hlink : readU32 (grown (F.entry c) buf b) b = some buf.length := by
    rw [readU32_grown_link hb4, hL]
  unfold insert
  simp only [hhead, hw, hscan, if_true, writeU32_eq_some _ hb4]
  unfold grown at hlink
  simp only [hlink]
  have hin := entry_in_block (F.entry c) buf.length 0 (by decide)
  have hlg : (grown (F.entry c) buf b).length = buf.length + blockSize (F.entry c) :=
    length_grown hb4
  unfold grown at hlg
  rw [place_eq data hentry hpos (by rw [hlg]; exact hin)]
  rfl

end OcdEntityIndex

namespace OcdEntityIndex

end OcdEntityIndex

namespace Ocd

/-! ### Regions -/

theorem mem_blocksOf {c : Chain} {regs : List Region} {x : Nat} :
    x ∈ blocksOf c regs ↔ (⟨x, .block c⟩ : Region) ∈ regs := by
  unfold blocksOf
  rw [List.mem_filterMap]
  constructor
  · rintro ⟨⟨s, g⟩, hr, h⟩
    cases g with
    | block d =>
      by_cases hd : d = c
      · subst hd
        simp only [if_true, Option.some.injEq] at h
        subst h
        exact hr
      · simp [hd] at h
    | entity d data => simp at h
  · intro h
    exact ⟨_, h, by simp⟩

theorem mem_entitiesOf {c : Chain} {regs : List Region} {x : Nat} :
    x ∈ entitiesOf c regs ↔ ∃ data, (⟨x, .entity c data⟩ : Region) ∈ regs := by
  unfold entitiesOf
  rw [List.mem_filterMap]
  constructor
  · rintro ⟨⟨s, g⟩, hr, h⟩
    cases g with
    | block d => simp at h
    | entity d data =>
      by_cases hd : d = c
      · subst hd
        simp only [if_true, Option.some.injEq] at h
        subst h
        exact ⟨data, hr⟩
      · simp [hd] at h
  · rintro ⟨data, h⟩
    exact ⟨_, h, by simp⟩

theorem getD_mem {l : List Nat} {k : Nat} (h : k < l.length) : l.getD k 0 ∈ l := by
  rw [List.getD_eq_getElem l 0 h]
  exact List.getElem_mem h

theorem blocksOf_append (c : Chain) (r s : List Region) :
    blocksOf c (r ++ s) = blocksOf c r ++ blocksOf c s := by
  unfold blocksOf; rw [List.filterMap_append]

theorem entitiesOf_append (c : Chain) (r s : List Region) :
    entitiesOf c (r ++ s) = entitiesOf c r ++ entitiesOf c s := by
  unfold entitiesOf; rw [List.filterMap_append]

theorem entityRegs_append (r s : List Region) :
    entityRegs (r ++ s) = entityRegs r ++ entityRegs s := by
  unfold entityRegs; rw [List.filterMap_append]

theorem blocksOf_block (c d : Chain) (x : Nat) :
    blocksOf c [⟨x, .block d⟩] = if d = c then [x] else [] := by
  unfold blocksOf
  by_cases h : d = c <;> simp [h]

theorem blocksOf_entity (c d : Chain) (x : Nat) (data : List Byte) :
    blocksOf c [⟨x, .entity d data⟩] = [] := by
  simp [blocksOf]

theorem entitiesOf_block (c d : Chain) (x : Nat) :
    entitiesOf c [⟨x, .block d⟩] = [] := by
  simp [entitiesOf]

theorem entitiesOf_entity (c d : Chain) (x : Nat) (data : List Byte) :
    entitiesOf c [⟨x, .entity d data⟩] = if d = c then [x] else [] := by
  unfold entitiesOf
  by_cases h : d = c <;> simp [h]

theorem blockSize_pos (E : EntryLayout) : 4 ≤ blockSize E := by unfold blockSize; omega

section invFacts

variable {F : Format} {buf : QByteArray} {regs : List Region}

/-- Two different regions do not overlap. -/
theorem Inv.disjoint (hI : Inv F buf regs) {r s : Region} (hr : r ∈ regs) (hs : s ∈ regs)
    (hne : r ≠ s) : r.start + r.size F ≤ s.start ∨ s.start + s.size F ≤ r.start := by
  have hp : regs.Pairwise fun r s =>
      r.start + r.size F ≤ s.start ∨ s.start + s.size F ≤ r.start :=
    hI.ordered.imp (fun h => Or.inl h)
  exact hp.forall (fun a b h => h.symm) hr hs hne

theorem Inv.block_bounds (hI : Inv F buf regs) {c : Chain} {k : Nat}
    (hk : k < (blocksOf c regs).length) :
    (⟨(blocksOf c regs).getD k 0, .block c⟩ : Region) ∈ regs ∧
    F.imageStart ≤ (blocksOf c regs).getD k 0 ∧
    (blocksOf c regs).getD k 0 + blockSize (F.entry c) ≤ buf.length := by
  have hm := mem_blocksOf.mp (getD_mem hk)
  exact ⟨hm, hI.bounds _ hm⟩

theorem Inv.entity_ge (hI : Inv F buf regs) {c : Chain} {j : Nat}
    (hj : j < (entitiesOf c regs).length) :
    F.imageStart ≤ (entitiesOf c regs).getD j 0 := by
  obtain ⟨data, hm⟩ := mem_entitiesOf.mp (getD_mem hj)
  exact (hI.bounds _ hm).1

/-- The block offsets of a chain are strictly increasing. -/
theorem Inv.blocks_sorted (hI : Inv F buf regs) (c : Chain) :
    (blocksOf c regs).Pairwise (· < ·) := by
  unfold blocksOf
  refine List.Pairwise.filterMap _ ?_ hI.ordered
  intro a a' h b hb b' hb'
  obtain ⟨s, g⟩ := a
  obtain ⟨s', g'⟩ := a'
  cases g with
  | entity d data => simp at hb
  | block d =>
    cases g' with
    | entity d' data' => simp at hb'
    | block d' =>
      by_cases hd : d = c
      · by_cases hd' : d' = c
        · simp only [hd, hd', if_true, Option.mem_def, Option.some.injEq] at hb hb'
          subst hb hb'
          have := blockSize_pos (F.entry d)
          simp only [Region.size] at h
          omega
        · simp [hd'] at hb'
      · simp [hd] at hb

theorem Inv.blocks_inj (hI : Inv F buf regs) (c : Chain) {k k' : Nat}
    (hk : k < (blocksOf c regs).length) (hk' : k' < (blocksOf c regs).length)
    (h : (blocksOf c regs).getD k 0 = (blocksOf c regs).getD k' 0) : k = k' := by
  have hs := List.pairwise_iff_getElem.mp (hI.blocks_sorted c)
  rw [List.getD_eq_getElem _ 0 hk, List.getD_eq_getElem _ 0 hk'] at h
  rcases Nat.lt_trichotomy k k' with hlt | heq | hgt
  · have := hs k k' hk hk' hlt; omega
  · exact heq
  · have := hs k' k hk' hk hgt; omega

end invFacts

theorem Format.WF.headerSize_le {F : Format} (_hF : F.WF) : F.headerSize ≤ F.imageStart := by
  unfold Format.imageStart; omega

theorem Format.WF.first_lt {F : Format} (hF : F.WF) (c : Chain) :
    F.firstBlockOff c + 4 ≤ F.imageStart := by
  have := hF.first_in c
  have := hF.headerSize_le
  omega

theorem Format.WF.blockSize_lt {F : Format} (hF : F.WF) (c : Chain) :
    blockSize (F.entry c) < 2 ^ 31 := hF.block_lt c

end Ocd

namespace OcdEntityIndex

/-! ### The invariant is kept by the two steps of insert -/

/-- A read inside a block region, compared with the entry `i` of the block at
`t`: the two ranges do not overlap unless the regions are the same. -/
theorem range_disjoint_of_regions {F : Format} {buf : QByteArray} {regs : List Region}
    (hI : Inv F buf regs) {r s : Region} (hr : r ∈ regs) (hs : s ∈ regs) (hne : r ≠ s)
    {o n o' n' : Nat} (h1 : r.start ≤ o) (h2 : o + n ≤ r.start + r.size F)
    (h3 : s.start ≤ o') (h4 : o' + n' ≤ s.start + s.size F) :
    o + n ≤ o' ∨ o' + n' ≤ o := by
  rcases hI.disjoint hr hs hne with h | h
  · left; omega
  · right; omega

theorem place_inv {F : Format} {buf : QByteArray} {regs : List Region}
    (hF : F.WF) (hI : Inv F buf regs) (hlen : buf.length < 2 ^ 32) (c : Chain)
    (data entry : List Byte) (hentry : entry.length = (F.entry c).size) (t i : Nat)
    (ht : t = (blocksOf c regs).getD ((blocksOf c regs).length - 1) 0)
    (hi : i + 256 * ((blocksOf c regs).length - 1) = (entitiesOf c regs).length)
    (hi256 : i < 256) :
    Inv F (placed (F.entry c) buf t i data entry) (regs ++ [⟨buf.length, .entity c data⟩]) := by
  have hC := hI.chain c
  have hm : 0 < (blocksOf c regs).length := hC.nonempty
  obtain ⟨htmem, htlo, hthi⟩ := hI.block_bounds (c := c)
    (k := (blocksOf c regs).length - 1) (by omega)
  rw [← ht] at htmem htlo hthi
  have hpos := hF.pos_in c
  have hslot := entry_in_block (F.entry c) t i hi256
  have hin : entryOff (F.entry c) t i + (F.entry c).size ≤ buf.length := by omega
  have hslot_lo : t + 4 ≤ entryOff (F.entry c) t i := by unfold entryOff; omega
  have hL : u32 buf.length = buf.length := u32_of_lt hlen
  have hlen' : (placed (F.entry c) buf t i data entry).length = buf.length + data.length :=
    length_placed hentry hpos hin
  have hframe : ∀ o, o + 4 ≤ buf.length →
      (o + 4 ≤ entryOff (F.entry c) t i ∨ entryOff (F.entry c) t i + (F.entry c).size ≤ o) →
      readU32 (placed (F.entry c) buf t i data entry) o = readU32 buf o :=
    fun o h1 h2 => readU32_placed_old hentry hpos hin o h1 h2
  have hstart : F.imageStart ≤ buf.length := by rw [hI.contig]; omega
  refine ⟨?_, ?_, ?_, ?_, ?_⟩
  · -- contig
    rw [hlen', hI.contig, List.map_append, List.sum_append]
    simp [Region.size]
    omega
  · -- ordered
    rw [List.pairwise_append]
    refine ⟨hI.ordered, List.pairwise_singleton _ _, ?_⟩
    intro a ha b hb
    simp only [List.mem_singleton] at hb
    subst hb
    exact (hI.bounds a ha).2
  · -- bounds
    intro r hr
    rw [List.mem_append] at hr
    rcases hr with hr | hr
    · have := hI.bounds r hr
      omega
    · simp only [List.mem_singleton] at hr
      subst hr
      simp only [Region.size]
      omega
  · -- content
    intro r d dat hr hseg
    rw [List.mem_append] at hr
    rcases hr with hr | hr
    · have hb := hI.bounds r hr
      have hsz : r.size F = dat.length := by simp [Region.size, hseg]
      have hne : r ≠ ⟨t, .block c⟩ := by
        intro h; rw [h] at hseg; simp at hseg
      have hd : r.start + dat.length ≤ entryOff (F.entry c) t i ∨
          entryOff (F.entry c) t i + (F.entry c).size ≤ r.start :=
        range_disjoint_of_regions hI hr htmem hne
        (le_refl _) (by omega) (by dsimp only; omega) (by dsimp only [Region.size]; omega)
      rw [mid_placed_old hentry hpos hin _ _ (by omega) hd]
      exact hI.content r d dat hr hseg
    · simp only [List.mem_singleton] at hr
      subst hr
      simp only [Seg.entity.injEq] at hseg
      obtain ⟨_, hdat⟩ := hseg
      subst hdat
      exact mid_placed_entity hentry hpos hin
  · -- chains
    intro d
    have hD := hI.chain d
    have hbl : blocksOf d (regs ++ [⟨buf.length, .entity c data⟩]) = blocksOf d regs := by
      rw [blocksOf_append, blocksOf_entity, List.append_nil]
    have hps : entitiesOf d (regs ++ [⟨buf.length, .entity c data⟩]) =
        entitiesOf d regs ++ (if c = d then [buf.length] else []) := by
      rw [entitiesOf_append, entitiesOf_entity]
    rw [hbl, hps]
    have hfirst := hF.first_lt d
    refine ⟨hD.nonempty, ?_, ?_, ?_, ?_, ?_⟩
    · rw [hframe _ (by omega) (Or.inl (by omega))]
      exact hD.head
    · intro k hk
      obtain ⟨hmem, hlo, hhi⟩ := hI.block_bounds hk
      have hbs := blockSize_pos (F.entry d)
      rw [hframe _ (by omega) ?_]
      · exact hD.link k hk
      · by_cases hsame : (⟨(blocksOf d regs).getD k 0, .block d⟩ : Region) = ⟨t, .block c⟩
        · simp only [Region.mk.injEq] at hsame
          left; omega
        · exact range_disjoint_of_regions hI hmem htmem hsame (le_refl _)
            (by dsimp only [Region.size]; omega) (by dsimp only; omega) (by dsimp only [Region.size]; omega)
    · intro j hj
      have hk : j / 256 < (blocksOf d regs).length := by omega
      have hs : j % 256 < 256 := Nat.mod_lt _ (by decide)
      obtain ⟨hmem, hlo, hhi⟩ := hI.block_bounds hk
      have hposd := hF.pos_in d
      have hsl := entry_in_block (F.entry d) ((blocksOf d regs).getD (j / 256) 0) (j % 256) hs
      have hsl_lo : (blocksOf d regs).getD (j / 256) 0 + 4 ≤
          entryOff (F.entry d) ((blocksOf d regs).getD (j / 256) 0) (j % 256) := by
        unfold entryOff; omega
      by_cases hdc : c = d
      · subst hdc
        simp only [if_true]
        by_cases hjN : j = (entitiesOf c regs).length
        · have h1 : j / 256 = (blocksOf c regs).length - 1 := by omega
          have h2 : j % 256 = i := by omega
          rw [h1, h2, ← ht, readU32_placed_pos hentry hpos hin, hL, hjN]
          simp [List.getD_append_right]
        · have hrhs : (if j < (entitiesOf c regs ++ [buf.length]).length
                then (entitiesOf c regs ++ [buf.length]).getD j 0 else 0) =
              (if j < (entitiesOf c regs).length then (entitiesOf c regs).getD j 0 else 0) := by
            by_cases hlt : j < (entitiesOf c regs).length
            · rw [if_pos hlt, if_pos (by rw [List.length_append, List.length_singleton]; omega),
                List.getD_append _ _ _ _ hlt]
            · rw [if_neg hlt, if_neg (by rw [List.length_append, List.length_singleton]; omega)]
          rw [hrhs, hframe _ (by unfold entryPosOff; omega) ?_]
          · exact hD.slot j hj
          · by_cases h1 : j / 256 = (blocksOf c regs).length - 1
            · rw [h1, ← ht]
              have hne : j % 256 ≠ i := by omega
              have := entry_disjoint (F.entry c) t (j % 256) i hne
              unfold entryPosOff
              omega
            · have hne : (⟨(blocksOf c regs).getD (j / 256) 0, .block c⟩ : Region) ≠
                  ⟨t, .block c⟩ := by
                intro h
                simp only [Region.mk.injEq, and_true] at h
                rw [ht] at h
                exact h1 (hI.blocks_inj c hk (by omega) h)
              exact range_disjoint_of_regions hI hmem htmem hne
                (show (blocksOf c regs).getD (j / 256) 0 ≤ _ by unfold entryPosOff; omega)
                (by dsimp only [Region.size]; unfold entryPosOff; omega) (by dsimp only; omega)
                (by dsimp only [Region.size]; omega)
      · simp only [if_neg hdc, List.append_nil]
        rw [hframe _ (by unfold entryPosOff; omega) ?_]
        · exact hD.slot j hj
        · have hne : (⟨(blocksOf d regs).getD (j / 256) 0, .block d⟩ : Region) ≠
              ⟨t, .block c⟩ := by
            intro h
            simp only [Region.mk.injEq, Seg.block.injEq] at h
            exact hdc h.2.symm
          exact range_disjoint_of_regions hI hmem htmem hne
            (show (blocksOf d regs).getD (j / 256) 0 ≤ _ by unfold entryPosOff; omega)
            (by dsimp only [Region.size]; unfold entryPosOff; omega) (by dsimp only; omega)
            (by dsimp only [Region.size]; omega)
    · by_cases hdc : c = d
      · subst hdc; simp; omega
      · simp [hdc]; exact hD.count_le
    · by_cases hdc : c = d
      · subst hdc; simp; omega
      · simp [hdc]; exact hD.count_ge

end OcdEntityIndex

namespace OcdEntityIndex

theorem grow_inv {F : Format} {buf : QByteArray} {regs : List Region}
    (hF : F.WF) (hI : Inv F buf regs) (hlen : buf.length < 2 ^ 32) (c : Chain) (t : Nat)
    (ht : t = (blocksOf c regs).getD ((blocksOf c regs).length - 1) 0)
    (hfull : (entitiesOf c regs).length = 256 * (blocksOf c regs).length) :
    Inv F (grown (F.entry c) buf t) (regs ++ [⟨buf.length, .block c⟩]) := by
  have hC := hI.chain c
  have hm : 0 < (blocksOf c regs).length := hC.nonempty
  obtain ⟨htmem, htlo, hthi⟩ := hI.block_bounds (c := c)
    (k := (blocksOf c regs).length - 1) (by omega)
  rw [← ht] at htmem htlo hthi
  have hbsc := blockSize_pos (F.entry c)
  have hb4 : t + 4 ≤ buf.length := by omega
  have hL : u32 buf.length = buf.length := u32_of_lt hlen
  have hlen' : (grown (F.entry c) buf t).length = buf.length + blockSize (F.entry c) :=
    length_grown hb4
  have hframe : ∀ o, o + 4 ≤ buf.length → (o + 4 ≤ t ∨ t + 4 ≤ o) →
      readU32 (grown (F.entry c) buf t) o = readU32 buf o :=
    fun o h1 h2 => readU32_grown_old hb4 o h1 h2
  have hstart : F.imageStart ≤ buf.length := by rw [hI.contig]; omega
  refine ⟨?_, ?_, ?_, ?_, ?_⟩
  · rw [hlen', hI.contig, List.map_append, List.sum_append]
    simp [Region.size]
    omega
  · rw [List.pairwise_append]
    refine ⟨hI.ordered, List.pairwise_singleton _ _, ?_⟩
    intro a ha b hb
    simp only [List.mem_singleton] at hb
    subst hb
    exact (hI.bounds a ha).2
  · intro r hr
    rw [List.mem_append] at hr
    rcases hr with hr | hr
    · have := hI.bounds r hr
      omega
    · simp only [List.mem_singleton] at hr
      subst hr
      simp only [Region.size]
      omega
  · intro r d dat hr hseg
    rw [List.mem_append] at hr
    rcases hr with hr | hr
    · have hb := hI.bounds r hr
      have hsz : r.size F = dat.length := by simp [Region.size, hseg]
      have hne : r ≠ ⟨t, .block c⟩ := by
        intro h; rw [h] at hseg; simp at hseg
      have hd : r.start + dat.length ≤ t ∨ t + 4 ≤ r.start :=
        range_disjoint_of_regions hI hr htmem hne
        (le_refl _) (by omega) (by dsimp only; omega) (by dsimp only [Region.size]; omega)
      rw [mid_grown_old hb4 _ _ (by omega) hd]
      exact hI.content r d dat hr hseg
    · simp only [List.mem_singleton] at hr
      subst hr
      simp at hseg
  · intro d
    have hD := hI.chain d
    have hbl : blocksOf d (regs ++ [⟨buf.length, .block c⟩]) =
        blocksOf d regs ++ (if c = d then [buf.length] else []) := by
      rw [blocksOf_append, blocksOf_block]
    have hps : entitiesOf d (regs ++ [⟨buf.length, .block c⟩]) = entitiesOf d regs := by
      rw [entitiesOf_append, entitiesOf_block, List.append_nil]
    rw [hbl, hps]
    have hfirst := hF.first_lt d
    have hbsd := blockSize_pos (F.entry d)
    -- reads inside old blocks of chain `d`
    have hlink_old : ∀ k, k < (blocksOf d regs).length →
        (⟨(blocksOf d regs).getD k 0, .block d⟩ : Region) ≠ ⟨t, .block c⟩ →
        readU32 (grown (F.entry c) buf t) ((blocksOf d regs).getD k 0) =
          readU32 buf ((blocksOf d regs).getD k 0) := by
      intro k hk hne
      obtain ⟨hmem, hlo, hhi⟩ := hI.block_bounds hk
      exact hframe _ (by omega) (range_disjoint_of_regions hI hmem htmem hne (le_refl _)
        (by dsimp only [Region.size]; omega) (by dsimp only; omega)
        (by dsimp only [Region.size]; omega))
    have hslot_old : ∀ j, j < 256 * (blocksOf d regs).length →
        readU32 (grown (F.entry c) buf t)
            (entryPosOff (F.entry d) ((blocksOf d regs).getD (j / 256) 0) (j % 256)) =
          readU32 buf (entryPosOff (F.entry d) ((blocksOf d regs).getD (j / 256) 0) (j % 256)) := by
      intro j hj
      have hk : j / 256 < (blocksOf d regs).length := by omega
      have hs : j % 256 < 256 := Nat.mod_lt _ (by decide)
      obtain ⟨hmem, hlo, hhi⟩ := hI.block_bounds hk
      have hposd := hF.pos_in d
      have hsl := entry_in_block (F.entry d) ((blocksOf d regs).getD (j / 256) 0) (j % 256) hs
      have hsl_lo : (blocksOf d regs).getD (j / 256) 0 + 4 ≤
          entryOff (F.entry d) ((blocksOf d regs).getD (j / 256) 0) (j % 256) := by
        unfold entryOff; omega
      apply hframe _ (by unfold entryPosOff; omega)
      by_cases hsame : (⟨(blocksOf d regs).getD (j / 256) 0, .block d⟩ : Region) = ⟨t, .block c⟩
      · simp only [Region.mk.injEq] at hsame
        right; unfold entryPosOff; omega
      · exact range_disjoint_of_regions hI hmem htmem hsame
          (show (blocksOf d regs).getD (j / 256) 0 ≤ _ by unfold entryPosOff; omega)
          (by dsimp only [Region.size]; unfold entryPosOff; omega) (by dsimp only; omega)
          (by dsimp only [Region.size]; omega)
    by_cases hdc : c = d
    · subst hdc
      simp only [if_true]
      have hlenbl : (blocksOf c regs ++ [buf.length]).length = (blocksOf c regs).length + 1 := by
        rw [List.length_append, List.length_singleton]
      refine ⟨by omega, ?_, ?_, ?_, ?_, ?_⟩
      · rw [List.getD_append _ _ _ _ hm, hframe _ (by omega) (Or.inl (by omega))]
        exact hD.head
      · intro k hk
        rw [hlenbl] at hk ⊢
        by_cases hk1 : k < (blocksOf c regs).length - 1
        · rw [List.getD_append _ _ _ _ (by omega), if_pos (by omega),
            List.getD_append _ _ _ _ (by omega)]
          rw [hlink_old k (by omega) ?_, hD.link k (by omega), if_pos (by omega)]
          intro h
          simp only [Region.mk.injEq, and_true] at h
          rw [ht] at h
          have := hI.blocks_inj c (by omega) (by omega) h
          omega
        · by_cases hk2 : k = (blocksOf c regs).length - 1
          · rw [List.getD_append _ _ _ _ (by omega), if_pos (by omega),
              List.getD_append_right _ _ _ _ (by omega), hk2, ← ht, readU32_grown_link hb4, hL]
            have : (blocksOf c regs).length - 1 + 1 - (blocksOf c regs).length = 0 := by omega
            rw [this]
            rfl
          · have hk3 : k = (blocksOf c regs).length := by omega
            rw [List.getD_append_right _ _ _ _ (by omega), if_neg (by omega), hk3,
              Nat.sub_self]
            exact readU32_grown_new hb4 0 (by omega)
      · intro j hj
        rw [hlenbl] at hj
        by_cases hj1 : j < 256 * (blocksOf c regs).length
        · rw [List.getD_append _ _ _ _ (by omega), hslot_old j hj1]
          exact hD.slot j hj1
        · have hk : j / 256 = (blocksOf c regs).length := by omega
          rw [List.getD_append_right _ _ _ _ (by omega), hk, Nat.sub_self, if_neg (by omega)]
          have hs : j % 256 < 256 := Nat.mod_lt _ (by decide)
          have hposc := hF.pos_in c
          have hsl := entry_in_block (F.entry c) buf.length (j % 256) hs
          have : entryPosOff (F.entry c) ([buf.length].getD 0 0) (j % 256) =
              buf.length + (4 + j % 256 * (F.entry c).size + (F.entry c).posOff) := by
            simp only [List.getD_cons_zero]
            unfold entryPosOff entryOff
            omega
          rw [this]
          apply readU32_grown_new hb4
          unfold entryOff at hsl
          omega
      · rw [hlenbl]; omega
      · rw [hlenbl]; omega
    · simp only [if_neg hdc, List.append_nil]
      have hne : ∀ k, (⟨(blocksOf d regs).getD k 0, .block d⟩ : Region) ≠ ⟨t, .block c⟩ := by
        intro k h
        simp only [Region.mk.injEq, Seg.block.injEq] at h
        exact hdc h.2.symm
      refine ⟨hD.nonempty, ?_, ?_, ?_, hD.count_le, hD.count_ge⟩
      · rw [hframe _ (by omega) (Or.inl (by omega))]
        exact hD.head
      · intro k hk
        rw [hlink_old k hk (hne k)]
        exact hD.link k hk
      · intro j hj
        rw [hslot_old j hj]
        exact hD.slot j hj

end OcdEntityIndex

namespace OcdEntityIndex

/-! ### One call of insert on a document that satisfies the invariant -/

theorem Format.WF.imageStart_pos {F : Format} (hF : F.WF) : 4 ≤ F.imageStart := by
  have := hF.first_lt .strings
  omega

/-- The walk from block number `k` of a chain ends at the last block. -/
theorem walk_chain {F : Format} {buf : QByteArray} {regs : List Region}
    (hF : F.WF) (hI : Inv F buf regs) (hlen : buf.length < 2 ^ 31) (c : Chain)
    (n k : Nat) (hk : k + n + 1 = (blocksOf c regs).length) :
    walk buf (blockSize (F.entry c)) (n + 1) ((blocksOf c regs).getD k 0) =
      .tail ((blocksOf c regs).getD ((blocksOf c regs).length - 1) 0) := by
  have hC := hI.chain c
  have h4 := Format.WF.imageStart_pos hF
  have hbs := blockSize_pos (F.entry c)
  induction n generalizing k with
  | zero =>
    obtain ⟨_, hlo, hhi⟩ := hI.block_bounds (c := c) (k := k) (by omega)
    have hres : (getBlockChecked buf ((blocksOf c regs).getD k 0)
        (blockSize (F.entry c))).block = some ((blocksOf c regs).getD k 0) := by
      rw [getBlockChecked_inside hlen (by omega) (by omega) hhi]
    have hl := hC.link k (by omega)
    rw [if_neg (by omega)] at hl
    rw [walk_last hres hl]
    congr 2
    omega
  | succ n ih =>
    obtain ⟨_, hlo, hhi⟩ := hI.block_bounds (c := c) (k := k) (by omega)
    obtain ⟨_, hlo', _⟩ := hI.block_bounds (c := c) (k := k + 1) (by omega)
    have hres : (getBlockChecked buf ((blocksOf c regs).getD k 0)
        (blockSize (F.entry c))).block = some ((blocksOf c regs).getD k 0) := by
      rw [getBlockChecked_inside hlen (by omega) (by omega) hhi]
    have hl := hC.link k (by omega)
    rw [if_pos (by omega)] at hl
    rw [walk_step hres hl (by omega)]
    exact ih (k + 1) (by omega)

/-- The insert walk of a document ends at the last block of the chain. -/
theorem walk_inv {F : Format} {buf : QByteArray} {regs : List Region}
    (hF : F.WF) (hI : Inv F buf regs) (hlen : buf.length < 2 ^ 31) (c : Chain) :
    firstBlock F c buf = some ((blocksOf c regs).getD 0 0) ∧
    walk buf (blockSize (F.entry c)) (blocksOf c regs).length ((blocksOf c regs).getD 0 0) =
      .tail ((blocksOf c regs).getD ((blocksOf c regs).length - 1) 0) := by
  have hC := hI.chain c
  refine ⟨hC.head, ?_⟩
  have hm := hC.nonempty
  have := walk_chain hF hI hlen c ((blocksOf c regs).length - 1) 0 (by omega)
  rw [show (blocksOf c regs).length - 1 + 1 = (blocksOf c regs).length by omega] at this
  exact this

/-- The scan of the last block stops at the first entry not in use. -/
theorem scan_inv {F : Format} {buf : QByteArray} {regs : List Region}
    (hF : F.WF) (hI : Inv F buf regs) (c : Chain) :
    scan buf (F.entry c) ((blocksOf c regs).getD ((blocksOf c regs).length - 1) 0) 256 0 =
      some ((entitiesOf c regs).length - 256 * ((blocksOf c regs).length - 1)) := by
  have hC := hI.chain c
  have hm := hC.nonempty
  have hle := hC.count_le
  have hge := hC.count_ge
  have h4 := Format.WF.imageStart_pos hF
  obtain ⟨_, hlo, hhi⟩ := hI.block_bounds (c := c) (k := (blocksOf c regs).length - 1)
    (by omega)
  obtain ⟨i, hscan, _, hi256, hbelow, hat⟩ := scan_spec buf (F.entry c)
    ((blocksOf c regs).getD ((blocksOf c regs).length - 1) 0) 256 0
    (fun j _ hj => ⟨_, readU32_eq_some (entryPos_readable (hF.pos_in c) hhi (by omega))⟩)
  rw [hscan]
  congr 1
  have hslot : ∀ s, s < 256 →
      readU32 buf (entryPosOff (F.entry c)
        ((blocksOf c regs).getD ((blocksOf c regs).length - 1) 0) s) =
      some (if 256 * ((blocksOf c regs).length - 1) + s < (entitiesOf c regs).length
        then (entitiesOf c regs).getD (256 * ((blocksOf c regs).length - 1) + s) 0 else 0) := by
    intro s hs
    have := hC.slot (256 * ((blocksOf c regs).length - 1) + s) (by omega)
    rw [show (256 * ((blocksOf c regs).length - 1) + s) / 256 =
        (blocksOf c regs).length - 1 by omega,
      show (256 * ((blocksOf c regs).length - 1) + s) % 256 = s by omega] at this
    exact this
  by_contra hne
  rcases Nat.lt_or_gt_of_ne hne with hlt | hgt
  · -- the scan stopped early: entry `i` is in use
    have h0 := hat (by omega)
    rw [hslot i (by omega), if_pos (by omega)] at h0
    have := hI.entity_ge (c := c)
      (j := 256 * ((blocksOf c regs).length - 1) + i) (by omega)
    simp only [Option.some.injEq] at h0
    omega
  · -- the scan went past a free entry
    obtain ⟨p, hp, hp2⟩ := hbelow
      ((entitiesOf c regs).length - 256 * ((blocksOf c regs).length - 1)) (by omega) hgt
    rw [hslot _ (by omega), if_neg (by omega)] at hp2
    simp only [Option.some.injEq] at hp2
    exact hp hp2.symm

/-- One call of insert on a document that satisfies the invariant: the call
returns, the new entity is a new last region, preceded by a new index block
when the last block of the chain was full, and the invariant holds again. -/
theorem insert_inv {F : Format} {buf : QByteArray} {regs : List Region}
    (hF : F.WF) (hI : Inv F buf regs) (hlen : buf.length < 2 ^ 31) (c : Chain)
    (data entry : List Byte) (hentry : entry.length = (F.entry c).size) :
    ∃ buf' e p pre,
      insert F c buf data entry = .ok buf' e ∧
      readU32 buf' (e + (F.entry c).posOff) = some p ∧
      Inv F buf' (regs ++ pre ++ [⟨p, .entity c data⟩]) ∧
      ((pre = [] ∧ (entitiesOf c regs).length < 256 * (blocksOf c regs).length) ∨
        (pre = [⟨buf.length, .block c⟩] ∧
          (entitiesOf c regs).length = 256 * (blocksOf c regs).length)) ∧
      p = buf.length + (pre.map (Region.size F)).sum ∧
      buf'.length = p + data.length ∧
      e = entryOff (F.entry c)
        ((blocksOf c (regs ++ pre)).getD ((entitiesOf c regs).length / 256) 0)
        ((entitiesOf c regs).length % 256) := by
  have hC := hI.chain c
  have hm := hC.nonempty
  have hle := hC.count_le
  have hge := hC.count_ge
  have hbs := hF.blockSize_lt c
  have hpos := hF.pos_in c
  obtain ⟨hhead, hwalk⟩ := walk_inv hF hI hlen c
  have hscan := scan_inv hF hI c
  obtain ⟨_, hlo, hhi⟩ := hI.block_bounds (c := c) (k := (blocksOf c regs).length - 1)
    (by omega)
  by_cases hroom : (entitiesOf c regs).length < 256 * (blocksOf c regs).length
  · -- a free entry in the last block
    have hi : (entitiesOf c regs).length - 256 * ((blocksOf c regs).length - 1) < 256 := by
      omega
    have hin := entry_in_block (F.entry c)
      ((blocksOf c regs).getD ((blocksOf c regs).length - 1) 0) _ hi
    refine ⟨_, _, buf.length, [], insert_free hlen hbs hpos hentry hhead hwalk hscan hi, ?_, ?_,
      Or.inl ⟨rfl, hroom⟩, by simp, ?_, ?_⟩
    · have := @readU32_placed_pos (F.entry c) buf
        ((blocksOf c regs).getD ((blocksOf c regs).length - 1) 0)
        ((entitiesOf c regs).length - 256 * ((blocksOf c regs).length - 1)) data entry
        hentry hpos (by omega)
      rw [u32_of_lt (by omega)] at this
      exact this
    · rw [List.append_nil]
      exact place_inv hF hI (by omega) c data entry hentry _ _ rfl (by omega) hi
    · exact length_placed hentry hpos (by omega)
    · rw [List.append_nil]
      congr 2 <;> omega
  · -- the last block is full
    have hfull : (entitiesOf c regs).length = 256 * (blocksOf c regs).length := by omega
    have hscan' : scan buf (F.entry c)
        ((blocksOf c regs).getD ((blocksOf c regs).length - 1) 0) 256 0 = some 256 := by
      rw [hscan]; congr 1; omega
    have hb4 : (blocksOf c regs).getD ((blocksOf c regs).length - 1) 0 + 4 ≤ buf.length := by
      have := blockSize_pos (F.entry c); omega
    have hlg : (grown (F.entry c) buf
        ((blocksOf c regs).getD ((blocksOf c regs).length - 1) 0)).length =
        buf.length + blockSize (F.entry c) := length_grown hb4
    have hG := grow_inv hF hI (by omega) c _ rfl hfull
    have hblG : blocksOf c (regs ++ [⟨buf.length, .block c⟩]) =
        blocksOf c regs ++ [buf.length] := by
      rw [blocksOf_append, blocksOf_block, if_pos rfl]
    have hpsG : entitiesOf c (regs ++ [⟨buf.length, .block c⟩]) = entitiesOf c regs := by
      rw [entitiesOf_append, entitiesOf_block, List.append_nil]
    have hlenG : (blocksOf c (regs ++ [⟨buf.length, .block c⟩])).length =
        (blocksOf c regs).length + 1 := by
      rw [hblG, List.length_append, List.length_singleton]
    have htG : buf.length = (blocksOf c (regs ++ [⟨buf.length, .block c⟩])).getD
        ((blocksOf c (regs ++ [⟨buf.length, .block c⟩])).length - 1) 0 := by
      rw [hlenG, hblG, List.getD_append_right _ _ _ _ (by omega)]
      simp
    have hP := place_inv hF hG (by rw [hlg]; omega) c data entry hentry buf.length 0 htG
      (by rw [hlenG, hpsG]; omega) (by decide)
    have hin := entry_in_block (F.entry c) buf.length 0 (by decide)
    refine ⟨_, _, buf.length + blockSize (F.entry c), [⟨buf.length, .block c⟩],
      insert_full hlen hbs hpos hentry hhead hwalk hscan', ?_, ?_, Or.inr ⟨rfl, hfull⟩,
      by simp [Region.size], ?_, ?_⟩
    · have := @readU32_placed_pos (F.entry c) (grown (F.entry c) buf
        ((blocksOf c regs).getD ((blocksOf c regs).length - 1) 0)) buf.length 0 data entry
        hentry hpos (by rw [hlg]; exact hin)
      rw [hlg, u32_of_lt (by omega)] at this
      exact this
    · rw [hlg] at hP
      exact hP
    · rw [length_placed hentry hpos (by rw [hlg]; exact hin), hlg]
    · rw [hblG, hfull, List.getD_append_right _ _ _ _ (by omega)]
      have h1 : 256 * (blocksOf c regs).length / 256 - (blocksOf c regs).length = 0 := by omega
      have h2 : 256 * (blocksOf c regs).length % 256 = 0 := by omega
      rw [h1, h2]
      rfl

/-- A call of insert on a document does not change the header or the setup
record: the bytes in front of the first index block stay as they are. -/
theorem insert_low {F : Format} {buf : QByteArray} {regs : List Region}
    (hF : F.WF) (hI : Inv F buf regs) (hlen : buf.length < 2 ^ 31) (c : Chain)
    (data entry : List Byte) (hentry : entry.length = (F.entry c).size)
    {final : QByteArray} {e : Nat} (h : insert F c buf data entry = .ok final e)
    (j : Nat) (hj : j < F.imageStart) : final[j]? = buf[j]? := by
  have hC := hI.chain c
  have hm := hC.nonempty
  have hle := hC.count_le
  have hge := hC.count_ge
  have hbs := hF.blockSize_lt c
  have hpos := hF.pos_in c
  obtain ⟨hhead, hwalk⟩ := walk_inv hF hI hlen c
  have hscan := scan_inv hF hI c
  obtain ⟨_, hlo, hhi⟩ := hI.block_bounds (c := c) (k := (blocksOf c regs).length - 1)
    (by omega)
  have hbs4 := blockSize_pos (F.entry c)
  by_cases hroom : (entitiesOf c regs).length < 256 * (blocksOf c regs).length
  · have hi : (entitiesOf c regs).length - 256 * ((blocksOf c regs).length - 1) < 256 := by
      omega
    have hin := entry_in_block (F.entry c)
      ((blocksOf c regs).getD ((blocksOf c regs).length - 1) 0) _ hi
    rw [insert_free hlen hbs hpos hentry hhead hwalk hscan hi] at h
    simp only [InsertResult.ok.injEq] at h
    rw [← h.1]
    exact getElem?_placed hentry hpos (by omega) j (by omega)
      (Or.inl (by unfold entryOff; omega))
  · have hscan2 : scan buf (F.entry c)
        ((blocksOf c regs).getD ((blocksOf c regs).length - 1) 0) 256 0 = some 256 := by
      rw [hscan]; congr 1; omega
    have hb4 : (blocksOf c regs).getD ((blocksOf c regs).length - 1) 0 + 4 ≤ buf.length := by
      omega
    have hlg : (grown (F.entry c) buf
        ((blocksOf c regs).getD ((blocksOf c regs).length - 1) 0)).length =
        buf.length + blockSize (F.entry c) := length_grown hb4
    have hin := entry_in_block (F.entry c) buf.length 0 (by decide)
    rw [insert_full hlen hbs hpos hentry hhead hwalk hscan2] at h
    simp only [InsertResult.ok.injEq] at h
    rw [← h.1, getElem?_placed hentry hpos (by rw [hlg]; exact hin) j (by rw [hlg]; omega)
      (Or.inl (by unfold entryOff; omega))]
    exact getElem?_grown hb4 j (by omega) (Or.inl (by omega))

/-- A call of insert leaves every chain with an entry in its last block. -/
theorem tight_step {regs pre : List Region} {c : Chain} {p L : Nat} {data : List Byte}
    (hT : Tight regs)
    (hpre : (pre = [] ∧ (entitiesOf c regs).length < 256 * (blocksOf c regs).length) ∨
      (pre = [⟨L, .block c⟩] ∧ (entitiesOf c regs).length = 256 * (blocksOf c regs).length))
    (hge : 256 * ((blocksOf c regs).length - 1) ≤ (entitiesOf c regs).length) :
    Tight (regs ++ pre ++ [⟨p, .entity c data⟩]) := by
  intro d
  rcases hpre with ⟨rfl, h⟩ | ⟨rfl, h⟩
  · simp only [List.append_nil, blocksOf_append, entitiesOf_append, blocksOf_entity,
      entitiesOf_entity]
    by_cases hdc : c = d
    · subst hdc
      simp only [if_true, List.length_append, List.length_singleton]
      right; omega
    · simp only [if_neg hdc, List.append_nil]
      exact hT d
  · simp only [blocksOf_append, entitiesOf_append, blocksOf_entity, entitiesOf_entity,
      blocksOf_block, entitiesOf_block, List.append_nil]
    by_cases hdc : c = d
    · subst hdc
      simp only [if_true, List.length_append, List.length_singleton]
      right; omega
    · simp only [if_neg hdc, List.append_nil]
      exact hT d

end OcdEntityIndex

namespace OcdFile

open OcdEntityIndex

/-! ### The fresh file -/

theorem length_headerImage {F : Format} (hF : F.WF) : (headerImage F).length = F.headerSize := by
  have h1 : F.versionOff + (natToLe 2 F.version).length ≤ F.headerInit.length := by
    rw [length_natToLe]; exact hF.version_in
  have hl1 := length_put F.headerInit F.versionOff (natToLe 2 F.version) h1
  unfold headerImage
  simp only []
  split
  · rw [length_put _ _ _ (by rw [length_natToLe, hl1]; exact hF.subversion_in), hl1]
    rfl
  · rw [hl1]; rfl

theorem initialHeader_eq {F : Format} (hF : F.WF) : initialHeader F = some (headerImage F) := by
  have h1 : F.versionOff + (natToLe 2 F.version).length ≤ F.headerInit.length := by
    rw [length_natToLe]; exact hF.version_in
  have hl1 := length_put F.headerInit F.versionOff (natToLe 2 F.version) h1
  unfold initialHeader headerImage
  rw [writeBytes_eq_some h1]
  simp only []
  split
  · rw [writeBytes_eq_some (by rw [length_natToLe, hl1]; exact hF.subversion_in)]
  · rfl

theorem length_preamble {F : Format} (hF : F.WF) : (preamble F).length = F.imageStart := by
  unfold preamble Format.imageStart
  split
  · rw [List.length_append, length_headerImage hF]
  · rw [length_headerImage hF]; rfl

theorem appendFirstBlock_eq {F : Format} {c : Chain} {buf : QByteArray}
    (h : F.firstBlockOff c + 4 ≤ buf.length) :
    appendFirstBlock F c buf = some (grown (F.entry c) buf (F.firstBlockOff c)) := by
  unfold appendFirstBlock grown
  rw [writeU32_eq_some _ h]

/-- The constructor returns the image. -/
theorem OcdFile_eq {F : Format} (hF : F.WF) : OcdFile F = some (image F) := by
  have hp := length_preamble hF
  have h1 := hF.first_lt .strings
  have h2 := hF.first_lt .symbols
  have h3 := hF.first_lt .objects
  have e1 : appendFirstBlock F .strings (preamble F) =
      some (grown (F.entry .strings) (preamble F) (F.firstBlockOff .strings)) :=
    appendFirstBlock_eq (by rw [hp]; exact h1)
  have l1 : (grown (F.entry .strings) (preamble F) (F.firstBlockOff .strings)).length =
      F.imageStart + blockSize (F.entry .strings) := by
    rw [length_grown (by rw [hp]; exact h1), hp]
  have e2 : appendFirstBlock F .symbols
      (grown (F.entry .strings) (preamble F) (F.firstBlockOff .strings)) = some _ :=
    appendFirstBlock_eq (by rw [l1]; omega)
  have l2 : (grown (F.entry .symbols)
      (grown (F.entry .strings) (preamble F) (F.firstBlockOff .strings))
      (F.firstBlockOff .symbols)).length =
      F.imageStart + blockSize (F.entry .strings) + blockSize (F.entry .symbols) := by
    rw [length_grown (by rw [l1]; omega), l1]
  have e3 : appendFirstBlock F .objects
      (grown (F.entry .symbols)
        (grown (F.entry .strings) (preamble F) (F.firstBlockOff .strings))
        (F.firstBlockOff .symbols)) = some _ :=
    appendFirstBlock_eq (by rw [l2]; omega)
  unfold OcdFile
  rw [initialHeader_eq hF]
  have hb1 : (if F.version = 8 then ([] ++ headerImage F) ++ F.setupInit
      else [] ++ headerImage F) = preamble F := by
    unfold preamble; simp
  simp only [hb1, e1, e2, e3]
  rfl

theorem length_image {F : Format} (hF : F.WF) : (image F).length = freshLength F := by
  have hp := length_preamble hF
  have h1 := hF.first_lt .strings
  have h2 := hF.first_lt .symbols
  have h3 := hF.first_lt .objects
  simp only [Format.firstBlockOff] at h1 h2 h3
  unfold image freshLength
  rw [length_grown, length_grown, length_grown, hp]
  · rw [hp]; omega
  · rw [length_grown, hp]
    · omega
    · rw [hp]; omega
  · rw [length_grown, length_grown, hp]
    · omega
    · rw [hp]; omega
    · rw [length_grown, hp]
      · omega
      · rw [hp]; omega

end OcdFile

namespace OcdFile

open OcdEntityIndex

theorem firstBlockPos_bounds (F : Format) (c : Chain) :
    F.imageStart ≤ firstBlockPos F c ∧
    firstBlockPos F c + blockSize (F.entry c) ≤ freshLength F := by
  cases c <;> simp only [firstBlockPos, freshLength, Format.entry] <;> omega

/-- Behind the header and the setup record a fresh file is zero. -/
theorem getElem?_image_zero {F : Format} (hF : F.WF) (i : Nat) (h1 : F.imageStart ≤ i)
    (h2 : i < freshLength F) : (image F)[i]? = some 0 := by
  have hp := length_preamble hF
  have f1 := hF.first_lt .strings
  have f2 := hF.first_lt .symbols
  have f3 := hF.first_lt .objects
  simp only [Format.firstBlockOff] at f1 f2 f3
  have hb1 : F.firstStringBlockOff + 4 ≤ (preamble F).length := by rw [hp]; exact f1
  have l2 : (grown F.stringEntry (preamble F) F.firstStringBlockOff).length =
      F.imageStart + blockSize F.stringEntry := by rw [length_grown hb1, hp]
  have hb2 : F.firstSymbolBlockOff + 4 ≤
      (grown F.stringEntry (preamble F) F.firstStringBlockOff).length := by rw [l2]; omega
  have l3 : (grown F.symbolEntry (grown F.stringEntry (preamble F) F.firstStringBlockOff)
      F.firstSymbolBlockOff).length =
      F.imageStart + blockSize F.stringEntry + blockSize F.symbolEntry := by
    rw [length_grown hb2, l2]
  have hb3 : F.firstObjectBlockOff + 4 ≤
      (grown F.symbolEntry (grown F.stringEntry (preamble F) F.firstStringBlockOff)
        F.firstSymbolBlockOff).length := by rw [l3]; omega
  unfold freshLength at h2
  unfold image
  by_cases c3 : i < F.imageStart + blockSize F.stringEntry + blockSize F.symbolEntry
  · rw [getElem?_grown hb3 i (by rw [l3]; exact c3) (Or.inr (by omega))]
    by_cases c2 : i < F.imageStart + blockSize F.stringEntry
    · rw [getElem?_grown hb2 i (by rw [l2]; exact c2) (Or.inr (by omega))]
      have := getElem?_grown_new (E := F.stringEntry) hb1 (i - F.imageStart) (by omega)
      rw [hp, show F.imageStart + (i - F.imageStart) = i by omega] at this
      exact this
    · have := getElem?_grown_new (E := F.symbolEntry) hb2
        (i - (F.imageStart + blockSize F.stringEntry)) (by omega)
      rw [l2, show F.imageStart + blockSize F.stringEntry +
        (i - (F.imageStart + blockSize F.stringEntry)) = i by omega] at this
      exact this
  · have := getElem?_grown_new (E := F.objectEntry) hb3
      (i - (F.imageStart + blockSize F.stringEntry + blockSize F.symbolEntry)) (by omega)
    rw [l3, show F.imageStart + blockSize F.stringEntry + blockSize F.symbolEntry +
      (i - (F.imageStart + blockSize F.stringEntry + blockSize F.symbolEntry)) = i by omega]
      at this
    exact this

theorem readU32_image_zero {F : Format} (hF : F.WF) (x : Nat) (h1 : F.imageStart ≤ x)
    (h2 : x + 4 ≤ freshLength F) : readU32 (image F) x = some 0 := by
  rw [readU32_eq_some (by rw [length_image hF]; exact h2)]
  have : mid (image F) x 4 = zeros 4 := by
    apply List.ext_getElem?
    intro k
    rw [getElem?_mid]
    by_cases hk : k < 4
    · rw [if_pos hk, getElem?_image_zero hF (x + k) (by omega) (by omega)]
      unfold zeros
      rw [List.getElem?_replicate, if_pos hk]
    · rw [if_neg hk]
      unfold zeros
      rw [List.getElem?_replicate, if_neg hk]
  rw [this, leToNat_zeros]

/-- The header of a fresh file holds the offsets of the three first blocks. -/
theorem readU32_image_first {F : Format} (hF : F.WF) (hlen : freshLength F < 2 ^ 32)
    (c : Chain) : readU32 (image F) (F.firstBlockOff c) = some (firstBlockPos F c) := by
  have hp := length_preamble hF
  have f1 := hF.first_lt .strings
  have f2 := hF.first_lt .symbols
  have f3 := hF.first_lt .objects
  have d12 := hF.first_disj .strings .symbols (by decide)
  have d13 := hF.first_disj .strings .objects (by decide)
  have d23 := hF.first_disj .symbols .objects (by decide)
  simp only [Format.firstBlockOff, Disjoint2] at f1 f2 f3 d12 d13 d23
  have hb1 : F.firstStringBlockOff + 4 ≤ (preamble F).length := by rw [hp]; exact f1
  have l2 : (grown F.stringEntry (preamble F) F.firstStringBlockOff).length =
      F.imageStart + blockSize F.stringEntry := by rw [length_grown hb1, hp]
  have hb2 : F.firstSymbolBlockOff + 4 ≤
      (grown F.stringEntry (preamble F) F.firstStringBlockOff).length := by rw [l2]; omega
  have l3 : (grown F.symbolEntry (grown F.stringEntry (preamble F) F.firstStringBlockOff)
      F.firstSymbolBlockOff).length =
      F.imageStart + blockSize F.stringEntry + blockSize F.symbolEntry := by
    rw [length_grown hb2, l2]
  have hb3 : F.firstObjectBlockOff + 4 ≤
      (grown F.symbolEntry (grown F.stringEntry (preamble F) F.firstStringBlockOff)
        F.firstSymbolBlockOff).length := by rw [l3]; omega
  unfold freshLength at hlen
  unfold image
  cases c with
  | strings =>
    simp only [Format.firstBlockOff, firstBlockPos]
    rw [readU32_grown_old hb3 _ (by rw [l3]; omega) (by omega),
      readU32_grown_old hb2 _ (by rw [l2]; omega) (by omega),
      readU32_grown_link hb1, hp, u32_of_lt (by omega)]
  | symbols =>
    simp only [Format.firstBlockOff, firstBlockPos]
    rw [readU32_grown_old hb3 _ (by rw [l3]; omega) (by omega),
      readU32_grown_link hb2, l2, u32_of_lt (by omega)]
  | objects =>
    simp only [Format.firstBlockOff, firstBlockPos]
    rw [readU32_grown_link hb3, l3, u32_of_lt (by omega)]

/-- A fresh file satisfies the invariant, with one empty block per chain. -/
theorem fresh_inv {F : Format} (hF : F.WF) (hlen : freshLength F < 2 ^ 32) :
    Inv F (image F) (freshRegs F) := by
  have hbS := firstBlockPos_bounds F .strings
  have hbY := firstBlockPos_bounds F .symbols
  have hbO := firstBlockPos_bounds F .objects
  refine ⟨?_, ?_, ?_, ?_, ?_⟩
  · rw [length_image hF]
    simp only [freshRegs, freshLength, Region.size, Format.entry, List.map_cons, List.map_nil,
      List.sum_cons, List.sum_nil]
    omega
  · simp only [freshRegs, List.pairwise_cons, List.mem_cons, List.mem_singleton,
      List.not_mem_nil, forall_eq_or_imp, forall_eq, Region.size, firstBlockPos, Format.entry,
      List.Pairwise.nil, and_true, IsEmpty.forall_iff, implies_true]
    omega
  · intro r hr
    rw [length_image hF]
    simp only [freshRegs, List.mem_cons, List.mem_singleton, List.not_mem_nil, or_false] at hr
    rcases hr with rfl | rfl | rfl <;> simp only [Region.size] <;> omega
  · intro r c data hr hseg
    simp only [freshRegs, List.mem_cons, List.mem_singleton, List.not_mem_nil, or_false] at hr
    rcases hr with rfl | rfl | rfl <;> simp at hseg
  · intro c
    have hbl : blocksOf c (freshRegs F) = [firstBlockPos F c] := by
      cases c <;> simp [blocksOf, freshRegs]
    have hps : entitiesOf c (freshRegs F) = [] := by
      cases c <;> simp [entitiesOf, freshRegs]
    have hb := firstBlockPos_bounds F c
    have hbs := blockSize_pos (F.entry c)
    rw [hbl, hps]
    refine ⟨by simp, ?_, ?_, ?_, by simp, by simp⟩
    · simp only [List.getD_cons_zero]
      exact readU32_image_first hF hlen c
    · intro k hk
      simp only [List.length_singleton] at hk
      have hk0 : k = 0 := by omega
      subst hk0
      simp only [List.getD_cons_zero, List.length_singleton, Nat.lt_irrefl, if_false]
      exact readU32_image_zero hF _ hb.1 (by omega)
    · intro j hj
      simp only [List.length_singleton, Nat.mul_one] at hj
      have hj0 : j / 256 = 0 := by omega
      have hs : j % 256 < 256 := Nat.mod_lt _ (by decide)
      rw [hj0]
      simp only [List.getD_cons_zero, List.length_nil, Nat.not_lt_zero, if_false]
      have hin := entry_in_block (F.entry c) (firstBlockPos F c) (j % 256) hs
      have hpos := hF.pos_in c
      apply readU32_image_zero hF
      · unfold entryPosOff entryOff; omega
      · unfold entryPosOff; omega

theorem fresh_tight (F : Format) : Tight (freshRegs F) := by
  intro c
  left
  cases c <;> simp [blocksOf, freshRegs]

end OcdFile

namespace OcdFile

open OcdEntityIndex

/-! ### Sequences of calls -/

theorem run_nil (F : Format) (buf : QByteArray) : run F buf [] = some (buf, []) := rfl

theorem run_cons (F : Format) (buf : QByteArray) (call : InsertCall) (calls : List InsertCall) :
    run F buf (call :: calls) =
      match insertCall F buf call with
      | none => none
      | some (next, r) =>
        match run F next calls with
        | none => none
        | some (final, rs) => some (final, r :: rs) := rfl

theorem run_snoc (F : Format) (buf : QByteArray) (calls : List InsertCall) (call : InsertCall)
    {mid_buf final : QByteArray} {rs : List Inserted} {r : Inserted}
    (h1 : run F buf calls = some (mid_buf, rs))
    (h2 : insertCall F mid_buf call = some (final, r)) :
    run F buf (calls ++ [call]) = some (final, rs ++ [r]) := by
  induction calls generalizing buf rs with
  | nil =>
    rw [run_nil] at h1
    simp only [Option.some.injEq, Prod.mk.injEq] at h1
    obtain ⟨rfl, rfl⟩ := h1
    simp only [List.nil_append, run_cons, h2, run_nil]
  | cons c0 calls ih =>
    rw [run_cons] at h1
    rw [List.cons_append, run_cons]
    cases hc : insertCall F buf c0 with
    | none => simp [hc] at h1
    | some pr =>
      obtain ⟨next, r0⟩ := pr
      simp only [hc] at h1 ⊢
      cases hr : run F next calls with
      | none => simp [hr] at h1
      | some pr2 =>
        obtain ⟨f2, rs2⟩ := pr2
        simp only [hr, Option.some.injEq, Prod.mk.injEq] at h1
        obtain ⟨rfl, rfl⟩ := h1
        rw [ih next hr]
        rfl

theorem callsOf_snoc (c : Chain) (calls : List InsertCall) (call : InsertCall) :
    callsOf c (calls ++ [call]) = callsOf c calls + (if call.chain = c then 1 else 0) := by
  unfold callsOf
  rw [List.filter_append, List.length_append]
  by_cases h : call.chain = c <;> simp [h]

theorem blocksNeeded_succ (n : Nat) :
    blocksNeeded (n + 1) = blocksNeeded n + (if n % 256 = 0 ∧ n ≠ 0 then 1 else 0) := by
  unfold blocksNeeded
  by_cases h : n % 256 = 0 ∧ n ≠ 0
  · rw [if_pos h]; omega
  · rw [if_neg h]; omega

theorem expectedLength_snoc (F : Format) (calls : List InsertCall) (call : InsertCall) :
    expectedLength F (calls ++ [call]) =
      expectedLength F calls
        + (if callsOf call.chain calls % 256 = 0 ∧ callsOf call.chain calls ≠ 0
            then blockSize (F.entry call.chain) else 0)
        + call.entity_data.length := by
  unfold expectedLength
  rw [callsOf_snoc, callsOf_snoc, callsOf_snoc, List.map_append, List.sum_append]
  simp only [List.map_cons, List.map_nil, List.sum_cons, List.sum_nil, Nat.add_zero]
  cases hc : call.chain <;>
    simp only [reduceCtorEq, if_true, if_false, Nat.add_zero, blocksNeeded_succ, Format.entry,
      Nat.add_mul] <;>
    split <;> simp only [Nat.one_mul, Nat.zero_mul] <;> omega

end OcdFile

namespace OcdFile

open OcdEntityIndex

theorem expectedLength_nil (F : Format) : expectedLength F [] = freshLength F := by
  simp [expectedLength, freshLength, callsOf, blocksNeeded]

theorem entityRegs_block (x : Nat) (c : Chain) : entityRegs [⟨x, .block c⟩] = [] := by
  simp [entityRegs]

theorem entityRegs_entity (x : Nat) (c : Chain) (data : List Byte) :
    entityRegs [⟨x, .entity c data⟩] = [(x, c, data)] := by
  simp [entityRegs]

theorem chainView_snoc (E : EntryLayout) (bl bl2 ps : List Nat) (p : Nat)
    (hbl : ∀ j, j < ps.length → bl2.getD (j / 256) 0 = bl.getD (j / 256) 0) :
    chainView E bl2 (ps ++ [p]) =
      chainView E bl ps ++
        [{ entry := entryOff E (bl2.getD (ps.length / 256) 0) (ps.length % 256), pos := p }] := by
  unfold chainView
  rw [List.length_append, List.length_singleton, List.range_succ, List.map_append]
  congr 1
  · apply List.map_congr_left
    intro j hj
    rw [List.mem_range] at hj
    rw [hbl j hj, List.getD_append _ _ _ _ hj]
  · simp [List.getD_append_right]

/-- The entries met by walking a chain after one more call of insert: those
met before, followed by the new entry when the call went to this chain. -/
theorem chainView_step (F : Format) {regs pre : List Region} {c : Chain} {p L : Nat}
    {data : List Byte}
    (hpre : (pre = [] ∧ (entitiesOf c regs).length < 256 * (blocksOf c regs).length) ∨
      (pre = [⟨L, .block c⟩] ∧ (entitiesOf c regs).length = 256 * (blocksOf c regs).length))
    (hle : (entitiesOf c regs).length ≤ 256 * (blocksOf c regs).length) (d : Chain) :
    chainView (F.entry d) (blocksOf d (regs ++ pre ++ [⟨p, .entity c data⟩]))
        (entitiesOf d (regs ++ pre ++ [⟨p, .entity c data⟩])) =
      chainView (F.entry d) (blocksOf d regs) (entitiesOf d regs) ++
        (if c = d then
          [{ entry := entryOff (F.entry c)
              ((blocksOf c (regs ++ pre)).getD ((entitiesOf c regs).length / 256) 0)
              ((entitiesOf c regs).length % 256), pos := p }]
        else []) := by
  have hE : entitiesOf d (regs ++ pre ++ [⟨p, .entity c data⟩]) =
      entitiesOf d regs ++ (if c = d then [p] else []) := by
    rw [entitiesOf_append, entitiesOf_append, entitiesOf_entity]
    rcases hpre with ⟨rfl, _⟩ | ⟨rfl, _⟩
    · simp [entitiesOf]
    · rw [entitiesOf_block, List.append_nil]
  have hB : blocksOf d (regs ++ pre ++ [⟨p, .entity c data⟩]) = blocksOf d (regs ++ pre) := by
    rw [blocksOf_append (r := regs ++ pre), blocksOf_entity, List.append_nil]
  rw [hE, hB]
  by_cases hdc : c = d
  · subst hdc
    simp only [if_true]
    apply chainView_snoc
    intro j hj
    rw [blocksOf_append, List.getD_append _ _ _ _ (by omega)]
  · simp only [if_neg hdc, List.append_nil]
    congr 1
    rw [blocksOf_append]
    rcases hpre with ⟨rfl, _⟩ | ⟨rfl, _⟩
    · simp [blocksOf]
    · rw [blocksOf_block, if_neg hdc, List.append_nil]

/-- Every sequence of calls of insert on a buffer that has the layout of a fresh
file returns, as long as the buffer stays below `2^31` bytes, leaves a document
that satisfies the invariant, and leaves the header and the setup record as
they were. -/
theorem run_from {F : Format} (hF : F.WF) (b0 : QByteArray) (hI0 : Inv F b0 (freshRegs F))
    (calls : List InsertCall)
    (hentry : ∀ call, call ∈ calls → call.entry.length = (F.entry call.chain).size)
    (hsize : expectedLength F calls < 2 ^ 31) :
    ∃ buf recs regs, run F b0 calls = some (buf, recs) ∧
      RunInv F calls buf recs regs ∧ ∀ j, j < F.imageStart → buf[j]? = b0[j]? := by
  have hl0 : b0.length = freshLength F := by
    rw [hI0.contig]
    simp only [freshRegs, freshLength, Region.size, Format.entry, List.map_cons, List.map_nil,
      List.sum_cons, List.sum_nil]
    omega
  induction calls using List.reverseRecOn with
  | nil =>
    rw [expectedLength_nil] at hsize
    refine ⟨b0, [], freshRegs F, rfl, ⟨hI0, fresh_tight F, ?_, ?_, rfl,
      ?_, ?_⟩, fun _ _ => rfl⟩
    · rw [hl0, expectedLength_nil]
    · intro c
      cases c <;> simp [entitiesOf, freshRegs, callsOf]
    · simp [entityRegs, freshRegs]
    · intro c
      cases c <;> simp [chainView, entitiesOf, freshRegs]
  | append_singleton calls call ih =>
    have hsn := expectedLength_snoc F calls call
    obtain ⟨buf, recs, regs, hrun, hR, hlow⟩ := ih
      (fun c hc => hentry c (List.mem_append_left _ hc)) (by omega)
    have hlen : buf.length < 2 ^ 31 := by rw [hR.length_eq]; omega
    obtain ⟨buf', e, p, pre, hins, hread, hI', hpre, hp, hlen', he⟩ :=
      insert_inv hF hR.inv hlen call.chain call.entity_data call.entry
        (hentry call (List.mem_append_right _ (List.mem_singleton_self _)))
    have hlow2 : ∀ j, j < F.imageStart → buf'[j]? = b0[j]? := fun j hj =>
      (insert_low hF hR.inv hlen call.chain call.entity_data call.entry
        (hentry call (List.mem_append_right _ (List.mem_singleton_self _))) hins j hj).trans
        (hlow j hj)
    have hcall : insertCall F buf call = some (buf', { entry := e, pos := p }) := by
      unfold insertCall
      simp only [hins, hread]
    have hC := hR.inv.chain call.chain
    have hT := hR.tight call.chain
    have hN := hR.count call.chain
    have hpreE : ∀ d, entitiesOf d pre = [] := by
      intro d
      rcases hpre with ⟨rfl, _⟩ | ⟨rfl, _⟩
      · rfl
      · exact entitiesOf_block _ _ _
    have hpreR : entityRegs pre = [] := by
      rcases hpre with ⟨rfl, _⟩ | ⟨rfl, _⟩
      · rfl
      · exact entityRegs_block _ _
    refine ⟨buf', recs ++ [{ entry := e, pos := p }],
      regs ++ pre ++ [⟨p, .entity call.chain call.entity_data⟩],
      run_snoc F _ calls call hrun hcall,
      ⟨hI', tight_step hR.tight hpre hC.count_ge, ?_, ?_, ?_, ?_, ?_⟩, hlow2⟩
    · rw [hlen', hp, hsn, hR.length_eq]
      have hle := hC.count_le
      have hm := hC.nonempty
      rcases hpre with ⟨rfl, hroom⟩ | ⟨rfl, hfull⟩
      · rw [if_neg (by omega)]
        simp
      · rw [if_pos (by omega)]
        simp [Region.size]
    · intro d
      rw [entitiesOf_append, entitiesOf_append, hpreE, List.append_nil, entitiesOf_entity,
        List.length_append, hR.count d, callsOf_snoc]
      by_cases hd : call.chain = d <;> simp [hd]
    · simp only [List.length_append, List.length_singleton, hR.recs_length]
    · rw [entityRegs_append, entityRegs_append, hpreR, List.append_nil, entityRegs_entity,
        hR.entities, List.zipWith_append _ _ _ _ _ hR.recs_length.symm]
      rfl
    · intro d
      rw [chainView_step F hpre hC.count_le d, hR.views d,
        List.zip_append hR.recs_length.symm, List.filterMap_append, ← he]
      by_cases hd : call.chain = d <;> simp [hd]

/-- Every sequence of calls of insert on a fresh file returns, as long as the
buffer stays below `2^31` bytes, and leaves a document that satisfies the
invariant. -/
theorem run_fresh {F : Format} (hF : F.WF) (calls : List InsertCall)
    (hentry : ∀ call, call ∈ calls → call.entry.length = (F.entry call.chain).size)
    (hsize : expectedLength F calls < 2 ^ 31) :
    ∃ buf recs regs, run F (image F) calls = some (buf, recs) ∧
      RunInv F calls buf recs regs := by
  have h0 : freshLength F < 2 ^ 32 := by
    have := expectedLength_nil F
    have hm : expectedLength F [] ≤ expectedLength F calls := by
      clear hentry hsize this
      induction calls using List.reverseRecOn with
      | nil => exact le_refl _
      | append_singleton calls call ih =>
        have := expectedLength_snoc F calls call
        omega
    omega
  obtain ⟨buf, recs, regs, h1, h2, _⟩ := run_from hF (image F) (fresh_inv hF h0) calls hentry hsize
  exact ⟨buf, recs, regs, h1, h2⟩

end OcdFile

namespace OcdEntityIndex

/-! ### Walking a chain of a document that satisfies the invariant -/

theorem length_chainView (E : EntryLayout) (bl ps : List Nat) :
    (chainView E bl ps).length = ps.length := by
  simp [chainView]

theorem getElem?_chainView (E : EntryLayout) (bl ps : List Nat) (j : Nat) (hj : j < ps.length) :
    (chainView E bl ps)[j]? =
      some { entry := entryOff E (bl.getD (j / 256) 0) (j % 256), pos := ps.getD j 0 } := by
  unfold chainView
  rw [List.getElem?_map, List.getElem?_range hj]
  rfl

theorem drop_chainView_cons (E : EntryLayout) (bl ps : List Nat) (j : Nat) (hj : j < ps.length) :
    (chainView E bl ps).drop j =
      { entry := entryOff E (bl.getD (j / 256) 0) (j % 256), pos := ps.getD j 0 } ::
        (chainView E bl ps).drop (j + 1) := by
  have h := getElem?_chainView E bl ps j hj
  have hl : j < (chainView E bl ps).length := by rw [length_chainView]; exact hj
  rw [List.getElem?_eq_getElem hl] at h
  simp only [Option.some.injEq] at h
  rw [← h]
  exact List.drop_eq_getElem_cons hl

theorem usedEntries_succ (buf : QByteArray) (E : EntryLayout) (b n index : Nat) :
    usedEntries buf E b (n + 1) index =
      match readU32 buf (entryPosOff E b index) with
      | some p =>
        if p ≠ 0 then
          { entry := entryOff E b index, pos := p } :: usedEntries buf E b n (index + 1)
        else usedEntries buf E b n (index + 1)
      | none => usedEntries buf E b n (index + 1) := rfl

/-- The entries in use of block number `k`, from slot `s` on. -/
theorem usedEntries_inv {F : Format} {buf : QByteArray} {regs : List Region}
    (hF : F.WF) (hI : Inv F buf regs) (c : Chain) (k : Nat)
    (hk : k < (blocksOf c regs).length) (n s : Nat) (hns : s + n = 256) :
    usedEntries buf (F.entry c) ((blocksOf c regs).getD k 0) n s =
      ((chainView (F.entry c) (blocksOf c regs) (entitiesOf c regs)).drop (256 * k + s)).take n := by
  have hC := hI.chain c
  have h4 := Format.WF.imageStart_pos hF
  induction n generalizing s with
  | zero => simp [usedEntries]
  | succ n ih =>
    have hsl := hC.slot (256 * k + s) (by omega)
    rw [show (256 * k + s) / 256 = k by omega, show (256 * k + s) % 256 = s by omega] at hsl
    rw [usedEntries_succ, hsl, ih (s + 1) (by omega)]
    by_cases hj : 256 * k + s < (entitiesOf c regs).length
    · have hge := hI.entity_ge (c := c) hj
      simp only [if_pos hj]
      rw [if_pos (by omega), drop_chainView_cons _ _ _ _ hj, List.take_succ_cons,
        show (256 * k + s) / 256 = k by omega, show (256 * k + s) % 256 = s by omega,
        Nat.add_assoc]
    · simp only [if_neg hj, ne_eq, not_true_eq_false, if_false]
      rw [List.drop_eq_nil_of_le (by rw [length_chainView]; omega),
        List.drop_eq_nil_of_le (by rw [length_chainView]; omega)]
      simp

theorem chainEntries_succ (buf : QByteArray) (E : EntryLayout) (fuel pos : Nat) :
    chainEntries buf E (fuel + 1) pos =
      match (getBlockChecked buf pos (blockSize E)).block with
      | none => none
      | some block =>
        match readU32 buf block with
        | none => none
        | some next_block =>
          if next_block ≠ 0 then
            match chainEntries buf E fuel next_block with
            | none => none
            | some rest => some (usedEntries buf E block 256 0 ++ rest)
          else some (usedEntries buf E block 256 0) := rfl

/-- Walking from block number `k` meets the entries from number `256 * k` on. -/
theorem chainEntries_from {F : Format} {buf : QByteArray} {regs : List Region}
    (hF : F.WF) (hI : Inv F buf regs) (hlen : buf.length < 2 ^ 31) (c : Chain)
    (n k d : Nat) (hk : k + n + 1 = (blocksOf c regs).length) :
    chainEntries buf (F.entry c) (n + 1 + d) ((blocksOf c regs).getD k 0) =
      some ((chainView (F.entry c) (blocksOf c regs) (entitiesOf c regs)).drop (256 * k)) := by
  have hC := hI.chain c
  have h4 := Format.WF.imageStart_pos hF
  have hbs := blockSize_pos (F.entry c)
  induction n generalizing k with
  | zero =>
    obtain ⟨_, hlo, hhi⟩ := hI.block_bounds (c := c) (k := k) (by omega)
    have hres : (getBlockChecked buf ((blocksOf c regs).getD k 0)
        (blockSize (F.entry c))).block = some ((blocksOf c regs).getD k 0) := by
      rw [getBlockChecked_inside hlen (by omega) (by omega) hhi]
    have hl := hC.link k (by omega)
    rw [if_neg (by omega)] at hl
    rw [show 0 + 1 + d = d + 1 by omega, chainEntries_succ, hres]
    simp only [hl, ne_eq, not_true_eq_false, if_false]
    rw [usedEntries_inv hF hI c k (by omega) 256 0 rfl, Nat.add_zero,
      List.take_of_length_le]
    rw [List.length_drop, length_chainView]
    have := hC.count_le
    omega
  | succ n ih =>
    obtain ⟨_, hlo, hhi⟩ := hI.block_bounds (c := c) (k := k) (by omega)
    obtain ⟨_, hlo', _⟩ := hI.block_bounds (c := c) (k := k + 1) (by omega)
    have hres : (getBlockChecked buf ((blocksOf c regs).getD k 0)
        (blockSize (F.entry c))).block = some ((blocksOf c regs).getD k 0) := by
      rw [getBlockChecked_inside hlen (by omega) (by omega) hhi]
    have hl := hC.link k (by omega)
    rw [if_pos (by omega)] at hl
    rw [show n + 1 + 1 + d = (n + 1 + d) + 1 by omega, chainEntries_succ, hres]
    simp only [hl]
    rw [if_pos (by omega), ih (k + 1) (by omega)]
    simp only []
    rw [usedEntries_inv hF hI c k (by omega) 256 0 rfl, Nat.add_zero]
    congr 1
    have : 256 * (k + 1) = 256 * k + 256 := by omega
    rw [this, ← List.drop_drop, List.take_append_drop]

theorem sorted_length_le (l : List Nat) (hs : l.Pairwise (· < ·)) (lo hi : Nat)
    (hb : ∀ x, x ∈ l → lo ≤ x ∧ x < hi) : lo + l.length ≤ hi ∨ l = [] := by
  induction l generalizing lo with
  | nil => right; rfl
  | cons a t ih =>
    left
    rw [List.pairwise_cons] at hs
    have ha := hb a (List.mem_cons_self _ _)
    rcases ih hs.2 (a + 1) (fun x hx => ⟨hs.1 x hx, (hb x (List.mem_cons_of_mem _ hx)).2⟩) with h | h
    · simp only [List.length_cons]; omega
    · subst h; simp only [List.length_cons, List.length_nil]; omega

/-- A chain has at most as many blocks as the buffer has bytes. -/
theorem Inv.blocks_length_le {F : Format} {buf : QByteArray} {regs : List Region}
    (hI : Inv F buf regs) (c : Chain) : (blocksOf c regs).length ≤ buf.length := by
  have hbs := blockSize_pos (F.entry c)
  rcases sorted_length_le _ (hI.blocks_sorted c) 0 buf.length (by
    intro x hx
    have := hI.bounds _ (mem_blocksOf.mp hx)
    simp only [Region.size] at this
    omega) with h | h
  · omega
  · rw [h]; simp

/-- Walking a chain of a document meets exactly the entries of the chain, in
block-then-slot order. -/
theorem chainEntries_inv {F : Format} {buf : QByteArray} {regs : List Region}
    (hF : F.WF) (hI : Inv F buf regs) (hlen : buf.length < 2 ^ 31) (c : Chain) :
    firstBlock F c buf = some ((blocksOf c regs).getD 0 0) ∧
    chainEntries buf (F.entry c) (buf.length + 1) ((blocksOf c regs).getD 0 0) =
      some (chainView (F.entry c) (blocksOf c regs) (entitiesOf c regs)) := by
  have hC := hI.chain c
  refine ⟨hC.head, ?_⟩
  have hm := hC.nonempty
  have hle := Inv.blocks_length_le hI c
  have := chainEntries_from hF hI hlen c ((blocksOf c regs).length - 1) 0
    (buf.length + 1 - (blocksOf c regs).length) (by omega)
  rw [show (blocksOf c regs).length - 1 + 1 + (buf.length + 1 - (blocksOf c regs).length) =
    buf.length + 1 by omega] at this
  rw [this]
  simp

end OcdEntityIndex

namespace Ocd

theorem FormatV9_wf : FormatV9.WF where
  version_lt := by decide
  version_in := by decide
  subversion_in := by decide
  first_in := by intro c; cases c <;> decide
  first_disj := by intro c d h; cases c <;> cases d <;> first | exact absurd rfl h | decide
  first_version := by intro c; cases c <;> decide
  first_subversion := by intro c; cases c <;> decide
  version_subversion := by decide
  pos_in := by intro c; cases c <;> decide
  block_lt := by intro c; cases c <;> decide

theorem mem_entityRegs {regs : List Region} {x : Nat} {c : Chain} {data : List Byte} :
    (x, c, data) ∈ entityRegs regs ↔ (⟨x, .entity c data⟩ : Region) ∈ regs := by
  unfold entityRegs
  rw [List.mem_filterMap]
  constructor
  · rintro ⟨⟨s, g⟩, hr, h⟩
    cases g with
    | block d => simp at h
    | entity d dat =>
      simp only [Option.some.injEq, Prod.mk.injEq] at h
      obtain ⟨rfl, rfl, rfl⟩ := h
      exact hr
  · intro h
    exact ⟨_, h, rfl⟩

/-- The entities lie one behind the other in allocation order. -/
theorem Inv.entities_sorted {F : Format} {buf : QByteArray} {regs : List Region}
    (hI : Inv F buf regs) :
    (entityRegs regs).Pairwise fun a b => a.1 + a.2.2.length ≤ b.1 := by
  unfold entityRegs
  refine List.Pairwise.filterMap _ ?_ hI.ordered
  intro a a' h b hb b' hb'
  obtain ⟨s, g⟩ := a
  obtain ⟨s', g'⟩ := a'
  cases g with
  | block d => simp at hb
  | entity d data =>
    cases g' with
    | block d' => simp at hb'
    | entity d' data' =>
      simp only [Option.mem_def, Option.some.injEq] at hb hb'
      subst hb hb'
      simpa [Region.size] using h

end Ocd

namespace OcdFile

open OcdEntityIndex

/-- The entity of call number `k` is in the buffer at the `pos` of the entry
that the call returned, and that `pos` is not 0. -/
theorem RunInv.entity_at {F : Format} {calls : List InsertCall} {buf : QByteArray}
    {recs : List Inserted} {regs : List Region} (hF : F.WF) (hR : RunInv F calls buf recs regs)
    {k : Nat} {call : InsertCall} {r : Inserted}
    (hc : calls[k]? = some call) (hr : recs[k]? = some r) :
    r.pos ≠ 0 ∧ r.pos + call.entity_data.length ≤ buf.length ∧
    mid buf r.pos call.entity_data.length = call.entity_data := by
  have hz : (List.zipWith (fun call r => (r.pos, call.chain, call.entity_data)) calls recs)[k]? =
      some (r.pos, call.chain, call.entity_data) := by
    rw [List.getElem?_zipWith, hc, hr]
  rw [← hR.entities] at hz
  have hmem := mem_entityRegs.mp (List.getElem?_mem hz)
  have hb := hR.inv.bounds _ hmem
  have h4 := Format.WF.imageStart_pos hF
  simp only [Region.size] at hb
  exact ⟨by omega, hb.2, hR.inv.content _ _ _ hmem rfl⟩

/-- C4 (as the code has it): along any sequence of calls of insert on a fresh
file, into any mix of chains, the `pos` assigned by a call is at least the
`pos` assigned by every earlier call plus the length of that earlier entity;
so the values never decrease, and they are strictly increasing when no entity
is empty. -/
theorem insert_pos_monotone (F : Format) (hF : F.WF) (calls : List InsertCall)
    (hentry : ∀ call, call ∈ calls → call.entry.length = (F.entry call.chain).size)
    (hsize : expectedLength F calls < 2 ^ 31) :
    ∃ b0 buf recs,
      OcdFile F = some b0 ∧ run F b0 calls = some (buf, recs) ∧
      recs.length = calls.length ∧
      (List.zipWith (fun call r => (r.pos, call.entity_data.length)) calls recs).Pairwise
        (fun a b => a.1 + a.2 ≤ b.1) ∧
      ((∀ call, call ∈ calls → call.entity_data ≠ []) →
        (recs.map Inserted.pos).Pairwise (· < ·)) := by
  obtain ⟨buf, recs, regs, hrun, hR⟩ := run_fresh hF calls hentry hsize
  have hP : (List.zipWith (fun call r => (r.pos, call.entity_data.length)) calls recs).Pairwise
      (fun a b => a.1 + a.2 ≤ b.1) := by
    have h1 := hR.inv.entities_sorted
    rw [hR.entities] at h1
    have h2 := List.Pairwise.map (fun t : Nat × Chain × List Byte => (t.1, t.2.2.length))
      (S := fun a b => a.1 + a.2 ≤ b.1) (fun a b h => h) h1
    rw [List.map_zipWith] at h2
    exact h2
  refine ⟨image F, buf, recs, OcdFile_eq hF, hrun, hR.recs_length, hP, ?_⟩
  intro hne
  rw [List.pairwise_iff_getElem] at hP ⊢
  intro i j hi hj hij
  simp only [List.length_map] at hi hj
  have hi' : i < calls.length := by rw [← hR.recs_length]; exact hi
  have hj' : j < calls.length := by rw [← hR.recs_length]; exact hj
  have := hP i j (by simp; omega) (by simp; omega) hij
  simp only [List.getElem_zipWith] at this
  have hpos : 0 < (calls[i]).entity_data.length :=
    List.length_pos.mpr (hne _ (List.getElem_mem hi'))
  simp only [List.getElem_map]
  omega

/-- Witness for C4: calls into two chains of a fresh version 9 file. -/
theorem insert_pos_monotone_witness :
    ∃ b0 buf recs,
      OcdFile FormatV9 = some b0 ∧
      run FormatV9 b0 [⟨.symbols, [1, 2, 3], zeros 4⟩, ⟨.strings, [4], zeros 16⟩] =
        some (buf, recs) ∧
      recs.length =
        [(⟨.symbols, [1, 2, 3], zeros 4⟩ : InsertCall), ⟨.strings, [4], zeros 16⟩].length ∧
      (List.zipWith (fun call r => (r.pos, call.entity_data.length))
        [(⟨.symbols, [1, 2, 3], zeros 4⟩ : InsertCall), ⟨.strings, [4], zeros 16⟩]
        recs).Pairwise (fun a b => a.1 + a.2 ≤ b.1) ∧
      ((∀ call, call ∈ [(⟨.symbols, [1, 2, 3], zeros 4⟩ : InsertCall),
          ⟨.strings, [4], zeros 16⟩] → call.entity_data ≠ []) →
        (recs.map Inserted.pos).Pairwise (· < ·)) :=
  insert_pos_monotone FormatV9 FormatV9_wf
    [⟨.symbols, [1, 2, 3], zeros 4⟩, ⟨.strings, [4], zeros 16⟩]
    (by simp [FormatV9, Format.entry, zeros]) (by decide)

/-- Two calls with an empty entity into the same chain of a fresh file are
assigned the same `pos`. -/
theorem empty_entities_same_pos (F : Format) (hF : F.WF) (hfresh : freshLength F < 2 ^ 31)
    (c : Chain) (entry : List Byte) (hentry : entry.length = (F.entry c).size) :
    ∃ b0 buf r1 r2,
      OcdFile F = some b0 ∧
      run F b0 [⟨c, [], entry⟩, ⟨c, [], entry⟩] = some (buf, [r1, r2]) ∧
      r2.pos = r1.pos := by
  have hI0 := fresh_inv hF (show freshLength F < 2 ^ 32 by omega)
  have hl0 : (image F).length < 2 ^ 31 := by rw [length_image hF]; exact hfresh
  obtain ⟨buf1, e1, p1, pre1, hins1, hread1, hI1, hpre1, hp1, hlen1, _⟩ :=
    insert_inv hF hI0 hl0 c [] entry hentry
  have hb0 : (blocksOf c (freshRegs F)).length = 1 := by
    cases c <;> simp [blocksOf, freshRegs]
  have he0 : (entitiesOf c (freshRegs F)).length = 0 := by
    cases c <;> simp [entitiesOf, freshRegs]
  have hpre1' : pre1 = [] := by
    rcases hpre1 with ⟨h, _⟩ | ⟨_, h⟩
    · exact h
    · omega
  subst hpre1'
  simp only [List.map_nil, List.sum_nil, Nat.add_zero, List.length_nil] at hp1 hlen1
  have hl1 : buf1.length < 2 ^ 31 := by rw [hlen1, hp1]; exact hl0
  obtain ⟨buf2, e2, p2, pre2, hins2, hread2, hI2, hpre2, hp2, hlen2, _⟩ :=
    insert_inv hF hI1 hl1 c [] entry hentry
  have hpre2' : pre2 = [] := by
    rcases hpre2 with ⟨h, _⟩ | ⟨_, h⟩
    · exact h
    · rw [List.append_nil, entitiesOf_append, blocksOf_append, blocksOf_entity,
        entitiesOf_entity, if_pos rfl, List.append_nil, List.length_append,
        List.length_singleton] at h
      omega
  subst hpre2'
  simp only [List.map_nil, List.sum_nil, Nat.add_zero] at hp2
  refine ⟨image F, buf2, ⟨e1, p1⟩, ⟨e2, p2⟩, OcdFile_eq hF, ?_, ?_⟩
  · have c1 : insertCall F (image F) ⟨c, [], entry⟩ = some (buf1, ⟨e1, p1⟩) := by
      unfold insertCall
      simp only [hins1, hread1]
    have c2 : insertCall F buf1 ⟨c, [], entry⟩ = some (buf2, ⟨e2, p2⟩) := by
      unfold insertCall
      simp only [hins2, hread2]
    simp only [run_cons, c1, c2, run_nil]
  · show p2 = p1
    rw [hp2, hlen1]

/-- C4 as stated fails: two calls with an empty entity into the symbol chain of
a fresh version 9 file are assigned the same `pos`, so the second value is not
strictly greater than the first. -/
theorem insert_pos_not_strict :
    ∃ b0 buf r1 r2,
      OcdFile FormatV9 = some b0 ∧
      run FormatV9 b0 [⟨.symbols, [], zeros 4⟩, ⟨.symbols, [], zeros 4⟩] =
        some (buf, [r1, r2]) ∧
      r2.pos = r1.pos :=
  empty_entities_same_pos FormatV9 FormatV9_wf (by decide) .symbols (zeros 4) (by decide)

end OcdFile

namespace OcdFile

open OcdEntityIndex

end OcdFile

namespace OcdEntityIndex

/-! ### Offsets that do not resolve -/

theorem walk_of_walkPos {buf : QByteArray} {bs k head p : Nat}
    (h : walkPos buf bs k head = some p) (n : Nat) :
    walk buf bs (k + n) head = walk buf bs n p := by
  induction k generalizing head with
  | zero =>
    simp only [walkPos, Option.some.injEq] at h
    subst h
    rw [Nat.zero_add]
  | succ k ih =>
    rw [walkPos_succ] at h
    rw [Nat.add_right_comm, walk_succ]
    cases hres : (getBlockChecked buf head bs).block with
    | none => simp [hres] at h
    | some block =>
      simp only [hres] at h ⊢
      cases hnext : readU32 buf block with
      | none => simp [hnext] at h
      | some next =>
        simp only [hnext] at h ⊢
        by_cases hne : next ≠ 0
        · rw [if_pos hne] at h ⊢
          exact ih h
        · rw [if_neg hne] at h
          simp at h

/-- When the resolver returns `nullptr` for the head offset or for a
`next_block` offset met by the walk (the offset examined by some iteration `k`
of the loop), `insert` ends in `qFatal` and the buffer is as it was. -/
theorem insert_fatal_of_unresolved (F : Format) (c : Chain) (byte_array : QByteArray)
    (entity_data entry : List Byte) (head k p : Nat)
    (hhead : firstBlock F c byte_array = some head)
    (hreach : walkPos byte_array (blockSize (F.entry c)) k head = some p)
    (hfail : (getBlockChecked byte_array p (blockSize (F.entry c))).block = none) :
    insert F c byte_array entity_data entry = .fatal byte_array := by
  have h1 : walk byte_array (blockSize (F.entry c)) (k + 1) head = .fatal := by
    rw [walk_of_walkPos hreach 1, walk_succ, hfail]
  have h2 := walk_adequate h1 (by simp)
  unfold insert
  simp only [hhead, h2]

/-- C9 at a failing input: the header names the head offset `2^32 - 1027` for
the symbol chain.  The block at that offset does not fit into the 48-byte
buffer, yet the resolver returns a view (the sum wraps to 0), `insert` does not
end in `qFatal`, and the next step reads `next_block` outside the buffer. -/
theorem insert_wrapped_head :
    firstBlock FormatV9 .symbols wrappedHeadDoc = some 4294966269 ∧
    ¬ (4294966269 + blockSize (FormatV9.entry .symbols) ≤ wrappedHeadDoc.length) ∧
    (getBlockChecked wrappedHeadDoc 4294966269 (blockSize (FormatV9.entry .symbols))).block =
      some 4294966269 ∧
    insert FormatV9 .symbols wrappedHeadDoc [7] (zeros 4) = .undefined ∧
    insert FormatV9 .symbols wrappedHeadDoc [7] (zeros 4) ≠ .fatal wrappedHeadDoc := by
  decide

end OcdEntityIndex

namespace Ocd

/-! ### Writes in front of the first index block -/

/-- A store in front of the first index block that avoids the three header
fields of the chains keeps the invariant. -/
theorem Inv.put_low {F : Format} {buf : QByteArray} {regs : List Region}
    (hI : Inv F buf regs) (off : Nat) (bs : List Byte)
    (h1 : off + bs.length ≤ F.imageStart)
    (h2 : ∀ c, Disjoint2 off bs.length (F.firstBlockOff c) 4) :
    Inv F (put buf off bs) regs := by
  have hstart : F.imageStart ≤ buf.length := by rw [hI.contig]; omega
  have hin : off + bs.length ≤ buf.length := by omega
  have hlen := length_put buf off bs hin
  refine ⟨?_, hI.ordered, ?_, ?_, ?_⟩
  · rw [hlen]; exact hI.contig
  · intro r hr
    rw [hlen]
    exact hI.bounds r hr
  · intro r c data hr hseg
    have hb := hI.bounds r hr
    rw [mid_put_disjoint buf off bs _ _ hin (Or.inr (by omega))]
    exact hI.content r c data hr hseg
  · intro c
    have hC := hI.chain c
    refine ⟨hC.nonempty, ?_, ?_, ?_, hC.count_le, hC.count_ge⟩
    · rw [readU32_put_disjoint buf off bs _ hin (by
        have := h2 c
        unfold Disjoint2 at this
        omega)]
      exact hC.head
    · intro k hk
      obtain ⟨_, hlo, hhi⟩ := hI.block_bounds hk
      rw [readU32_put_disjoint buf off bs _ hin (Or.inr (by omega))]
      exact hC.link k hk
    · intro j hj
      have hk : j / 256 < (blocksOf c regs).length := by omega
      obtain ⟨_, hlo, hhi⟩ := hI.block_bounds hk
      rw [readU32_put_disjoint buf off bs _ hin (Or.inr (by
        unfold entryPosOff entryOff; omega))]
      exact hC.slot j hj

end Ocd

namespace OcdFile

open OcdEntityIndex

theorem run_append_some (F : Format) (buf : QByteArray) (l1 l2 : List InsertCall)
    {final : QByteArray} {recs : List Inserted}
    (h : run F buf (l1 ++ l2) = some (final, recs)) :
    ∃ between r1 r2, run F buf l1 = some (between, r1) ∧
      run F between l2 = some (final, r2) ∧ recs = r1 ++ r2 := by
  induction l1 generalizing buf recs with
  | nil => exact ⟨buf, [], recs, rfl, h, rfl⟩
  | cons c0 l1 ih =>
    rw [List.cons_append, run_cons] at h
    rw [run_cons]
    cases hc : insertCall F buf c0 with
    | none => simp [hc] at h
    | some pr =>
      obtain ⟨next, r0⟩ := pr
      simp only [hc] at h ⊢
      cases hr : run F next (l1 ++ l2) with
      | none => simp [hr] at h
      | some pr2 =>
        obtain ⟨f2, rs2⟩ := pr2
        simp only [hr, Option.some.injEq, Prod.mk.injEq] at h
        obtain ⟨rfl, rfl⟩ := h
        obtain ⟨between, r1, r2, h1, h2, h3⟩ := ih next hr
        refine ⟨between, r0 :: r1, r2, ?_, h2, ?_⟩
        · rw [h1]
        · rw [h3]; rfl

/-- The bytes of the header of a fresh file outside the three fields of the
chains are those of the header written first. -/
theorem getElem?_image_low {F : Format} (hF : F.WF) (j : Nat) (hj : j < F.headerSize)
    (hout : ∀ c, j < F.firstBlockOff c ∨ F.firstBlockOff c + 4 ≤ j) :
    (image F)[j]? = (headerImage F)[j]? := by
  have hp := length_preamble hF
  have hle := hF.headerSize_le
  have f1 := hF.first_lt .strings
  have f2 := hF.first_lt .symbols
  have f3 := hF.first_lt .objects
  have o1 := hout .strings
  have o2 := hout .symbols
  have o3 := hout .objects
  simp only [Format.firstBlockOff] at f1 f2 f3 o1 o2 o3
  have hb1 : F.firstStringBlockOff + 4 ≤ (preamble F).length := by rw [hp]; exact f1
  have l2 : (grown F.stringEntry (preamble F) F.firstStringBlockOff).length =
      F.imageStart + blockSize F.stringEntry := by rw [length_grown hb1, hp]
  have hb2 : F.firstSymbolBlockOff + 4 ≤
      (grown F.stringEntry (preamble F) F.firstStringBlockOff).length := by rw [l2]; omega
  have l3 : (grown F.symbolEntry (grown F.stringEntry (preamble F) F.firstStringBlockOff)
      F.firstSymbolBlockOff).length =
      F.imageStart + blockSize F.stringEntry + blockSize F.symbolEntry := by
    rw [length_grown hb2, l2]
  have hb3 : F.firstObjectBlockOff + 4 ≤
      (grown F.symbolEntry (grown F.stringEntry (preamble F) F.firstStringBlockOff)
        F.firstSymbolBlockOff).length := by rw [l3]; omega
  unfold image
  rw [getElem?_grown hb3 j (by rw [l3]; omega) o3, getElem?_grown hb2 j (by rw [l2]; omega) o2,
    getElem?_grown hb1 j (by rw [hp]; omega) o1]
  unfold preamble
  split
  · exact List.getElem?_append_left (by rw [length_headerImage hF]; exact hj)
  · rfl

/-- The header of a fresh file holds the version of the format. -/
theorem mid_image_version {F : Format} (hF : F.WF) :
    mid (image F) F.versionOff 2 = natToLe 2 F.version := by
  have hv := hF.version_in
  have hvs := hF.version_subversion
  unfold Disjoint2 at hvs
  have h1 : F.versionOff + (natToLe 2 F.version).length ≤ F.headerInit.length := by
    rw [length_natToLe]; exact hv
  have hl1 := length_put F.headerInit F.versionOff (natToLe 2 F.version) h1
  have hmid : mid (put F.headerInit F.versionOff (natToLe 2 F.version)) F.versionOff 2 =
      natToLe 2 F.version := by
    have := mid_put_same F.headerInit F.versionOff (natToLe 2 F.version) h1
    rw [length_natToLe] at this
    exact this
  have : mid (image F) F.versionOff 2 = mid (headerImage F) F.versionOff 2 := by
    apply mid_congr
    intro k hk
    apply getElem?_image_low hF _ (by omega)
    intro c
    have := hF.first_version c
    unfold Disjoint2 at this
    omega
  rw [this]
  unfold headerImage
  simp only []
  split
  · rw [mid_put_disjoint _ _ _ _ _ (by rw [length_natToLe, hl1]; exact hF.subversion_in)
      (by rw [length_natToLe]; omega)]
    exact hmid
  · exact hmid

/-- The member `subversion` of the header of a fresh file: 3 for version 11,
otherwise the value of the value-initialised header. -/
theorem mid_image_subversion {F : Format} (hF : F.WF) :
    mid (image F) F.subversionOff 1 =
      if F.version = 11 then natToLe 1 3 else mid F.headerInit F.subversionOff 1 := by
  have hv := hF.version_in
  have hs := hF.subversion_in
  have hvs := hF.version_subversion
  unfold Disjoint2 at hvs
  have h1 : F.versionOff + (natToLe 2 F.version).length ≤ F.headerInit.length := by
    rw [length_natToLe]; exact hv
  have hl1 := length_put F.headerInit F.versionOff (natToLe 2 F.version) h1
  have : mid (image F) F.subversionOff 1 = mid (headerImage F) F.subversionOff 1 := by
    apply mid_congr
    intro k hk
    apply getElem?_image_low hF _ (by omega)
    intro c
    have := hF.first_subversion c
    unfold Disjoint2 at this
    omega
  rw [this]
  unfold headerImage
  simp only []
  split
  · have := mid_put_same (put F.headerInit F.versionOff (natToLe 2 F.version)) F.subversionOff
      (natToLe 1 3) (by rw [length_natToLe, hl1]; exact hs)
    rw [length_natToLe] at this
    exact this
  · exact mid_put_disjoint _ _ _ _ _ h1 (by rw [length_natToLe]; omega)

end OcdFile

namespace OcdFileExport

open OcdEntityIndex OcdFile Mapper

/-! ### The header during an export -/

/-- A store in front of the first index block that avoids the fields `version`,
`subversion` and the three fields of the chains is inside the buffer and keeps
the header state. -/
theorem HeaderState.store {F : Format} {v sub : Nat} {buf : QByteArray}
    (hS : HeaderState F v sub buf) (off : Nat) (bs : List Byte)
    (h1 : off + bs.length ≤ F.imageStart)
    (h2 : ∀ c, Disjoint2 off bs.length (F.firstBlockOff c) 4)
    (h3 : Disjoint2 off bs.length F.versionOff 2)
    (h4 : Disjoint2 off bs.length F.subversionOff 1) :
    writeBytes buf off bs = some (put buf off bs) ∧ HeaderState F v sub (put buf off bs) := by
  have hstart : F.imageStart ≤ buf.length := by rw [hS.inv.contig]; omega
  have hin : off + bs.length ≤ buf.length := by omega
  unfold Disjoint2 at h3 h4
  refine ⟨writeBytes_eq_some hin, hS.inv.put_low off bs h1 h2, ?_, ?_⟩
  · rw [mid_put_disjoint buf off bs _ _ hin (by omega)]
    exact hS.version
  · rw [mid_put_disjoint buf off bs _ _ hin (by omega)]
    exact hS.subversion

/-- The calls of insert of an export return and leave the header fields
`version` and `subversion` as they are. -/
theorem HeaderState.run {F : Format} {v sub : Nat} {buf : QByteArray} (hF : F.WF)
    (hS : HeaderState F v sub buf) (calls : List InsertCall)
    (hentry : ∀ call, call ∈ calls → call.entry.length = (F.entry call.chain).size)
    (hsize : expectedLength F calls < 2 ^ 31) :
    ∃ final recs, run F buf calls = some (final, recs) ∧
      mid final F.versionOff 2 = natToLe 2 v ∧ mid final F.subversionOff 1 = natToLe 1 sub := by
  obtain ⟨final, recs, regs, hrun, _, hlow⟩ := run_from hF buf hS.inv calls hentry hsize
  have hle := hF.headerSize_le
  have hv := hF.version_in
  have hs := hF.subversion_in
  refine ⟨final, recs, hrun, ?_, ?_⟩
  · rw [← hS.version]
    exact mid_congr (fun k hk => hlow _ (by omega))
  · rw [← hS.subversion]
    exact mid_congr (fun k hk => hlow _ (by omega))

/-- The buffer after the constructor and the assignment of line 181. -/
theorem headerState_start {F : Format} (hF : F.WF) (hlen : freshLength F < 2 ^ 32)
    (hsub : mid F.headerInit F.subversionOff 1 = [0]) (actual_version : Nat) :
    HeaderState F actual_version (if F.version = 11 then 3 else 0)
      (put (image F) F.versionOff (natToLe 2 actual_version)) := by
  have hv := hF.version_in
  have hle := hF.headerSize_le
  have hvs := hF.version_subversion
  unfold Disjoint2 at hvs
  have hin : F.versionOff + (natToLe 2 actual_version).length ≤ (image F).length := by
    rw [length_natToLe, length_image hF]
    unfold freshLength
    omega
  refine ⟨(fresh_inv hF hlen).put_low _ _ (by rw [length_natToLe]; omega) ?_, ?_, ?_⟩
  · intro c
    have := hF.first_version c
    unfold Disjoint2 at this ⊢
    rw [length_natToLe]
    omega
  · have := mid_put_same (image F) F.versionOff (natToLe 2 actual_version) hin
    rw [length_natToLe] at this
    exact this
  · rw [mid_put_disjoint _ _ _ _ _ hin (by rw [length_natToLe]; omega),
      mid_image_subversion hF, hsub]
    split <;> rfl

theorem freshLength_lt {F : Format} {calls : List InsertCall}
    (hsize : expectedLength F calls < 2 ^ 31) : freshLength F < 2 ^ 32 := by
  have h0 := expectedLength_nil F
  have hm : expectedLength F [] ≤ expectedLength F calls := by
    clear hsize h0
    induction calls using List.reverseRecOn with
    | nil => exact le_refl _
    | append_singleton calls call ih =>
      have := expectedLength_snoc F calls call
      omega
  omega

theorem version_store_inside {F : Format} (hF : F.WF) (actual_version : Nat) :
    F.versionOff + (natToLe 2 actual_version).length ≤ (image F).length := by
  rw [length_natToLe, length_image hF]
  have := hF.version_in
  have := hF.headerSize_le
  unfold freshLength
  omega

theorem exportCalls_entry {fs : Formats} {enc : Encoders} {id : FormatId} (map : Map)
    (hW : ExportWF fs enc id) (call : InsertCall) (hc : call ∈ exportCalls fs enc id map) :
    call.entry.length = ((fs.format id).entry call.chain).size := by
  have hstr : ∀ t s, (stringCall enc t s).entry.length =
      ((fs.format id).entry (stringCall enc t s).chain).size := fun t s => hW.string_entry t s
  have hsym : ∀ d, (symbolCall enc d).entry.length =
      ((fs.format id).entry (symbolCall enc d).chain).size := fun d => hW.symbol_entry d
  have hsymbols : ∀ call, call ∈ symbolCalls enc map →
      call.entry.length = ((fs.format id).entry call.chain).size := by
    intro call hc
    unfold symbolCalls at hc
    rw [List.mem_filterMap] at hc
    obtain ⟨symbol, _, h⟩ := hc
    split at h
    · simp only [Option.some.injEq] at h
      rw [← h]
      exact hsym _
    · simp at h
  unfold exportCalls at hc
  cases id with
  | V8 => exact hsymbols call hc
  | V9 | V11 | V12 =>
    simp only [List.mem_append, georeferencingCalls, List.mem_singleton, colorCalls,
      List.mem_map] at hc
    rcases hc with (rfl | ⟨color, _, rfl⟩) | hc
    · exact hstr _ _
    · exact hstr _ _
    · exact hsymbols call hc

/-- The generic path of `exportImplementation` (every instantiation but
version 8): the export is written, and the header holds the version passed
as argument and the sub-version that the constructor wrote. -/
theorem exportImplementation_generic (fs : Formats) (enc : Encoders) (id : FormatId)
    (hid : id ≠ .V8) (actual_version : Nat) (codecAvailable : Bool) (map : Map)
    (hW : ExportWF fs enc id)
    (hsize : expectedLength (fs.format id) (exportCalls fs enc id map) < 2 ^ 31) :
    ∃ bytes,
      exportImplementation fs enc id actual_version codecAvailable map =
        .written bytes (startWarnings fs id codecAvailable ++ [.spotColorIgnored]) ∧
      mid bytes (fs.format id).versionOff 2 = natToLe 2 actual_version ∧
      mid bytes (fs.format id).subversionOff 1 =
        natToLe 1 (if (fs.format id).version = 11 then 3 else 0) := by
  cases id with
  | V8 => exact absurd rfl hid
  | V9 | V11 | V12 =>
    have hF := hW.format_wf
    have hentry := exportCalls_entry map hW
    have hfresh := freshLength_lt hsize
    have hS := headerState_start hF hfresh hW.subversion_init actual_version
    simp only [exportCalls] at hsize hentry
    obtain ⟨final, recs, hrun, hver, hsubv⟩ := hS.run hF _ hentry hsize
    obtain ⟨b23, r12, r3, hrun12, hrun3, _⟩ := run_append_some _ _ _ _ hrun
    obtain ⟨b12, r1, r2, hrun1, hrun2, _⟩ := run_append_some _ _ _ _ hrun12
    have hin := version_store_inside hF actual_version
    refine ⟨final, ?_, hver, hsubv⟩
    simp only [exportImplementation, OcdFile_eq hF, writeBytes_eq_some hin, exportGeoreferencing,
      exportColors, exportSymbols, runCalls, hrun1, hrun2, hrun3, ExportState.addWarning]

end OcdFileExport

namespace OcdFileExport

open OcdEntityIndex OcdFile Mapper

/-! ### The version 8 path -/

/-- A store into the setup record keeps the header state. -/
theorem HeaderState.store_setup {F : Format} {v sub : Nat} {buf : QByteArray} (hF : F.WF)
    (h8 : F.version = 8) (hS : HeaderState F v sub buf) (fieldOff : Nat) (bs : List Byte)
    (hin : fieldOff + bs.length ≤ F.setupInit.length) :
    writeBytes buf (F.headerSize + fieldOff) bs = some (put buf (F.headerSize + fieldOff) bs) ∧
      HeaderState F v sub (put buf (F.headerSize + fieldOff) bs) := by
  have hv := hF.version_in
  have hs := hF.subversion_in
  apply hS.store
  · unfold Format.imageStart
    rw [if_pos h8]
    omega
  · intro c
    have := hF.first_in c
    unfold Disjoint2
    omega
  · unfold Disjoint2; omega
  · unfold Disjoint2; omega

/-- A store into the symbol header keeps the header state. -/
theorem HeaderState.store_symbol_header {F : Format} {enc : Encoders} {L : LayoutV8}
    {v sub : Nat} {buf : QByteArray} (hF : F.WF) (hL : L.WF F enc)
    (hS : HeaderState F v sub buf) (off : Nat) (bs : List Byte)
    (hlo : L.symbolHeaderOff ≤ off) (hhi : off + bs.length ≤ F.headerSize) :
    writeBytes buf off bs = some (put buf off bs) ∧ HeaderState F v sub (put buf off bs) := by
  have hle := hF.headerSize_le
  have hv := hL.version_low
  have hs := hL.subversion_low
  apply hS.store
  · omega
  · intro c
    have := hL.first_low c
    unfold Disjoint2
    omega
  · unfold Disjoint2; omega
  · unfold Disjoint2; omega

/-- After the constructor and line 181 the field `setup_pos` of a version 8
header holds the size of the header. -/
theorem readU32_setup_pos {F : Format} {enc : Encoders} {L : LayoutV8} (hF : F.WF)
    (hL : L.WF F enc) (h8 : F.version = 8) (actual_version : Nat) :
    readU32 (put (image F) F.versionOff (natToLe 2 actual_version)) L.setupPosOff =
      some F.headerSize := by
  have hin := version_store_inside hF actual_version
  have hv := hF.version_in
  have hle := hF.headerSize_le
  have hd := hL.setup_pos_version
  have hnc := hL.num_colors_in
  have hsl := hL.setup_pos_low
  unfold Disjoint2 at hd
  have h1 : F.versionOff + (natToLe 2 F.version).length ≤ F.headerInit.length := by
    rw [length_natToLe]; exact hv
  have hfl : F.headerSize ≤ freshLength F := by unfold freshLength; omega
  rw [readU32_put_disjoint _ _ _ _ hin (by rw [length_natToLe]; omega),
    readU32_eq_some (by rw [length_image hF]; omega)]
  have e1 : mid (image F) L.setupPosOff 4 = mid (headerImage F) L.setupPosOff 4 := by
    apply mid_congr
    intro k hk
    apply getElem?_image_low hF _ (by omega)
    intro c
    have := hL.setup_pos_first c
    unfold Disjoint2 at this
    omega
  have e2 : mid (headerImage F) L.setupPosOff 4 = mid F.headerInit L.setupPosOff 4 := by
    unfold headerImage
    simp only []
    rw [if_neg (by omega)]
    exact mid_put_disjoint _ _ _ _ _ h1 (by rw [length_natToLe]; omega)
  have e3 := hL.setup_pos_init
  rw [readU32_eq_some (show L.setupPosOff + 4 ≤ F.headerInit.length by
    unfold Format.headerSize at hnc; omega)] at e3
  rw [e1, e2]
  exact e3

/-- The version 8 `exportGeoreferencing` keeps the header state. -/
theorem exportGeoreferencingV8_header {F : Format} {enc : Encoders} {L : LayoutV8}
    {v sub : Nat} (hF : F.WF) (hL : L.WF F enc) (h8 : F.version = 8) (map : Map)
    (s : ExportState) (hS : HeaderState F v sub s.byte_array)
    (hpos : readU32 s.byte_array L.setupPosOff = some F.headerSize) :
    ∃ final, exportGeoreferencingV8 L enc map s =
        some { byte_array := final, warnings := s.warnings } ∧
      HeaderState F v sub final := by
  have hd := hL.double_size
  obtain ⟨w1, hS1⟩ := hS.store_setup hF h8 L.mapScaleOff
    (enc.doubleBytes map.georeferencing.scaleDenominator)
    (by rw [hd]; exact hL.map_scale_in)
  obtain ⟨w2, hS2⟩ := hS1.store_setup hF h8 L.realOffsetXOff
    (enc.doubleBytes map.georeferencing.projectedRefPointX)
    (by rw [hd]; exact hL.real_offset_x_in)
  obtain ⟨w3, hS3⟩ := hS2.store_setup hF h8 L.realOffsetYOff
    (enc.doubleBytes map.georeferencing.projectedRefPointY)
    (by rw [hd]; exact hL.real_offset_y_in)
  obtain ⟨w4, hS4⟩ := hS3.store_setup hF h8 L.realAngleOff
    (enc.doubleBytes map.georeferencing.grivation)
    (by rw [hd]; exact hL.real_angle_in)
  unfold exportGeoreferencingV8
  simp only [hpos, w1, w2, w3]
  by_cases hz : qIsNull map.georeferencing.grivation = true
  · rw [if_pos hz]
    exact ⟨_, rfl, hS3⟩
  · rw [if_neg hz]
    simp only [w4]
    exact ⟨_, rfl, hS4⟩

/-- One round of the color loop keeps the header state. -/
theorem exportColorV8_header {F : Format} {enc : Encoders} {L : LayoutV8} {v sub : Nat}
    (hF : F.WF) (hL : L.WF F enc) (buf : QByteArray) (hS : HeaderState F v sub buf)
    (i : Nat) (hi : i < 256) (color : MapColor) :
    ∃ final, exportColorV8 L enc buf i color = some final ∧ HeaderState F v sub final := by
  have hci := hL.color_info_in
  have hrec : i * L.colorInfoSize + L.colorInfoSize ≤ 256 * L.colorInfoSize := by
    have := Nat.mul_le_mul_right L.colorInfoSize (show i + 1 ≤ 256 by omega)
    rw [Nat.add_mul, Nat.one_mul] at this
    exact this
  have hn := hL.number_in
  have hna := hL.name_in
  have hc := hL.cmyk_in
  have hse := hL.separations_in
  obtain ⟨w1, hS1⟩ := hS.store_symbol_header hF hL
    (L.symbolHeaderOff + L.colorInfoOff + i * L.colorInfoSize + L.numberOff) (natToLe 2 i)
    (by omega) (by rw [length_natToLe]; omega)
  obtain ⟨w2, hS2⟩ := hS1.store_symbol_header hF hL
    (L.symbolHeaderOff + L.colorInfoOff + i * L.colorInfoSize + L.nameOff)
    (enc.colorName color.name) (by omega) (by rw [hL.name_size]; omega)
  obtain ⟨w3, hS3⟩ := hS2.store_symbol_header hF hL
    (L.symbolHeaderOff + L.colorInfoOff + i * L.colorInfoSize + L.cmykOff)
    [u8 (qRound (200 * color.cmyk.c)), u8 (qRound (200 * color.cmyk.m)),
     u8 (qRound (200 * color.cmyk.y)), u8 (qRound (200 * color.cmyk.k))]
    (by omega) (by simp only [List.length_cons, List.length_nil]; omega)
  obtain ⟨w4, hS4⟩ := hS3.store_symbol_header hF hL
    (L.symbolHeaderOff + L.colorInfoOff + i * L.colorInfoSize + L.separationsOff)
    (zeros L.separationsSize) (by omega) (by rw [length_zeros]; omega)
  unfold exportColorV8
  simp only [w1, w2, w3, w4]
  exact ⟨_, rfl, hS4⟩

/-- The color loop keeps the header state. -/
theorem exportColorsV8Loop_header {F : Format} {enc : Encoders} {L : LayoutV8} {v sub : Nat}
    (hF : F.WF) (hL : L.WF F enc) (colors : List MapColor) (buf : QByteArray) (i : Nat)
    (hS : HeaderState F v sub buf) (hi : i + colors.length ≤ 256) :
    ∃ final, exportColorsV8Loop L enc buf i colors = some final ∧
      HeaderState F v sub final := by
  induction colors generalizing buf i with
  | nil => exact ⟨buf, rfl, hS⟩
  | cons color rest ih =>
    simp only [List.length_cons] at hi
    obtain ⟨next, h1, hS1⟩ := exportColorV8_header hF hL buf hS i (by omega) color
    obtain ⟨final, h2, hS2⟩ := ih next (i + 1) hS1 (by omega)
    refine ⟨final, ?_, hS2⟩
    simp only [exportColorsV8Loop, h1, h2]

/-- The warnings that the version 8 `exportColors` adds. -/
theorem exportColorsV8_header {F : Format} {enc : Encoders} {L : LayoutV8} {v sub : Nat}
    (hF : F.WF) (hL : L.WF F enc) (map : Map) (s : ExportState)
    (hS : HeaderState F v sub s.byte_array) :
    ∃ final, exportColorsV8 L enc map s =
        some { byte_array := final,
               warnings := s.warnings ++
                 (if map.colors.length > 256 then [Warning.tooManyColors] else []) ++
                 [Warning.spotColorIgnored] } ∧
      HeaderState F v sub final := by
  have hnc := hL.num_colors_in
  have hs1 : (if map.colors.length > 256 then s.addWarning .tooManyColors else s).byte_array =
      s.byte_array := by split <;> rfl
  obtain ⟨w1, hS1⟩ := hS.store_symbol_header hF hL (L.symbolHeaderOff + L.numColorsOff)
    (natToLe 2 (if map.colors.length > 256 then 256 else map.colors.length))
    (by omega) (by rw [length_natToLe]; omega)
  obtain ⟨final, h2, hS2⟩ := exportColorsV8Loop_header hF hL
    (map.colors.take (if map.colors.length > 256 then 256 else map.colors.length)) _ 0 hS1
    (by rw [List.length_take]; split <;> omega)
  refine ⟨final, ?_, hS2⟩
  unfold exportColorsV8
  simp only [hs1, w1, h2]
  by_cases hc : map.colors.length > 256
  · simp [hc, ExportState.addWarning]
  · simp [hc, ExportState.addWarning]

/-- The version 8 path of `exportImplementation`: the export is written, and
the header holds the version passed as argument and the sub-version 0. -/
theorem exportImplementation_v8 (fs : Formats) (enc : Encoders) (actual_version : Nat)
    (codecAvailable : Bool) (map : Map) (hW : ExportWF fs enc .V8)
    (hsize : expectedLength (fs.format .V8) (exportCalls fs enc .V8 map) < 2 ^ 31) :
    ∃ bytes,
      exportImplementation fs enc .V8 actual_version codecAvailable map =
        .written bytes (startWarnings fs .V8 codecAvailable ++
          (if map.colors.length > 256 then [Warning.tooManyColors] else []) ++
          [Warning.spotColorIgnored]) ∧
      mid bytes (fs.format .V8).versionOff 2 = natToLe 2 actual_version ∧
      mid bytes (fs.format .V8).subversionOff 1 = natToLe 1 0 := by
  have hF := hW.format_wf
  have hL := hW.layout rfl
  have h8 : (fs.format .V8).version = 8 := hW.version_eq
  have hentry := exportCalls_entry map hW
  have hfresh := freshLength_lt hsize
  have hS := headerState_start hF hfresh hW.subversion_init actual_version
  rw [if_neg (by omega)] at hS
  have hin := version_store_inside hF actual_version
  obtain ⟨b2, hg, hS2⟩ := exportGeoreferencingV8_header hF hL h8 map
    { byte_array := put (image (fs.format .V8)) (fs.format .V8).versionOff
        (natToLe 2 actual_version),
      warnings := startWarnings fs .V8 codecAvailable } hS
    (readU32_setup_pos hF hL h8 actual_version)
  obtain ⟨b3, hc, hS3⟩ := exportColorsV8_header hF hL map
    { byte_array := b2, warnings := startWarnings fs .V8 codecAvailable } hS2
  simp only [exportCalls] at hsize hentry
  obtain ⟨final, recs, hrun, hver, hsubv⟩ := hS3.run hF _ hentry hsize
  refine ⟨final, ?_, hver, hsubv⟩
  simp only [exportImplementation, OcdFile_eq hF, writeBytes_eq_some hin, hg, hc, exportSymbols,
    runCalls, hrun]

end OcdFileExport

namespace OcdFileExport

open OcdEntityIndex OcdFile Mapper

/-- C10: for every supported version `v` in 8, 9, 10, 11, 12 the export of that
version is written (the buffer staying below `2^31` bytes), its header has
the version field `v`, and its sub-version field is 3 for `v = 11` and 0 for
every other version. -/
theorem export_header_version (fs : Formats) (enc : Encoders) (v : Nat)
    (hv : v = 8 ∨ v = 9 ∨ v = 10 ∨ v = 11 ∨ v = 12) (codecAvailable : Bool) (map : Map)
    (hW : ExportWF fs enc (formatIdOf v))
    (hsize : expectedLength (fs.format (formatIdOf v))
      (exportCalls fs enc (formatIdOf v) map) < 2 ^ 31) :
    ∃ bytes warnings,
      doExport fs enc v none codecAvailable map = .written bytes warnings ∧
      leToNat (mid bytes (fs.format (formatIdOf v)).versionOff 2) = v ∧
      leToNat (mid bytes (fs.format (formatIdOf v)).subversionOff 1) =
        (if v = 11 then 3 else 0) := by
  rcases hv with rfl | rfl | rfl | rfl | rfl
  · obtain ⟨bytes, h1, h2, h3⟩ := exportImplementation_v8 fs enc 8 codecAvailable map hW hsize
    refine ⟨bytes, _, h1, ?_, ?_⟩
    · show leToNat (mid bytes (fs.format .V8).versionOff 2) = 8
      rw [h2]; rfl
    · show leToNat (mid bytes (fs.format .V8).subversionOff 1) = 0
      rw [h3]; rfl
  · have hver : (fs.format .V9).version = 9 := hW.version_eq
    obtain ⟨bytes, h1, h2, h3⟩ := exportImplementation_generic fs enc .V9 (by decide) 9
      codecAvailable map hW hsize
    refine ⟨bytes, _, h1, ?_, ?_⟩
    · show leToNat (mid bytes (fs.format .V9).versionOff 2) = 9
      rw [h2]; rfl
    · show leToNat (mid bytes (fs.format .V9).subversionOff 1) = 0
      rw [h3, hver]; rfl
  · have hver : (fs.format .V9).version = 9 := hW.version_eq
    obtain ⟨bytes, h1, h2, h3⟩ := exportImplementation_generic fs enc .V9 (by decide) 10
      codecAvailable map hW hsize
    refine ⟨bytes, _, h1, ?_, ?_⟩
    · show leToNat (mid bytes (fs.format .V9).versionOff 2) = 10
      rw [h2]; rfl
    · show leToNat (mid bytes (fs.format .V9).subversionOff 1) = 0
      rw [h3, hver]; rfl
  · have hver : (fs.format .V11).version = 11 := hW.version_eq
    obtain ⟨bytes, h1, h2, h3⟩ := exportImplementation_generic fs enc .V11 (by decide) 11
      codecAvailable map hW hsize
    refine ⟨bytes, _, h1, ?_, ?_⟩
    · show leToNat (mid bytes (fs.format .V11).versionOff 2) = 11
      rw [h2]; rfl
    · show leToNat (mid bytes (fs.format .V11).subversionOff 1) = 3
      rw [h3, hver]; rfl
  · have hver : (fs.format .V12).version = 12 := hW.version_eq
    obtain ⟨bytes, h1, h2, h3⟩ := exportImplementation_generic fs enc .V12 (by decide) 12
      codecAvailable map hW hsize
    refine ⟨bytes, _, h1, ?_, ?_⟩
    · show leToNat (mid bytes (fs.format .V12).versionOff 2) = 12
      rw [h2]; rfl
    · show leToNat (mid bytes (fs.format .V12).subversionOff 1) = 0
      rw [h3, hver]; rfl

theorem sampleFormats_wf : (sampleFormats.format .V11).WF where
  version_lt := by decide
  version_in := by decide
  subversion_in := by decide
  first_in := by intro c; cases c <;> decide
  first_disj := by intro c d h; cases c <;> cases d <;> first | exact absurd rfl h | decide
  first_version := by intro c; cases c <;> decide
  first_subversion := by intro c; cases c <;> decide
  version_subversion := by decide
  pos_in := by intro c; cases c <;> decide
  block_lt := by intro c; cases c <;> decide

theorem sample_exportWF : ExportWF sampleFormats sampleEncoders .V11 where
  format_wf := sampleFormats_wf
  version_eq := rfl
  subversion_init := by decide
  string_entry := by intro t s; rfl
  symbol_entry := by intro d; rfl
  layout := by intro h; exact absurd h (by decide)

/-- Witness for C10: the export of version 11 of a map with one color, one
point symbol and one line symbol. -/
theorem export_header_version_witness :
    ∃ bytes warnings,
      doExport sampleFormats sampleEncoders (11 : Nat) none true sampleMap =
        .written bytes warnings ∧
      leToNat (mid bytes (sampleFormats.format (formatIdOf 11)).versionOff 2) = 11 ∧
      leToNat (mid bytes (sampleFormats.format (formatIdOf 11)).subversionOff 1) =
        (if 11 = 11 then 3 else 0) :=
  export_header_version sampleFormats sampleEncoders 11 (by decide) true sampleMap
    sample_exportWF (by decide)

end OcdFileExport

namespace OcdFileExport

open OcdEntityIndex OcdFile Mapper

theorem headerSize_FormatV8 : FormatV8.headerSize = 19272 := by
  show (zeros 16 ++ natToLe 4 19272 ++ zeros 19252).length = 19272
  rw [List.length_append, List.length_append, length_zeros, length_zeros, length_natToLe]

theorem setupSize_FormatV8 : FormatV8.setupInit.length = 1348 := length_zeros 1348

theorem FormatV8_wf : FormatV8.WF where
  version_lt := by decide
  version_in := by rw [headerSize_FormatV8]; decide
  subversion_in := by rw [headerSize_FormatV8]; decide
  first_in := by intro c; rw [headerSize_FormatV8]; cases c <;> decide
  first_disj := by intro c d h; cases c <;> cases d <;> first | exact absurd rfl h | decide
  first_version := by intro c; cases c <;> decide
  first_subversion := by intro c; cases c <;> decide
  version_subversion := by decide
  pos_in := by intro c; cases c <;> decide
  block_lt := by intro c; cases c <;> decide

/-- The hypotheses of the version 8 path hold for the sample descriptors. -/
theorem sample_exportWF_v8 : ExportWF sampleFormats sampleEncoders .V8 where
  format_wf := FormatV8_wf
  version_eq := rfl
  subversion_init := by decide
  string_entry := by intro t s; rfl
  symbol_entry := by intro d; rfl
  layout := by
    intro _
    show LayoutV8.WF FormatV8 sampleEncoders sampleFormats.layoutV8
    have hlen : FormatV8.headerInit.length = 19272 := headerSize_FormatV8
    refine
      { setup_pos_init := ?_, setup_pos_low := by decide, setup_pos_version := by decide,
        setup_pos_first := by intro c; cases c <;> decide, version_low := by decide,
        subversion_low := by decide, first_low := by intro c; cases c <;> decide,
        map_scale_in := by rw [setupSize_FormatV8]; decide,
        real_offset_x_in := by rw [setupSize_FormatV8]; decide,
        real_offset_y_in := by rw [setupSize_FormatV8]; decide,
        real_angle_in := by rw [setupSize_FormatV8]; decide,
        double_size := by intro x; rfl,
        num_colors_in := by rw [headerSize_FormatV8]; decide,
        color_info_in := by rw [headerSize_FormatV8]; decide,
        number_in := by decide, name_in := by decide, name_size := by intro s; rfl,
        cmyk_in := by decide, separations_in := by decide }
    show readU32 FormatV8.headerInit 16 = some FormatV8.headerSize
    rw [readU32_eq_some (by rw [hlen]; decide), headerSize_FormatV8]
    have : mid FormatV8.headerInit 16 4 = natToLe 4 19272 := by decide
    rw [this]
    rfl

end OcdFileExport

namespace OcdFile

open OcdEntityIndex

/-- C11: for every format whose header fields lie inside the header without
overlapping, the constructor returns a buffer that is: the header written by
lines 121-125 (outside the three fields of the chains), for version 8 the
value-initialised setup record, and then zero bytes up to the end, which are the
three index blocks in the order strings, symbols, objects.  The three header
fields hold the offsets `header size (+ setup size for version 8)`, that plus
the string block size, and that plus the symbol block size; the length is the
last offset plus the object block size; each head resolves inside the buffer
to a block with `next_block = 0` and 256 free entries. -/
theorem fresh_file_layout (F : Format) (hF : F.WF) (hlen : freshLength F < 2 ^ 31) :
    ∃ buf, OcdFile F = some buf ∧
      (∀ j, j < F.headerSize → (∀ c, j < F.firstBlockOff c ∨ F.firstBlockOff c + 4 ≤ j) →
        buf[j]? = (headerImage F)[j]?) ∧
      (F.version = 8 → mid buf F.headerSize F.setupInit.length = F.setupInit) ∧
      (∀ j, F.headerSize + (if F.version = 8 then F.setupInit.length else 0) ≤ j →
        j < buf.length → buf[j]? = some 0) ∧
      firstBlock F .strings buf =
        some (F.headerSize + (if F.version = 8 then F.setupInit.length else 0)) ∧
      firstBlock F .symbols buf =
        some (F.headerSize + (if F.version = 8 then F.setupInit.length else 0) +
          blockSize F.stringEntry) ∧
      firstBlock F .objects buf =
        some (F.headerSize + (if F.version = 8 then F.setupInit.length else 0) +
          blockSize F.stringEntry + blockSize F.symbolEntry) ∧
      buf.length =
        F.headerSize + (if F.version = 8 then F.setupInit.length else 0) +
          blockSize F.stringEntry + blockSize F.symbolEntry + blockSize F.objectEntry ∧
      ∀ c, ∃ head, firstBlock F c buf = some head ∧
        getBlockChecked buf head (blockSize (F.entry c)) = { block := some head, warned := false } ∧
        head + blockSize (F.entry c) ≤ buf.length ∧
        readU32 buf head = some 0 ∧
        ∀ i, i < 256 → readU32 buf (entryPosOff (F.entry c) head i) = some 0 := by
  have hlen32 : freshLength F < 2 ^ 32 := by omega
  have hL := length_image hF
  have h4 := Format.WF.imageStart_pos hF
  refine ⟨image F, OcdFile_eq hF, fun j hj hout => getElem?_image_low hF j hj hout, ?_,
    ?_, readU32_image_first hF hlen32 .strings, readU32_image_first hF hlen32 .symbols,
    readU32_image_first hF hlen32 .objects, hL, ?_⟩
  · intro h8
    have hp := length_preamble hF
    have hhl := length_headerImage hF
    have f1 := hF.first_lt .strings
    have f2 := hF.first_lt .symbols
    have f3 := hF.first_lt .objects
    have g1 := hF.first_in .strings
    have g2 := hF.first_in .symbols
    have g3 := hF.first_in .objects
    simp only [Format.firstBlockOff] at f1 f2 f3 g1 g2 g3
    have hb1 : F.firstStringBlockOff + 4 ≤ (preamble F).length := by rw [hp]; exact f1
    have l2 : (grown F.stringEntry (preamble F) F.firstStringBlockOff).length =
        F.imageStart + blockSize F.stringEntry := by rw [length_grown hb1, hp]
    have hb2 : F.firstSymbolBlockOff + 4 ≤
        (grown F.stringEntry (preamble F) F.firstStringBlockOff).length := by rw [l2]; omega
    have l3 : (grown F.symbolEntry (grown F.stringEntry (preamble F) F.firstStringBlockOff)
        F.firstSymbolBlockOff).length =
        F.imageStart + blockSize F.stringEntry + blockSize F.symbolEntry := by
      rw [length_grown hb2, l2]
    have hb3 : F.firstObjectBlockOff + 4 ≤
        (grown F.symbolEntry (grown F.stringEntry (preamble F) F.firstStringBlockOff)
          F.firstSymbolBlockOff).length := by rw [l3]; omega
    have hst : F.imageStart = F.headerSize + F.setupInit.length := by
      unfold Format.imageStart; rw [if_pos h8]
    unfold image
    rw [mid_grown_old hb3 _ _ (by rw [l3]; omega) (Or.inr (by omega)),
      mid_grown_old hb2 _ _ (by rw [l2]; omega) (Or.inr (by omega)),
      mid_grown_old hb1 _ _ (by rw [hp]; omega) (Or.inr (by omega))]
    unfold preamble
    rw [if_pos h8, ← hhl]
    exact mid_append_right _ _
  · intro j h1 h2
    exact getElem?_image_zero hF j h1 (by rw [← hL]; exact h2)
  · intro c
    have hb := firstBlockPos_bounds F c
    have hbs := blockSize_pos (F.entry c)
    refine ⟨firstBlockPos F c, readU32_image_first hF hlen32 c, ?_, by rw [hL]; exact hb.2,
      readU32_image_zero hF _ hb.1 (by omega), ?_⟩
    · exact getBlockChecked_inside (by rw [hL]; exact hlen) (by omega) (by omega)
        (by rw [hL]; exact hb.2)
    · intro i hi
      have hin := entry_in_block (F.entry c) (firstBlockPos F c) i hi
      have hpos := hF.pos_in c
      apply readU32_image_zero hF
      · unfold entryPosOff entryOff; omega
      · unfold entryPosOff; omega

theorem freshLength_FormatV8 : freshLength FormatV8 = 31896 := by
  unfold freshLength Format.imageStart
  rw [OcdFileExport.headerSize_FormatV8, if_pos (show FormatV8.version = 8 from rfl),
    OcdFileExport.setupSize_FormatV8]
  rfl

/-- Witness for C11: the fresh file of the version 8 descriptor. -/
theorem fresh_file_layout_witness :
    ∃ buf, OcdFile FormatV8 = some buf ∧
      (∀ j, j < FormatV8.headerSize →
        (∀ c, j < FormatV8.firstBlockOff c ∨ FormatV8.firstBlockOff c + 4 ≤ j) →
        buf[j]? = (headerImage FormatV8)[j]?) ∧
      (FormatV8.version = 8 →
        mid buf FormatV8.headerSize FormatV8.setupInit.length = FormatV8.setupInit) ∧
      (∀ j,
        FormatV8.headerSize + (if FormatV8.version = 8 then FormatV8.setupInit.length else 0) ≤ j →
        j < buf.length → buf[j]? = some 0) ∧
      firstBlock FormatV8 .strings buf =
        some (FormatV8.headerSize +
          (if FormatV8.version = 8 then FormatV8.setupInit.length else 0)) ∧
      firstBlock FormatV8 .symbols buf =
        some (FormatV8.headerSize +
          (if FormatV8.version = 8 then FormatV8.setupInit.length else 0) +
          blockSize FormatV8.stringEntry) ∧
      firstBlock FormatV8 .objects buf =
        some (FormatV8.headerSize +
          (if FormatV8.version = 8 then FormatV8.setupInit.length else 0) +
          blockSize FormatV8.stringEntry + blockSize FormatV8.symbolEntry) ∧
      buf.length =
        FormatV8.headerSize + (if FormatV8.version = 8 then FormatV8.setupInit.length else 0) +
          blockSize FormatV8.stringEntry + blockSize FormatV8.symbolEntry +
          blockSize FormatV8.objectEntry ∧
      ∀ c, ∃ head, firstBlock FormatV8 c buf = some head ∧
        getBlockChecked buf head (blockSize (FormatV8.entry c)) =
          { block := some head, warned := false } ∧
        head + blockSize (FormatV8.entry c) ≤ buf.length ∧
        readU32 buf head = some 0 ∧
        ∀ i, i < 256 → readU32 buf (entryPosOff (FormatV8.entry c) head i) = some 0 :=
  fresh_file_layout FormatV8 OcdFileExport.FormatV8_wf
    (by rw [freshLength_FormatV8]; decide)

end OcdFile

namespace OcdFile

open OcdEntityIndex

/-- C12: in every document built from a fresh file by calls of insert into any
mix of the three chains (the buffer staying below `2^31` bytes), each of the
header fields `first_string_block`, `first_symbol_block`, `first_object_block`
holds the value that the constructor wrote, that value is not 0, and the three
values are pairwise distinct. -/
theorem first_blocks_fixed (F : Format) (hF : F.WF) (calls : List InsertCall)
    (hentry : ∀ call, call ∈ calls → call.entry.length = (F.entry call.chain).size)
    (hsize : expectedLength F calls < 2 ^ 31) :
    ∃ b0 buf recs,
      OcdFile F = some b0 ∧ run F b0 calls = some (buf, recs) ∧
      ∀ c, ∃ p, firstBlock F c b0 = some p ∧ firstBlock F c buf = some p ∧ p ≠ 0 ∧
        ∀ d, d ≠ c → firstBlock F d buf ≠ some p := by
  have hfresh := OcdFileExport.freshLength_lt hsize
  obtain ⟨buf, recs, regs, hrun, hR, hlow⟩ :=
    run_from hF (image F) (fresh_inv hF hfresh) calls hentry hsize
  have h4 := Format.WF.imageStart_pos hF
  have hkeep : ∀ c, firstBlock F c buf = some (firstBlockPos F c) := by
    intro c
    have hb := (readU32_bound (hR.inv.chain c).head).1
    have hf := hF.first_lt c
    unfold firstBlock
    rw [← readU32_image_first hF hfresh c, readU32_eq_some hb,
      readU32_eq_some (by rw [length_image hF]; unfold freshLength; omega)]
    congr 2
    exact mid_congr (fun k hk => hlow _ (by omega))
  refine ⟨image F, buf, recs, OcdFile_eq hF, hrun, ?_⟩
  intro c
  have hbc := firstBlockPos_bounds F c
  refine ⟨firstBlockPos F c, readU32_image_first hF hfresh c, hkeep c, by omega, ?_⟩
  intro d hd
  rw [hkeep d]
  have b1 := blockSize_pos F.stringEntry
  have b2 := blockSize_pos F.symbolEntry
  intro h
  simp only [Option.some.injEq] at h
  cases c <;> cases d <;> simp only [firstBlockPos] at h <;>
    first
    | exact hd rfl
    | omega

/-- Witness for C12: two calls on a fresh version 9 file. -/
theorem first_blocks_fixed_witness :
    ∃ b0 buf recs,
      OcdFile FormatV9 = some b0 ∧
      run FormatV9 b0 [⟨.symbols, [1, 2, 3], zeros 4⟩, ⟨.strings, [4], zeros 16⟩] =
        some (buf, recs) ∧
      ∀ c, ∃ p, firstBlock FormatV9 c b0 = some p ∧ firstBlock FormatV9 c buf = some p ∧ p ≠ 0 ∧
        ∀ d, d ≠ c → firstBlock FormatV9 d buf ≠ some p :=
  first_blocks_fixed FormatV9 FormatV9_wf
    [⟨.symbols, [1, 2, 3], zeros 4⟩, ⟨.strings, [4], zeros 16⟩]
    (by simp [FormatV9, Format.entry, zeros]) (by decide)

end OcdFile

namespace OcdFileExport

/-! ### The version chosen by doExport -/

theorem resolveVersion_eq_resolveWith (d : Int) (name : String) :
    resolveVersion d (some name) = resolveWith versionSuffixes d name := rfl

theorem resolveWith_of_mem (tests : List (String × Int)) (d : Int) (name : String)
    (huniq : ∀ t1 t2, t1 ∈ tests → t2 ∈ tests → t1.1.toList <:+ name.toList →
      t2.1.toList <:+ name.toList → t1.2 = t2.2)
    (test : String × Int) (hmem : test ∈ tests) (hend : test.1.toList <:+ name.toList) :
    resolveWith tests d name = test.2 := by
  induction tests with
  | nil => exact absurd hmem (List.not_mem_nil _)
  | cons t rest ih =>
    unfold resolveWith
    by_cases ht : t.1.toList.isSuffixOf name.toList = true
    · rw [if_pos ht]
      exact huniq t test (List.mem_cons_self _ _) hmem (List.isSuffixOf_iff_suffix.mp ht) hend
    · rw [if_neg ht]
      rcases List.mem_cons.mp hmem with h | h
      · exact absurd (List.isSuffixOf_iff_suffix.mpr (h ▸ hend)) ht
      · exact ih (fun t1 t2 h1 h2 => huniq t1 t2 (List.mem_cons_of_mem _ h1)
          (List.mem_cons_of_mem _ h2)) h

theorem resolveWith_of_none (tests : List (String × Int)) (d : Int) (name : String)
    (hnone : ∀ t, t ∈ tests → ¬ t.1.toList <:+ name.toList) :
    resolveWith tests d name = d := by
  induction tests with
  | nil => rfl
  | cons t rest ih =>
    unfold resolveWith
    rw [if_neg (fun h => hnone t (List.mem_cons_self _ _) (List.isSuffixOf_iff_suffix.mp h))]
    exact ih (fun t ht => hnone t (List.mem_cons_of_mem _ ht))

/-- Two of the five suffixes that end the same name are the same suffix. -/
theorem versionSuffixes_unique (l : List Char) (t1 t2 : String × Int)
    (h1 : t1 ∈ versionSuffixes) (h2 : t2 ∈ versionSuffixes)
    (s1 : t1.1.toList <:+ l) (s2 : t2.1.toList <:+ l) : t1 = t2 := by
  have hs := List.suffix_or_suffix_of_suffix s1 s2
  simp only [versionSuffixes, List.mem_cons, List.mem_singleton, List.not_mem_nil,
    or_false] at h1 h2
  rcases h1 with rfl | rfl | rfl | rfl | rfl <;> rcases h2 with rfl | rfl | rfl | rfl | rfl <;>
    first
    | rfl
    | exact absurd hs (by decide)

/-- C14: for every default version `d` and destination name `n`: a sink that is
not a file resolves to `d`; a file name that ends with `test-vK.ocd` for `K` one
of 8, 9, 10, 11, 12 resolves to `K` whatever `d` is; a file name that ends with
none of the five suffixes resolves to `d`.  At most one of the five suffixes
ends a given name, and the result is the same for every order of the five
tests. -/
theorem resolveVersion_suffix (d : Int) (n : String) :
    resolveVersion d none = d ∧
    (∀ test, test ∈ versionSuffixes → test.1.toList <:+ n.toList →
      resolveVersion d (some n) = test.2) ∧
    ((∀ test, test ∈ versionSuffixes → ¬ test.1.toList <:+ n.toList) →
      resolveVersion d (some n) = d) ∧
    (∀ t1 t2, t1 ∈ versionSuffixes → t2 ∈ versionSuffixes → t1.1.toList <:+ n.toList →
      t2.1.toList <:+ n.toList → t1 = t2) ∧
    (∀ tests, tests.Perm versionSuffixes →
      resolveWith tests d n = resolveVersion d (some n)) := by
  have huniq : ∀ t1 t2, t1 ∈ versionSuffixes → t2 ∈ versionSuffixes →
      t1.1.toList <:+ n.toList → t2.1.toList <:+ n.toList → t1 = t2 :=
    fun t1 t2 h1 h2 s1 s2 => versionSuffixes_unique n.toList t1 t2 h1 h2 s1 s2
  refine ⟨rfl, ?_, ?_, huniq, ?_⟩
  · intro test hmem hend
    rw [resolveVersion_eq_resolveWith]
    exact resolveWith_of_mem _ d n (fun t1 t2 h1 h2 s1 s2 => by rw [huniq t1 t2 h1 h2 s1 s2])
      test hmem hend
  · intro hnone
    rw [resolveVersion_eq_resolveWith]
    exact resolveWith_of_none _ d n hnone
  · intro tests hperm
    rw [resolveVersion_eq_resolveWith]
    by_cases hex : ∃ t, t ∈ versionSuffixes ∧ t.1.toList <:+ n.toList
    · obtain ⟨t, hmem, hend⟩ := hex
      rw [resolveWith_of_mem tests d n (fun t1 t2 h1 h2 s1 s2 => by
          rw [huniq t1 t2 (hperm.mem_iff.mp h1) (hperm.mem_iff.mp h2) s1 s2])
          t (hperm.mem_iff.mpr hmem) hend,
        resolveWith_of_mem versionSuffixes d n (fun t1 t2 h1 h2 s1 s2 => by
          rw [huniq t1 t2 h1 h2 s1 s2]) t hmem hend]
    · have hnone : ∀ t, t ∈ versionSuffixes → ¬ t.1.toList <:+ n.toList :=
        fun t ht hs => hex ⟨t, ht, hs⟩
      rw [resolveWith_of_none tests d n (fun t ht => hnone t (hperm.mem_iff.mp ht)),
        resolveWith_of_none versionSuffixes d n hnone]

/-- Witness for C14: an unsupported default version 7 and a file name that
ends with the suffix of version 10. -/
theorem resolveVersion_suffix_witness :
    resolveVersion 7 none = 7 ∧
    (∀ test, test ∈ versionSuffixes → test.1.toList <:+ "maps/forest-test-v10.ocd".toList →
      resolveVersion 7 (some "maps/forest-test-v10.ocd") = test.2) ∧
    ((∀ test, test ∈ versionSuffixes → ¬ test.1.toList <:+ "maps/forest-test-v10.ocd".toList) →
      resolveVersion 7 (some "maps/forest-test-v10.ocd") = 7) ∧
    (∀ t1 t2, t1 ∈ versionSuffixes → t2 ∈ versionSuffixes →
      t1.1.toList <:+ "maps/forest-test-v10.ocd".toList →
      t2.1.toList <:+ "maps/forest-test-v10.ocd".toList → t1 = t2) ∧
    (∀ tests, tests.Perm versionSuffixes →
      resolveWith tests 7 "maps/forest-test-v10.ocd" =
        resolveVersion 7 (some "maps/forest-test-v10.ocd")) :=
  resolveVersion_suffix 7 "maps/forest-test-v10.ocd"

end OcdFileExport

namespace OcdFileExport

open Mapper

/-! ### The unsupported versions -/

/-- The function `exportImplementation` does not throw the exception of line
153. -/
theorem exportImplementation_ne_unsupported (fs : Formats) (enc : Encoders) (id : FormatId)
    (actual_version : Nat) (codecAvailable : Bool) (map : Map) (v : Int) :
    exportImplementation fs enc id actual_version codecAvailable map ≠ .unsupported v := by
  unfold exportImplementation
  simp only []
  repeat' split
  all_goals simp

/-- C13: `doExport` ends with the exception for an unsupported version exactly
when the resolved version is none of 0, 8, 9, 10, 11, 12, and the exception
names the resolved version; in that case the result is the exception alone: no
buffer was written and no warnings were collected, and the legacy exporter was
not called.  The resolved version 0 is handed to the legacy exporter. -/
theorem doExport_unsupported (fs : Formats) (enc : Encoders) (default_version : Int)
    (fileName : Option String) (codecAvailable : Bool) (map : Map) :
    ((∃ v, doExport fs enc default_version fileName codecAvailable map = .unsupported v) ↔
      resolveVersion default_version fileName ∉ ([0, 8, 9, 10, 11, 12] : List Int)) ∧
    (∀ v, doExport fs enc default_version fileName codecAvailable map = .unsupported v →
      v = resolveVersion default_version fileName ∧
      (∀ bytes warnings,
        doExport fs enc default_version fileName codecAvailable map ≠ .written bytes warnings) ∧
      doExport fs enc default_version fileName codecAvailable map ≠ .legacy ∧
      doExport fs enc default_version fileName codecAvailable map ≠ .aborted) ∧
    (resolveVersion default_version fileName = 0 →
      doExport fs enc default_version fileName codecAvailable map = .legacy) := by
  have hin : resolveVersion default_version fileName ∈ ([0, 8, 9, 10, 11, 12] : List Int) →
      ∀ v, doExport fs enc default_version fileName codecAvailable map ≠ .unsupported v := by
    intro hr v
    unfold doExport
    generalize resolveVersion default_version fileName = r at hr
    simp only [List.mem_cons, List.mem_singleton, List.not_mem_nil, or_false] at hr
    rcases hr with rfl | rfl | rfl | rfl | rfl | rfl
    · simp
    all_goals exact exportImplementation_ne_unsupported _ _ _ _ _ _ _
  have hout : resolveVersion default_version fileName ∉ ([0, 8, 9, 10, 11, 12] : List Int) →
      doExport fs enc default_version fileName codecAvailable map =
        .unsupported (resolveVersion default_version fileName) := by
    intro hr
    unfold doExport
    generalize resolveVersion default_version fileName = r at hr
    split <;> first | rfl | exact absurd hr (by simp)
  refine ⟨⟨?_, ?_⟩, ?_, ?_⟩
  · rintro ⟨v, hv⟩ hmem
    exact hin hmem v hv
  · intro hn
    exact ⟨_, hout hn⟩
  · intro v hv
    by_cases hmem : resolveVersion default_version fileName ∈ ([0, 8, 9, 10, 11, 12] : List Int)
    · exact absurd hv (hin hmem v)
    · have hd := hout hmem
      rw [hd] at hv ⊢
      simp only [ExportResult.unsupported.injEq] at hv
      refine ⟨hv.symm, ?_, ?_, ?_⟩
      · intro bytes warnings h; cases h
      · intro h; cases h
      · intro h; cases h
  · intro h0
    unfold doExport
    rw [h0]
    rfl

/-- Witness for C13: the default version 7 with a sink that is not a file, and
the default version 0. -/
theorem doExport_unsupported_witness :
    (((∃ v, doExport sampleFormats sampleEncoders 7 none true sampleMap = .unsupported v) ↔
      resolveVersion 7 none ∉ ([0, 8, 9, 10, 11, 12] : List Int)) ∧
    (∀ v, doExport sampleFormats sampleEncoders 7 none true sampleMap = .unsupported v →
      v = resolveVersion 7 none ∧
      (∀ bytes warnings,
        doExport sampleFormats sampleEncoders 7 none true sampleMap ≠ .written bytes warnings) ∧
      doExport sampleFormats sampleEncoders 7 none true sampleMap ≠ .legacy ∧
      doExport sampleFormats sampleEncoders 7 none true sampleMap ≠ .aborted) ∧
    (resolveVersion 7 none = 0 →
      doExport sampleFormats sampleEncoders 7 none true sampleMap = .legacy)) ∧
    doExport sampleFormats sampleEncoders 7 none true sampleMap = .unsupported 7 :=
  ⟨doExport_unsupported sampleFormats sampleEncoders 7 none true sampleMap, rfl⟩

end OcdFileExport

namespace OcdFileExport

open Mapper

/-! ### Rounding and the color string -/

theorem truncate_of_nonneg {x : ℚ} (h : 0 ≤ x) : truncate x = ⌊x⌋ := by
  unfold truncate
  rw [if_pos h]

theorem qRound_of_nonneg {d : ℚ} (h : 0 ≤ d) : qRound d = ⌊d + 1 / 2⌋ := by
  unfold qRound
  rw [if_pos h, truncate_of_nonneg (by linarith)]

/-- For a value that is not negative `qRound` returns an integer at distance at
most one half. -/
theorem qRound_near {d : ℚ} (h : 0 ≤ d) : |((qRound d : Int) : ℚ) - d| ≤ 1 / 2 := by
  rw [qRound_of_nonneg h, abs_le]
  have h1 := Int.floor_le (d + 1 / 2)
  have h2 := Int.lt_floor_add_one (d + 1 / 2)
  constructor <;> linarith

theorem qRound_range {d : ℚ} (n : Nat) (h0 : 0 ≤ d) (h1 : d ≤ n) :
    0 ≤ qRound d ∧ qRound d ≤ n := by
  rw [qRound_of_nonneg h0]
  constructor
  · exact Int.floor_nonneg.mpr (by linarith)
  · have : ⌊d + 1 / 2⌋ < (n : Int) + 1 := by
      rw [Int.floor_lt]
      push_cast
      linarith
    omega

theorem makeString9_eq (color : MapColor) :
    makeString9 color =
      color.name ++ "\tn" ++ toString color.priority ++
        "\tc" ++ toString (qRound (color.cmyk.c * 100)) ++
        "\tm" ++ toString (qRound (color.cmyk.m * 100)) ++
        "\ty" ++ toString (qRound (color.cmyk.y * 100)) ++
        "\tk" ++ toString (qRound (color.cmyk.k * 100)) ++
        "\to" ++ (if color.knockout then "0" else "1") ++
        "\tt" ++ toString (qRound (color.opacity * 100)) := by
  unfold makeString9
  simp only [QTextStream.putString, QTextStream.putInt, QTextStream.putChar, String.empty_append]
  cases color.knockout <;> rfl

end OcdFileExport

namespace OcdFileExport

open Mapper

/-- C19: for every color `makeString9` returns exactly the name, then `\tn` and
the decimal priority, then `\tc`, `\tm`, `\ty`, `\tk`, each followed by the
decimal of `qRound` of the component times 100, then `\to` followed by the
character `0` when the color has knockout set and `1` otherwise, then `\tt`
followed by the decimal of `qRound` of the opacity times 100, and nothing
else; for a component or opacity `x` between 0 and 1 the number printed is an
integer between 0 and 100 at distance at most one half from `100 x`. -/
theorem makeString9_format (color : MapColor) :
    makeString9 color =
      color.name ++ "\tn" ++ toString color.priority ++
        "\tc" ++ toString (qRound (color.cmyk.c * 100)) ++
        "\tm" ++ toString (qRound (color.cmyk.m * 100)) ++
        "\ty" ++ toString (qRound (color.cmyk.y * 100)) ++
        "\tk" ++ toString (qRound (color.cmyk.k * 100)) ++
        "\to" ++ (if color.knockout then "0" else "1") ++
        "\tt" ++ toString (qRound (color.opacity * 100)) ∧
    ∀ x : ℚ, 0 ≤ x → x ≤ 1 →
      0 ≤ qRound (x * 100) ∧ qRound (x * 100) ≤ 100 ∧
      |((qRound (x * 100) : Int) : ℚ) - x * 100| ≤ 1 / 2 := by
  refine ⟨makeString9_eq color, ?_⟩
  intro x h0 h1
  have hx : (0 : ℚ) ≤ x * 100 := by linarith
  have hr := qRound_range 100 hx (by push_cast; linarith)
  exact ⟨hr.1, hr.2, qRound_near hx⟩

/-- Witness for C19: a color named Red with priority 3, the components 0, 1,
1, 0, knockout set and the opacity one half. -/
theorem makeString9_format_witness :
    (makeString9
        { name := "Red", priority := 3, cmyk := { c := 0, m := 1, y := 1, k := 0 },
          knockout := true, opacity := 1 / 2 } =
      "Red" ++ "\tn" ++ toString (3 : Int) ++
        "\tc" ++ toString (qRound ((0 : ℚ) * 100)) ++
        "\tm" ++ toString (qRound ((1 : ℚ) * 100)) ++
        "\ty" ++ toString (qRound ((1 : ℚ) * 100)) ++
        "\tk" ++ toString (qRound ((0 : ℚ) * 100)) ++
        "\to" ++ (if true then "0" else "1") ++
        "\tt" ++ toString (qRound ((1 / 2 : ℚ) * 100)) ∧
    ∀ x : ℚ, 0 ≤ x → x ≤ 1 →
      0 ≤ qRound (x * 100) ∧ qRound (x * 100) ≤ 100 ∧
      |((qRound (x * 100) : Int) : ℚ) - x * 100| ≤ 1 / 2) ∧
    makeString9
        { name := "Red", priority := 3, cmyk := { c := 0, m := 1, y := 1, k := 0 },
          knockout := true, opacity := 1 / 2 } = "Red\tn3\tc0\tm100\ty100\tk0\to0\tt50" := by
  have h := makeString9_format
    { name := "Red", priority := 3, cmyk := { c := 0, m := 1, y := 1, k := 0 },
      knockout := true, opacity := 1 / 2 }
  refine ⟨h, ?_⟩
  rw [h.1]
  have e0 : qRound ((0 : ℚ) * 100) = 0 := by
    rw [qRound_of_nonneg (by norm_num), Int.floor_eq_iff]; norm_num
  have e1 : qRound ((1 : ℚ) * 100) = 100 := by
    rw [qRound_of_nonneg (by norm_num), Int.floor_eq_iff]; norm_num
  have e2 : qRound ((1 / 2 : ℚ) * 100) = 50 := by
    rw [qRound_of_nonneg (by norm_num), Int.floor_eq_iff]; norm_num
  simp only [e0, e1, e2]
  decide

end OcdFileExport

namespace OcdFileExport

open Mapper

/-! ### The symbol number -/

/-- The local variable `number` of `setupBaseSymbol` when the arithmetic stays
in the range of `int`. -/
theorem symbolNumber_eq (f : Int) (symbol : Symbol) (hf : 0 < f)
    (hp : inInt (symbol.number0 * f) = true)
    (hn : 0 ≤ symbol.number1 → inInt (symbol.number0 * f + symbol.number1 % f) = true) :
    symbolNumber f symbol =
      some (if 0 ≤ symbol.number1 then symbol.number0 * f + symbol.number1 % f
        else symbol.number0 * f) := by
  unfold symbolNumber
  simp only [hp, if_true, ge_iff_le]
  by_cases hs : 0 ≤ symbol.number1
  · have hm : symbol.number1.tmod f = symbol.number1 % f := Int.tmod_eq_emod hs (le_of_lt hf)
    rw [if_pos hs, if_pos hs, if_neg (ne_of_gt hf), hm, hn hs]
    rfl
  · rw [if_neg hs, if_neg hs]

end OcdFileExport

namespace OcdFileExport

open OcdEntityIndex OcdFile Mapper

/-! ### The version 8 color records -/

/-- One round of the color loop: the record `color_info[i]` holds the number
`i`, the name, the four CMYK bytes and zero separations; the bytes outside the
record are unchanged. -/
theorem exportColorV8_record {F : Format} {enc : Encoders} {L : LayoutV8} (hL : L.WF F enc)
    (hLf : L.Fields) (buf : QByteArray) (i : Nat) (color : MapColor)
    (hin : L.colorInfoAt i + L.colorInfoSize ≤ buf.length) :
    ∃ final, exportColorV8 L enc buf i color = some final ∧ final.length = buf.length ∧
      ColorStored L enc final i color ∧
      ∀ j, j < L.colorInfoAt i ∨ L.colorInfoAt i + L.colorInfoSize ≤ j → final[j]? = buf[j]? := by
  have hn := hL.number_in
  have hna := hL.name_in
  have hc := hL.cmyk_in
  have hse := hL.separations_in
  have d1 := hLf.number_name
  have d2 := hLf.number_cmyk
  have d3 := hLf.number_separations
  have d4 := hLf.name_cmyk
  have d5 := hLf.name_separations
  have d6 := hLf.cmyk_separations
  unfold Disjoint2 at d1 d2 d3 d4 d5 d6
  have l1 : (natToLe 2 i).length = 2 := length_natToLe 2 i
  have l2 : (enc.colorName color.name).length = L.nameSize := hL.name_size _
  have l3 : [u8 (qRound (200 * color.cmyk.c)), u8 (qRound (200 * color.cmyk.m)),
      u8 (qRound (200 * color.cmyk.y)), u8 (qRound (200 * color.cmyk.k))].length = 4 := rfl
  have l4 : (zeros L.separationsSize).length = L.separationsSize := length_zeros _
  unfold ColorStored
  generalize hb1 : natToLe 2 i = n1 at l1
  generalize hb2 : enc.colorName color.name = n2 at l2
  generalize hb3 : [u8 (qRound (200 * color.cmyk.c)), u8 (qRound (200 * color.cmyk.m)),
      u8 (qRound (200 * color.cmyk.y)), u8 (qRound (200 * color.cmyk.k))] = n3 at l3
  generalize hb4 : zeros L.separationsSize = n4 at l4
  have w1 : L.colorInfoAt i + L.numberOff + n1.length ≤ buf.length := by omega
  have e1 := length_put buf _ n1 w1
  have w2 : L.colorInfoAt i + L.nameOff + n2.length ≤
      (put buf (L.colorInfoAt i + L.numberOff) n1).length := by omega
  have e2 := length_put _ _ n2 w2
  have w3 : L.colorInfoAt i + L.cmykOff + n3.length ≤
      (put (put buf (L.colorInfoAt i + L.numberOff) n1)
        (L.colorInfoAt i + L.nameOff) n2).length := by omega
  have e3 := length_put _ _ n3 w3
  have w4 : L.colorInfoAt i + L.separationsOff + n4.length ≤
      (put (put (put buf (L.colorInfoAt i + L.numberOff) n1)
        (L.colorInfoAt i + L.nameOff) n2) (L.colorInfoAt i + L.cmykOff) n3).length := by omega
  have e4 := length_put _ _ n4 w4
  refine ⟨put (put (put (put buf (L.colorInfoAt i + L.numberOff) n1)
    (L.colorInfoAt i + L.nameOff) n2) (L.colorInfoAt i + L.cmykOff) n3)
    (L.colorInfoAt i + L.separationsOff) n4, ?_, by omega, ⟨?_, ?_, ?_, ?_⟩, ?_⟩
  · have hbase : L.symbolHeaderOff + L.colorInfoOff + i * L.colorInfoSize = L.colorInfoAt i :=
      rfl
    unfold exportColorV8
    simp only [hbase, hb1, hb2, hb3, hb4, writeBytes_eq_some w1,
      writeBytes_eq_some w2, writeBytes_eq_some w3, writeBytes_eq_some w4]
  · rw [mid_put_disjoint _ _ _ _ _ w4 (by omega), mid_put_disjoint _ _ _ _ _ w3 (by omega),
      mid_put_disjoint _ _ _ _ _ w2 (by omega), ← l1]
    exact mid_put_same _ _ _ w1
  · rw [mid_put_disjoint _ _ _ _ _ w4 (by omega), mid_put_disjoint _ _ _ _ _ w3 (by omega),
      ← l2]
    exact mid_put_same _ _ _ w2
  · rw [mid_put_disjoint _ _ _ _ _ w4 (by omega), ← l3]
    exact mid_put_same _ _ _ w3
  · rw [← l4]
    exact mid_put_same _ _ _ w4
  · intro j hj
    rw [getElem?_put_outside _ _ _ _ w4 (by omega), getElem?_put_outside _ _ _ _ w3 (by omega),
      getElem?_put_outside _ _ _ _ w2 (by omega), getElem?_put_outside _ _ _ _ w1 (by omega)]

theorem colorInfoAt_succ (L : LayoutV8) (i : Nat) :
    L.colorInfoAt (i + 1) = L.colorInfoAt i + L.colorInfoSize := by
  unfold LayoutV8.colorInfoAt
  rw [Nat.add_mul, Nat.one_mul]
  omega

theorem colorInfoAt_mono (L : LayoutV8) {i j : Nat} (h : i ≤ j) :
    L.colorInfoAt i ≤ L.colorInfoAt j := by
  unfold LayoutV8.colorInfoAt
  have := Nat.mul_le_mul_right L.colorInfoSize h
  omega

/-- A record keeps its content when the bytes of the record are kept. -/
theorem ColorStored.congr {F : Format} {L : LayoutV8} {enc : Encoders} (hL : L.WF F enc)
    {a b : QByteArray} {i : Nat} {color : MapColor} (h : ColorStored L enc a i color)
    (hab : ∀ j, L.colorInfoAt i ≤ j → j < L.colorInfoAt i + L.colorInfoSize → b[j]? = a[j]?) :
    ColorStored L enc b i color := by
  have hn := hL.number_in
  have hna := hL.name_in
  have hc := hL.cmyk_in
  have hse := hL.separations_in
  obtain ⟨h1, h2, h3, h4⟩ := h
  refine ⟨?_, ?_, ?_, ?_⟩
  · rw [← h1]; exact mid_congr (fun k hk => hab _ (by omega) (by omega))
  · rw [← h2]; exact mid_congr (fun k hk => hab _ (by omega) (by omega))
  · rw [← h3]; exact mid_congr (fun k hk => hab _ (by omega) (by omega))
  · rw [← h4]; exact mid_congr (fun k hk => hab _ (by omega) (by omega))

/-- The color loop: every color of the list is stored in its record, and the
bytes outside these records are unchanged. -/
theorem exportColorsV8Loop_records {F : Format} {enc : Encoders} {L : LayoutV8}
    (hL : L.WF F enc) (hLf : L.Fields) (colors : List MapColor) (buf : QByteArray) (i : Nat)
    (hin : L.colorInfoAt (i + colors.length) ≤ buf.length) :
    ∃ final, exportColorsV8Loop L enc buf i colors = some final ∧ final.length = buf.length ∧
      (∀ k color, colors[k]? = some color → ColorStored L enc final (i + k) color) ∧
      ∀ j, j < L.colorInfoAt i ∨ L.colorInfoAt (i + colors.length) ≤ j →
        final[j]? = buf[j]? := by
  induction colors generalizing buf i with
  | nil => exact ⟨buf, rfl, rfl, fun k color h => by simp at h, fun _ _ => rfl⟩
  | cons color rest ih =>
    simp only [List.length_cons] at hin ⊢
    have hs := colorInfoAt_succ L i
    have hm := colorInfoAt_mono L (show i + 1 ≤ i + (rest.length + 1) by omega)
    obtain ⟨next, h1, hl1, hrec, hfr⟩ := exportColorV8_record hL hLf buf i color (by omega)
    obtain ⟨final, h2, hl2, hrecs, hfrs⟩ := ih next (i + 1)
      (by rw [hl1, show i + 1 + rest.length = i + (rest.length + 1) by omega]; exact hin)
    rw [show i + 1 + rest.length = i + (rest.length + 1) by omega] at hfrs
    refine ⟨final, ?_, by omega, ?_, ?_⟩
    · simp only [exportColorsV8Loop, h1, h2]
    · intro k c hk
      cases k with
      | zero =>
        simp only [List.getElem?_cons_zero, Option.some.injEq] at hk
        subst hk
        exact hrec.congr hL (fun j hj1 hj2 => hfrs j (Or.inl (by omega)))
      | succ k =>
        simp only [List.getElem?_cons_succ] at hk
        have := hrecs k c hk
        rw [show i + 1 + k = i + (k + 1) by omega] at this
        exact this
    · intro j hj
      rw [hfrs j (by omega), hfr j (by omega)]

end OcdFileExport

namespace OcdFileExport

open OcdEntityIndex OcdFile Mapper

/-- The version 8 `exportColors`: the count stored in `num_colors`, the records
of the first 256 colors, and the bytes that it leaves as they are. -/
theorem exportColorsV8_records {F : Format} {enc : Encoders} {L : LayoutV8}
    (hL : L.WF F enc) (hLf : L.Fields) (map : Map) (s : ExportState)
    (hlen : F.headerSize ≤ s.byte_array.length) :
    ∃ final, exportColorsV8 L enc map s =
        some { byte_array := final,
               warnings := s.warnings ++
                 (if map.colors.length > 256 then [Warning.tooManyColors] else []) ++
                 [Warning.spotColorIgnored] } ∧
      mid final (L.symbolHeaderOff + L.numColorsOff) 2 =
        natToLe 2 (min map.colors.length 256) ∧
      (∀ i color, i < 256 → map.colors[i]? = some color → ColorStored L enc final i color) ∧
      ∀ j, j < L.symbolHeaderOff + L.numColorsOff ∨
          (L.symbolHeaderOff + L.numColorsOff + 2 ≤ j ∧ j < L.colorInfoAt 0) ∨
          L.colorInfoAt (min map.colors.length 256) ≤ j →
        final[j]? = s.byte_array[j]? := by
  have hnc := hL.num_colors_in
  have hci := hL.color_info_in
  have hlow := hLf.num_colors_low
  have h256 : L.colorInfoAt 256 ≤ F.headerSize := hci
  have h0 : L.colorInfoAt 0 = L.symbolHeaderOff + L.colorInfoOff := by
    unfold LayoutV8.colorInfoAt; omega
  have hnum : (if map.colors.length > 256 then 256 else map.colors.length) =
      min map.colors.length 256 := by
    split <;> omega
  have hs1 : (if map.colors.length > 256 then s.addWarning .tooManyColors else s).byte_array =
      s.byte_array := by split <;> rfl
  have w1 : L.symbolHeaderOff + L.numColorsOff +
      (natToLe 2 (min map.colors.length 256)).length ≤ s.byte_array.length := by
    rw [length_natToLe]; omega
  have l1 := length_put _ _ _ w1
  have htake : (map.colors.take (min map.colors.length 256)).length =
      min map.colors.length 256 := by
    rw [List.length_take]; omega
  have hmono := colorInfoAt_mono L (Nat.min_le_right map.colors.length 256)
  have hmono0 := colorInfoAt_mono L (Nat.zero_le (min map.colors.length 256))
  obtain ⟨final, h2, hl2, hrecs, hfr⟩ := exportColorsV8Loop_records hL hLf
    (map.colors.take (min map.colors.length 256))
    (put s.byte_array (L.symbolHeaderOff + L.numColorsOff)
      (natToLe 2 (min map.colors.length 256))) 0
    (by rw [htake, Nat.zero_add, l1]; omega)
  rw [htake, Nat.zero_add] at hfr
  refine ⟨final, ?_, ?_, ?_, ?_⟩
  · unfold exportColorsV8
    simp only [hnum, hs1, writeBytes_eq_some w1, h2]
    by_cases hc : map.colors.length > 256
    · simp [hc, ExportState.addWarning]
    · simp [hc, ExportState.addWarning]
  · have := mid_put_same s.byte_array (L.symbolHeaderOff + L.numColorsOff)
      (natToLe 2 (min map.colors.length 256)) w1
    rw [length_natToLe] at this
    rw [← this]
    exact mid_congr (fun k hk => hfr _ (Or.inl (by omega)))
  · intro i color hi hc
    have hil : i < map.colors.length := by
      by_contra hn
      rw [List.getElem?_eq_none (by omega)] at hc
      exact absurd hc (by simp)
    have := hrecs i color (by
      rw [List.getElem?_take_of_lt (by omega)]
      exact hc)
    rw [Nat.zero_add] at this
    exact this
  · intro j hj
    rw [hfr j (by omega),
      getElem?_put_outside _ _ _ _ w1 (by rw [length_natToLe]; omega)]

/-- The version 8 `exportGeoreferencing` leaves the header as it is. -/
theorem exportGeoreferencingV8_low {F : Format} {enc : Encoders} {L : LayoutV8}
    (map : Map) (s s2 : ExportState)
    (hpos : readU32 s.byte_array L.setupPosOff = some F.headerSize)
    (h : exportGeoreferencingV8 L enc map s = some s2) :
    s2.byte_array.length = s.byte_array.length ∧
    ∀ j, j < F.headerSize → s2.byte_array[j]? = s.byte_array[j]? := by
  have step : ∀ (b b2 : QByteArray) (off : Nat) (bs : List Byte),
      writeBytes b (F.headerSize + off) bs = some b2 →
      b2.length = b.length ∧ ∀ j, j < F.headerSize → b2[j]? = b[j]? := by
    intro b b2 off bs hw
    unfold writeBytes at hw
    split at hw
    · rename_i hin
      simp only [Option.some.injEq] at hw
      subst hw
      exact ⟨length_put _ _ _ hin, fun j hj =>
        getElem?_put_outside _ _ _ _ hin (Or.inl (by omega))⟩
    · exact absurd hw (by simp)
  unfold exportGeoreferencingV8 at h
  simp only [hpos] at h
  cases h1 : writeBytes s.byte_array (F.headerSize + L.mapScaleOff)
      (enc.doubleBytes map.georeferencing.scaleDenominator) with
  | none => simp [h1] at h
  | some b1 =>
    simp only [h1] at h
    cases h2 : writeBytes b1 (F.headerSize + L.realOffsetXOff)
        (enc.doubleBytes map.georeferencing.projectedRefPointX) with
    | none => simp [h2] at h
    | some b2 =>
      simp only [h2] at h
      cases h3 : writeBytes b2 (F.headerSize + L.realOffsetYOff)
          (enc.doubleBytes map.georeferencing.projectedRefPointY) with
      | none => simp [h3] at h
      | some b3 =>
        simp only [h3] at h
        have s1 := step _ _ _ _ h1
        have s2' := step _ _ _ _ h2
        have s3 := step _ _ _ _ h3
        by_cases hz : qIsNull map.georeferencing.grivation = true
        · rw [if_pos hz] at h
          simp only [Option.some.injEq] at h
          subst h
          exact ⟨by simp only []; omega, fun j hj => by
            simp only []
            rw [s3.2 j hj, s2'.2 j hj, s1.2 j hj]⟩
        · rw [if_neg hz] at h
          cases h4 : writeBytes b3 (F.headerSize + L.realAngleOff)
              (enc.doubleBytes map.georeferencing.grivation) with
          | none => simp [h4] at h
          | some b4 =>
            simp only [h4, Option.some.injEq] at h
            subst h
            have s4 := step _ _ _ _ h4
            exact ⟨by simp only []; omega, fun j hj => by
              simp only []
              rw [s4.2 j hj, s3.2 j hj, s2'.2 j hj, s1.2 j hj]⟩

end OcdFileExport

namespace OcdFileExport

open OcdEntityIndex OcdFile Mapper

/-- C18: for every map with N colors exported to version 8 (the buffer staying
below `2^31` bytes), the export is written and in its header `num_colors` is
`min(N, 256)`, record `i` holds the number `i`, the name and CMYK bytes of
color `i` and zero separations for every `i < min(N, 256)`, the records from
`min(N, 256)` on are as in the value-initialised header, and the warning
"Too many colors" occurs once among the warnings when `N > 256` and not at all
otherwise. -/
theorem export_v8_colors (fs : Formats) (enc : Encoders) (codecAvailable : Bool) (map : Map)
    (hW : ExportWF fs enc .V8) (hLf : fs.layoutV8.Fields)
    (hsize : expectedLength (fs.format .V8) (exportCalls fs enc .V8 map) < 2 ^ 31) :
    ∃ bytes warnings,
      doExport fs enc 8 none codecAvailable map = .written bytes warnings ∧
      leToNat (mid bytes (fs.layoutV8.symbolHeaderOff + fs.layoutV8.numColorsOff) 2) =
        min map.colors.length 256 ∧
      (∀ i color, i < 256 → map.colors[i]? = some color →
        ColorStored fs.layoutV8 enc bytes i color) ∧
      (∀ j, fs.layoutV8.colorInfoAt (min map.colors.length 256) ≤ j →
        j < fs.layoutV8.colorInfoAt 256 → bytes[j]? = (fs.format .V8).headerInit[j]?) ∧
      warnings.count .tooManyColors = (if 256 < map.colors.length then 1 else 0) := by
  have hF := hW.format_wf
  have hL := hW.layout rfl
  have h8 : (fs.format .V8).version = 8 := hW.version_eq
  have hentry := exportCalls_entry map hW
  have hfresh := freshLength_lt hsize
  have hS := headerState_start hF hfresh hW.subversion_init 8
  rw [if_neg (by omega)] at hS
  have hin := version_store_inside hF 8
  have hpos1 := readU32_setup_pos hF hL h8 8
  have hle := hF.headerSize_le
  have h256 : fs.layoutV8.colorInfoAt 256 ≤ (fs.format .V8).headerSize := hL.color_info_in
  have hl1 : (put (image (fs.format .V8)) (fs.format .V8).versionOff (natToLe 2 8)).length =
      freshLength (fs.format .V8) := by rw [length_put _ _ _ hin, length_image hF]
  have hfl : (fs.format .V8).imageStart ≤ freshLength (fs.format .V8) := by
    unfold freshLength; omega
  obtain ⟨b2, hg, hS2⟩ := exportGeoreferencingV8_header hF hL h8 map
    { byte_array := put (image (fs.format .V8)) (fs.format .V8).versionOff (natToLe 2 8),
      warnings := startWarnings fs .V8 codecAvailable } hS hpos1
  obtain ⟨hgl, hglow⟩ := exportGeoreferencingV8_low map _ _ hpos1 hg
  simp only [] at hgl hglow
  obtain ⟨b3, hc, hS3⟩ := exportColorsV8_header hF hL map
    { byte_array := b2, warnings := startWarnings fs .V8 codecAvailable } hS2
  obtain ⟨b3', hc', hnum, hrecs, hfr⟩ := exportColorsV8_records hL hLf map
    { byte_array := b2, warnings := startWarnings fs .V8 codecAvailable }
    (by simp only []; omega)
  have hb3 : b3' = b3 := by
    rw [hc] at hc'
    simp only [Option.some.injEq, ExportState.mk.injEq] at hc'
    exact hc'.1.symm
  subst hb3
  simp only [] at hfr
  simp only [exportCalls] at hsize hentry
  obtain ⟨final, recs, regs, hrun, hR, hlow⟩ :=
    run_from hF b3' hS3.inv (symbolCalls enc map) hentry hsize
  have hnc := hL.num_colors_in
  have hmono := colorInfoAt_mono fs.layoutV8 (Nat.min_le_right map.colors.length 256)
  have hmono0 := colorInfoAt_mono fs.layoutV8 (Nat.zero_le (min map.colors.length 256))
  have h0 : fs.layoutV8.colorInfoAt 0 =
      fs.layoutV8.symbolHeaderOff + fs.layoutV8.colorInfoOff := by
    unfold LayoutV8.colorInfoAt; omega
  refine ⟨final, startWarnings fs .V8 codecAvailable ++
    (if map.colors.length > 256 then [Warning.tooManyColors] else []) ++
    [Warning.spotColorIgnored], ?_, ?_, ?_, ?_, ?_⟩
  · show exportImplementation fs enc .V8 8 codecAvailable map = _
    simp only [exportImplementation, OcdFile_eq hF, writeBytes_eq_some hin, hg, hc, exportSymbols,
      runCalls, hrun]
  · have : mid final (fs.layoutV8.symbolHeaderOff + fs.layoutV8.numColorsOff) 2 =
        mid b3' (fs.layoutV8.symbolHeaderOff + fs.layoutV8.numColorsOff) 2 :=
      mid_congr (fun k hk => hlow _ (by omega))
    rw [this, hnum, leToNat_natToLe]
    omega
  · intro i color hi hcol
    have hs := colorInfoAt_succ fs.layoutV8 i
    have hm := colorInfoAt_mono fs.layoutV8 (show i + 1 ≤ 256 by omega)
    exact (hrecs i color hi hcol).congr hL (fun j _ hj2 => hlow j (by omega))
  · intro j hj1 hj2
    have hvl := hL.version_low
    have hv := hF.version_in
    rw [hlow j (by omega), hfr j (Or.inr (Or.inr hj1)), hglow j (by omega),
      getElem?_put_outside _ _ _ _ hin (by rw [length_natToLe]; omega),
      getElem?_image_low hF j (by omega) (fun c => by
        have := hL.first_low c
        omega)]
    unfold headerImage
    simp only []
    rw [if_neg (by omega)]
    exact getElem?_put_outside _ _ _ _ (by rw [length_natToLe]; exact hv)
      (by rw [length_natToLe]; omega)
  · by_cases hc256 : 256 < map.colors.length
    · simp only [gt_iff_lt, hc256, if_true]
      unfold startWarnings
      split <;> decide
    · simp only [gt_iff_lt, hc256, if_false]
      unfold startWarnings
      split <;> decide

end OcdFileExport

namespace OcdFileExport

open OcdEntityIndex OcdFile Mapper

theorem sample_layout_fields : sampleFormats.layoutV8.Fields where
  number_name := by decide
  number_cmyk := by decide
  number_separations := by decide
  name_cmyk := by decide
  name_separations := by decide
  cmyk_separations := by decide
  num_colors_low := by decide

theorem manyColorsMap_size :
    expectedLength (sampleFormats.format .V8)
      (exportCalls sampleFormats sampleEncoders .V8 manyColorsMap) < 2 ^ 31 := by
  show expectedLength FormatV8 [] < 2 ^ 31
  rw [expectedLength_nil, freshLength_FormatV8]
  decide

/-- Witness for C18: a map with 300 colors; 256 records are written and the
warning occurs once. -/
theorem export_v8_colors_witness :
    ∃ bytes warnings,
      doExport sampleFormats sampleEncoders 8 none true manyColorsMap =
        .written bytes warnings ∧
      leToNat (mid bytes
        (sampleFormats.layoutV8.symbolHeaderOff + sampleFormats.layoutV8.numColorsOff) 2) =
        min manyColorsMap.colors.length 256 ∧
      (∀ i color, i < 256 → manyColorsMap.colors[i]? = some color →
        ColorStored sampleFormats.layoutV8 sampleEncoders bytes i color) ∧
      (∀ j, sampleFormats.layoutV8.colorInfoAt (min manyColorsMap.colors.length 256) ≤ j →
        j < sampleFormats.layoutV8.colorInfoAt 256 →
        bytes[j]? = (sampleFormats.format .V8).headerInit[j]?) ∧
      warnings.count .tooManyColors = (if 256 < manyColorsMap.colors.length then 1 else 0) :=
  export_v8_colors sampleFormats sampleEncoders true manyColorsMap sample_exportWF_v8
    sample_layout_fields manyColorsMap_size

end OcdFileExport

namespace OcdFileExport

open OcdEntityIndex OcdFile Mapper

end OcdFileExport

namespace Ocd

/-! ### Stores that commute -/

theorem put_append (buf : QByteArray) (off : Nat) (bs data : List Byte)
    (h : off + bs.length ≤ buf.length) : put (buf ++ data) off bs = put buf off bs ++ data := by
  have h2 : off + bs.length ≤ (buf ++ data).length := by rw [List.length_append]; omega
  have l1 := length_put buf off bs h
  apply List.ext_getElem?
  intro j
  rw [getElem?_put (buf ++ data) off bs j h2]
  by_cases hj : j < buf.length
  · have e1 : (put buf off bs ++ data)[j]? = (put buf off bs)[j]? :=
      List.getElem?_append_left (by rw [l1]; exact hj)
    have e2 : (buf ++ data)[j]? = buf[j]? := List.getElem?_append_left hj
    rw [e1, e2, getElem?_put buf off bs j h]
  · have e1 : (put buf off bs ++ data)[j]? = data[j - (put buf off bs).length]? :=
      List.getElem?_append_right (by rw [l1]; omega)
    have e2 : (buf ++ data)[j]? = data[j - buf.length]? :=
      List.getElem?_append_right (by omega)
    rw [e1, e2, l1, if_neg (by omega), if_neg (by omega)]

theorem put_put_comm (buf : QByteArray) (o1 o2 : Nat) (s1 s2 : List Byte)
    (h1 : o1 + s1.length ≤ buf.length) (h2 : o2 + s2.length ≤ buf.length)
    (hd : o1 + s1.length ≤ o2 ∨ o2 + s2.length ≤ o1) :
    put (put buf o1 s1) o2 s2 = put (put buf o2 s2) o1 s1 := by
  have l1 := length_put buf o1 s1 h1
  have l2 := length_put buf o2 s2 h2
  apply List.ext_getElem?
  intro j
  rw [getElem?_put (put buf o1 s1) o2 s2 j (by rw [l1]; exact h2),
    getElem?_put (put buf o2 s2) o1 s1 j (by rw [l2]; exact h1),
    getElem?_put buf o1 s1 j h1, getElem?_put buf o2 s2 j h2]
  by_cases a1 : j < o1 <;> by_cases a2 : j < o1 + s1.length <;> by_cases a3 : j < o2 <;>
    by_cases a4 : j < o2 + s2.length <;>
    first
    | (simp only [a1, a2, a3, a4, if_true, if_false]; done)
    | (simp only [a1, a2, a3, a4, if_true, if_false]; omega)

theorem put_put_same (buf : QByteArray) (off : Nat) (s1 s2 : List Byte)
    (h1 : off + s1.length ≤ buf.length) (hl : s2.length = s1.length) :
    put (put buf off s1) off s2 = put buf off s2 := by
  have l1 := length_put buf off s1 h1
  apply List.ext_getElem?
  intro j
  rw [getElem?_put (put buf off s1) off s2 j (by rw [l1, hl]; exact h1),
    getElem?_put buf off s2 j (by rw [hl]; exact h1), getElem?_put buf off s1 j h1]
  by_cases a1 : j < off <;> by_cases a2 : j < off + s1.length <;>
    simp only [a1, a2, hl, if_true, if_false]

end Ocd

namespace OcdEntityIndex

/-- The result of a call of insert on a document that satisfies the invariant,
written out: the entry goes to the first free place of the last block of the
chain, or to entry 0 of a block appended at the end. -/
theorem insert_shape {F : Format} {buf : QByteArray} {regs : List Region}
    (hF : F.WF) (hI : Inv F buf regs) (hlen : buf.length < 2 ^ 31) (c : Chain)
    (data entry : List Byte) (hentry : entry.length = (F.entry c).size) :
    insert F c buf data entry =
      if (entitiesOf c regs).length < 256 * (blocksOf c regs).length then
        .ok (placed (F.entry c) buf ((blocksOf c regs).getD ((blocksOf c regs).length - 1) 0)
            ((entitiesOf c regs).length - 256 * ((blocksOf c regs).length - 1)) data entry)
          (entryOff (F.entry c) ((blocksOf c regs).getD ((blocksOf c regs).length - 1) 0)
            ((entitiesOf c regs).length - 256 * ((blocksOf c regs).length - 1)))
      else
        .ok (placed (F.entry c)
            (grown (F.entry c) buf ((blocksOf c regs).getD ((blocksOf c regs).length - 1) 0))
            buf.length 0 data entry)
          (entryOff (F.entry c) buf.length 0) := by
  have hC := hI.chain c
  have hm := hC.nonempty
  have hle := hC.count_le
  have hge := hC.count_ge
  have hbs := hF.blockSize_lt c
  have hpos := hF.pos_in c
  obtain ⟨hhead, hwalk⟩ := walk_inv hF hI hlen c
  have hscan := scan_inv hF hI c
  by_cases hroom : (entitiesOf c regs).length < 256 * (blocksOf c regs).length
  · rw [if_pos hroom]
    exact insert_free hlen hbs hpos hentry hhead hwalk hscan (by omega)
  · rw [if_neg hroom]
    have hscan2 : scan buf (F.entry c)
        ((blocksOf c regs).getD ((blocksOf c regs).length - 1) 0) 256 0 = some 256 := by
      rw [hscan]; congr 1; omega
    exact insert_full hlen hbs hpos hentry hhead hwalk hscan2

end OcdEntityIndex

namespace OcdEntityIndex

/-! ### A store in front of the index blocks commutes with insert -/

theorem placed_put {E : EntryLayout} {buf : QByteArray} {b i : Nat} {data entry : List Byte}
    (off : Nat) (bs : List Byte) (hentry : entry.length = E.size)
    (hpos : E.posOff + 4 ≤ E.size) (hin : entryOff E b i + E.size ≤ buf.length)
    (hoff : off + bs.length ≤ entryOff E b i) :
    placed E (put buf off bs) b i data entry = put (placed E buf b i data entry) off bs := by
  have h0 : off + bs.length ≤ buf.length := by omega
  have h1 : off + bs.length ≤ (buf ++ data).length := by rw [List.length_append]; omega
  have h2 : entryOff E b i + entry.length ≤ (buf ++ data).length := by
    rw [List.length_append]; omega
  have l2 := length_put (buf ++ data) (entryOff E b i) entry h2
  unfold placed
  rw [length_put buf off bs h0, ← put_append buf off bs data h0,
    put_put_comm (buf ++ data) off (entryOff E b i) bs entry h1 h2 (Or.inl hoff),
    put_put_comm (put (buf ++ data) (entryOff E b i) entry) off (entryPosOff E b i) bs
      (natToLe 4 (u32 buf.length)) (by rw [l2]; exact h1)
      (by rw [l2, length_natToLe, List.length_append]; unfold entryPosOff; omega)
      (Or.inl (by unfold entryPosOff; omega))]

theorem grown_put {E : EntryLayout} {buf : QByteArray} {b : Nat} (off : Nat) (bs : List Byte)
    (hb : b + 4 ≤ buf.length) (hoff : off + bs.length ≤ b) :
    grown E (put buf off bs) b = put (grown E buf b) off bs := by
  have h0 : off + bs.length ≤ buf.length := by omega
  have hb' : b + (natToLe 4 (u32 buf.length)).length ≤ buf.length := by
    rw [length_natToLe]; exact hb
  unfold grown
  rw [length_put buf off bs h0,
    put_put_comm buf off b bs (natToLe 4 (u32 buf.length)) h0 hb' (Or.inl hoff),
    put_append _ off bs _ (by rw [length_put _ _ _ hb']; exact h0)]

/-- A call of insert on a document and the same call after a store in front of
the first index block that avoids the three header fields of the chains: the
results differ by that store only. -/
theorem insert_put_low {F : Format} {buf : QByteArray} {regs : List Region}
    (hF : F.WF) (hI : Inv F buf regs) (hlen : buf.length < 2 ^ 31) (c : Chain)
    (data entry : List Byte) (hentry : entry.length = (F.entry c).size)
    (off : Nat) (bs : List Byte) (h1 : off + bs.length ≤ F.imageStart)
    (h2 : ∀ d, Disjoint2 off bs.length (F.firstBlockOff d) 4) :
    ∃ buf' e p, insert F c buf data entry = .ok buf' e ∧
      readU32 buf' (e + (F.entry c).posOff) = some p ∧
      insert F c (put buf off bs) data entry = .ok (put buf' off bs) e ∧
      readU32 (put buf' off bs) (e + (F.entry c).posOff) = some p := by
  have hstart : F.imageStart ≤ buf.length := by rw [hI.contig]; omega
  have hin0 : off + bs.length ≤ buf.length := by omega
  have hl := length_put buf off bs hin0
  have hI2 := hI.put_low off bs h1 h2
  have hC := hI.chain c
  have hm := hC.nonempty
  have hpos := hF.pos_in c
  obtain ⟨_, hlo, hhi⟩ := hI.block_bounds (c := c) (k := (blocksOf c regs).length - 1)
    (by omega)
  have hbs4 := blockSize_pos (F.entry c)
  obtain ⟨buf', e, p, pre, hins, hread, hI', hpre, hp, hlen', he⟩ :=
    insert_inv hF hI hlen c data entry hentry
  have hs1 := insert_shape hF hI hlen c data entry hentry
  have hs2 := insert_shape hF hI2 (by rw [hl]; exact hlen) c data entry hentry
  have hbl : buf.length ≤ buf'.length := by
    rw [hlen', hp]; omega
  have key : insert F c (put buf off bs) data entry = .ok (put buf' off bs) e ∧
      F.imageStart ≤ e := by
    rw [hins] at hs1
    by_cases hroom : (entitiesOf c regs).length < 256 * (blocksOf c regs).length
    · rw [if_pos hroom] at hs1 hs2
      simp only [InsertResult.ok.injEq] at hs1
      have hi : (entitiesOf c regs).length - 256 * ((blocksOf c regs).length - 1) < 256 := by
        have := hC.count_ge; omega
      have hin := entry_in_block (F.entry c)
        ((blocksOf c regs).getD ((blocksOf c regs).length - 1) 0) _ hi
      have hge : F.imageStart ≤ entryOff (F.entry c)
          ((blocksOf c regs).getD ((blocksOf c regs).length - 1) 0)
          ((entitiesOf c regs).length - 256 * ((blocksOf c regs).length - 1)) := by
        unfold entryOff; omega
      rw [hs2, placed_put off bs hentry hpos (by omega) (by omega), ← hs1.1, ← hs1.2]
      exact ⟨rfl, by rw [hs1.2]; exact hge⟩
    · rw [if_neg hroom] at hs1 hs2
      simp only [InsertResult.ok.injEq] at hs1
      have hb4 : (blocksOf c regs).getD ((blocksOf c regs).length - 1) 0 + 4 ≤ buf.length := by
        omega
      have hlg : (grown (F.entry c) buf
          ((blocksOf c regs).getD ((blocksOf c regs).length - 1) 0)).length =
          buf.length + blockSize (F.entry c) := length_grown hb4
      have hin := entry_in_block (F.entry c) buf.length 0 (by decide)
      have hge : F.imageStart ≤ entryOff (F.entry c) buf.length 0 := by
        unfold entryOff; omega
      rw [hs2, hl, grown_put off bs hb4 (by omega),
        placed_put off bs hentry hpos (by rw [hlg]; exact hin) (by omega), ← hs1.1, ← hs1.2]
      exact ⟨rfl, by rw [hs1.2]; exact hge⟩
  refine ⟨buf', e, p, hins, hread, key.1, ?_⟩
  rw [readU32_put_disjoint buf' off bs _ (by omega) (Or.inr (by have := key.2; omega))]
  exact hread

end OcdEntityIndex

namespace OcdFile

open OcdEntityIndex

/-- A sequence of calls of insert on a buffer that has the layout of a fresh
file and the same calls after a store in front of the first index block that
avoids the three header fields of the chains: the calls return the same
entries, and the final buffers differ by that store only. -/
theorem run_put_low {F : Format} (hF : F.WF) (b0 : QByteArray) (hI0 : Inv F b0 (freshRegs F))
    (off : Nat) (bs : List Byte) (h1 : off + bs.length ≤ F.imageStart)
    (h2 : ∀ d, Disjoint2 off bs.length (F.firstBlockOff d) 4)
    (calls : List InsertCall)
    (hentry : ∀ call, call ∈ calls → call.entry.length = (F.entry call.chain).size)
    (hsize : expectedLength F calls < 2 ^ 31) :
    ∃ buf recs regs, run F b0 calls = some (buf, recs) ∧ RunInv F calls buf recs regs ∧
      run F (put b0 off bs) calls = some (put buf off bs, recs) := by
  induction calls using List.reverseRecOn with
  | nil =>
    obtain ⟨buf, recs, regs, hrun, hR, _⟩ := run_from hF b0 hI0 [] hentry hsize
    rw [run_nil] at hrun
    simp only [Option.some.injEq, Prod.mk.injEq] at hrun
    obtain ⟨rfl, rfl⟩ := hrun
    exact ⟨b0, [], regs, rfl, hR, rfl⟩
  | append_singleton calls call ih =>
    have hsn := expectedLength_snoc F calls call
    obtain ⟨buf, recs, regs, hrun, hR, hput⟩ := ih
      (fun c hc => hentry c (List.mem_append_left _ hc)) (by omega)
    have hlen : buf.length < 2 ^ 31 := by rw [hR.length_eq]; omega
    have hce := hentry call (List.mem_append_right _ (List.mem_singleton_self _))
    obtain ⟨buf', e, p, hins, hread, hins2, hread2⟩ :=
      insert_put_low hF hR.inv hlen call.chain call.entity_data call.entry hce off bs h1 h2
    have hcall : insertCall F buf call = some (buf', { entry := e, pos := p }) := by
      unfold insertCall
      simp only [hins, hread]
    have hcall2 : insertCall F (put buf off bs) call =
        some (put buf' off bs, { entry := e, pos := p }) := by
      unfold insertCall
      simp only [hins2, hread2]
    obtain ⟨buf3, recs3, regs3, hrun3, hR3, _⟩ := run_from hF b0 hI0 (calls ++ [call]) hentry hsize
    have h3 := run_snoc F _ calls call hrun hcall
    rw [hrun3] at h3
    simp only [Option.some.injEq, Prod.mk.injEq] at h3
    obtain ⟨hb, hr⟩ := h3
    subst hb hr
    exact ⟨_, _, regs3, hrun3, hR3, run_snoc F _ calls call hput hcall2⟩

end OcdFile

namespace OcdFileExport

open OcdEntityIndex OcdFile Mapper

theorem sampleFormats_wf_v9 : (sampleFormats.format .V9).WF where
  version_lt := by decide
  version_in := by decide
  subversion_in := by decide
  first_in := by intro c; cases c <;> decide
  first_disj := by intro c d h; cases c <;> cases d <;> first | exact absurd rfl h | decide
  first_version := by intro c; cases c <;> decide
  first_subversion := by intro c; cases c <;> decide
  version_subversion := by decide
  pos_in := by intro c; cases c <;> decide
  block_lt := by intro c; cases c <;> decide

theorem sample_exportWF_v9 : ExportWF sampleFormats sampleEncoders .V9 where
  format_wf := sampleFormats_wf_v9
  version_eq := rfl
  subversion_init := by decide
  string_entry := by intro t s; rfl
  symbol_entry := by intro d; rfl
  layout := by intro h; exact absurd h (by decide)

end OcdFileExport

namespace OcdFileExport

open OcdEntityIndex OcdFile Mapper

/-! ### Version 10 -/

/-- The generic path of `exportImplementation`, in terms of the calls of
insert: when the calls return on the buffer left by line 181, the export
writes the buffer that they leave. -/
theorem exportImplementation_of_run (fs : Formats) (enc : Encoders) (id : FormatId)
    (hid : id ≠ .V8) (actual_version : Nat) (codecAvailable : Bool) (map : Map)
    (hF : (fs.format id).WF) {final : QByteArray} {recs : List Inserted}
    (hrun : run (fs.format id)
      (put (image (fs.format id)) (fs.format id).versionOff (natToLe 2 actual_version))
      (exportCalls fs enc id map) = some (final, recs)) :
    exportImplementation fs enc id actual_version codecAvailable map =
      .written final (startWarnings fs id codecAvailable ++ [.spotColorIgnored]) := by
  cases id with
  | V8 => exact absurd rfl hid
  | V9 | V11 | V12 =>
    simp only [exportCalls] at hrun
    obtain ⟨b23, r12, r3, hrun12, hrun3, _⟩ := run_append_some _ _ _ _ hrun
    obtain ⟨b12, r1, r2, hrun1, hrun2, _⟩ := run_append_some _ _ _ _ hrun12
    have hin := version_store_inside hF actual_version
    simp only [exportImplementation, OcdFile_eq hF, writeBytes_eq_some hin, exportGeoreferencing,
      exportColors, exportSymbols, runCalls, hrun1, hrun2, hrun3, ExportState.addWarning]

/-- C15: for every map, an export resolved to version 10 and an export resolved
to version 9 (the buffer staying below `2^31` bytes) are both written, with
the same warnings and with buffers of the same length that agree in every byte
outside the two bytes of the header field `version`; that field holds 10 in
the one and 9 in the other. -/
theorem export_v10_as_v9 (fs : Formats) (enc : Encoders) (d9 d10 : Int)
    (n9 n10 : Option String) (codecAvailable : Bool) (map : Map)
    (h9 : resolveVersion d9 n9 = 9) (h10 : resolveVersion d10 n10 = 10)
    (hW : ExportWF fs enc .V9)
    (hsize : expectedLength (fs.format .V9) (exportCalls fs enc .V9 map) < 2 ^ 31) :
    ∃ bytes9 bytes10 warnings,
      doExport fs enc d9 n9 codecAvailable map = .written bytes9 warnings ∧
      doExport fs enc d10 n10 codecAvailable map = .written bytes10 warnings ∧
      bytes10 = put bytes9 (fs.format .V9).versionOff (natToLe 2 10) ∧
      bytes10.length = bytes9.length ∧
      (∀ j, j < (fs.format .V9).versionOff ∨ (fs.format .V9).versionOff + 2 ≤ j →
        bytes10[j]? = bytes9[j]?) ∧
      leToNat (mid bytes9 (fs.format .V9).versionOff 2) = 9 ∧
      leToNat (mid bytes10 (fs.format .V9).versionOff 2) = 10 := by
  have hF := hW.format_wf
  have hentry := exportCalls_entry map hW
  have hfresh := freshLength_lt hsize
  have hS := headerState_start hF hfresh hW.subversion_init 9
  have hv := hF.version_in
  have hle := hF.headerSize_le
  have hin9 := version_store_inside hF 9
  have hb10 : put (image (fs.format .V9)) (fs.format .V9).versionOff (natToLe 2 10) =
      put (put (image (fs.format .V9)) (fs.format .V9).versionOff (natToLe 2 9))
        (fs.format .V9).versionOff (natToLe 2 10) :=
    (put_put_same _ _ _ _ hin9 (by rw [length_natToLe, length_natToLe])).symm
  obtain ⟨buf, recs, regs, hrun, hR, hput⟩ := run_put_low hF _ hS.inv
    (fs.format .V9).versionOff (natToLe 2 10) (by rw [length_natToLe]; omega)
    (fun d => by
      have := hF.first_version d
      unfold Disjoint2 at this ⊢
      rw [length_natToLe]
      omega)
    (exportCalls fs enc .V9 map) hentry hsize
  rw [← hb10] at hput
  obtain ⟨final, recs', hrun', hver, _⟩ := hS.run hF _ hentry hsize
  rw [hrun] at hrun'
  simp only [Option.some.injEq, Prod.mk.injEq] at hrun'
  rw [← hrun'.1] at hver
  have hbl : (fs.format .V9).versionOff + (natToLe 2 10).length ≤ buf.length := by
    rw [length_natToLe, hR.inv.contig]; omega
  refine ⟨buf, _, startWarnings fs .V9 codecAvailable ++ [.spotColorIgnored], ?_, ?_, rfl,
    length_put _ _ _ hbl, ?_, ?_, ?_⟩
  · unfold doExport
    rw [h9]
    exact exportImplementation_of_run fs enc .V9 (by decide) 9 codecAvailable map hF hrun
  · unfold doExport
    rw [h10]
    exact exportImplementation_of_run fs enc .V9 (by decide) 10 codecAvailable map hF hput
  · intro j hj
    exact getElem?_put_outside _ _ _ _ hbl (by rw [length_natToLe]; exact hj)
  · rw [hver]; rfl
  · have := mid_put_same buf (fs.format .V9).versionOff (natToLe 2 10) hbl
    rw [length_natToLe] at this
    rw [this]; rfl

/-- Witness for C15: the exports of the sample map with the default versions 9
and 10. -/
theorem export_v10_as_v9_witness :
    ∃ bytes9 bytes10 warnings,
      doExport sampleFormats sampleEncoders 9 none true sampleMap = .written bytes9 warnings ∧
      doExport sampleFormats sampleEncoders 10 none true sampleMap =
        .written bytes10 warnings ∧
      bytes10 = put bytes9 (sampleFormats.format .V9).versionOff (natToLe 2 10) ∧
      bytes10.length = bytes9.length ∧
      (∀ j, j < (sampleFormats.format .V9).versionOff ∨
          (sampleFormats.format .V9).versionOff + 2 ≤ j → bytes10[j]? = bytes9[j]?) ∧
      leToNat (mid bytes9 (sampleFormats.format .V9).versionOff 2) = 9 ∧
      leToNat (mid bytes10 (sampleFormats.format .V9).versionOff 2) = 10 :=
  export_v10_as_v9 sampleFormats sampleEncoders 9 10 none none true sampleMap rfl rfl
    sample_exportWF_v9 (by decide)

end OcdFileExport

namespace OcdFile

open OcdEntityIndex

/-! ### The entries stored by the calls -/

/-- The entry returned by a call is a place of its chain: entry `j % 256` of
block number `j / 256`, for some `j` below the number of entities of the
chain. -/
theorem RunInv.entry_slot {F : Format} {calls : List InsertCall} {buf : QByteArray}
    {recs : List Inserted} {regs : List Region} (hR : RunInv F calls buf recs regs)
    {k : Nat} {call : InsertCall} {r : Inserted}
    (hc : calls[k]? = some call) (hr : recs[k]? = some r) :
    ∃ j, j < (entitiesOf call.chain regs).length ∧
      r.entry = entryOff (F.entry call.chain)
        ((blocksOf call.chain regs).getD (j / 256) 0) (j % 256) := by
  have hz : (List.zip calls recs)[k]? = some (call, r) :=
    List.getElem?_zip_eq_some.mpr ⟨hc, hr⟩
  have hmem : r ∈ (List.zip calls recs).filterMap
      fun cr => if cr.1.chain = call.chain then some cr.2 else none := by
    rw [List.mem_filterMap]
    exact ⟨(call, r), List.getElem?_mem hz, by simp⟩
  rw [← hR.views call.chain] at hmem
  unfold chainView at hmem
  rw [List.mem_map] at hmem
  obtain ⟨j, hj, hjr⟩ := hmem
  rw [List.mem_range] at hj
  exact ⟨j, hj, by rw [← hjr]⟩

end OcdFile

namespace OcdEntityIndex

/-- An entry in use of a document is a range inside the buffer that lies
behind the member `next_block` of its block; it lies in the last block of the
chain `c` only when it is an entry of that chain in its last block, and
otherwise it does not overlap that block. -/
theorem used_entry_range {F : Format} {buf : QByteArray} {regs : List Region}
    (hI : Inv F buf regs) (c d : Chain) (j : Nat) (hj : j < (entitiesOf d regs).length) :
    entryOff (F.entry d) ((blocksOf d regs).getD (j / 256) 0) (j % 256) + (F.entry d).size ≤
      buf.length ∧
    ((d = c ∧ j / 256 = (blocksOf c regs).length - 1) ∨
      entryOff (F.entry d) ((blocksOf d regs).getD (j / 256) 0) (j % 256) + (F.entry d).size ≤
        (blocksOf c regs).getD ((blocksOf c regs).length - 1) 0 ∨
      (blocksOf c regs).getD ((blocksOf c regs).length - 1) 0 + blockSize (F.entry c) ≤
        entryOff (F.entry d) ((blocksOf d regs).getD (j / 256) 0) (j % 256)) := by
  have hD := hI.chain d
  have hC := hI.chain c
  have hk : j / 256 < (blocksOf d regs).length := by
    have := hD.count_le; omega
  have hm := hC.nonempty
  obtain ⟨hmem, hlo, hhi⟩ := hI.block_bounds hk
  obtain ⟨hmemt, hlot, hhit⟩ := hI.block_bounds (c := c) (k := (blocksOf c regs).length - 1)
    (by omega)
  have hin := entry_in_block (F.entry d) ((blocksOf d regs).getD (j / 256) 0) (j % 256)
    (Nat.mod_lt _ (by decide))
  have hge : (blocksOf d regs).getD (j / 256) 0 + 4 ≤
      entryOff (F.entry d) ((blocksOf d regs).getD (j / 256) 0) (j % 256) := by
    unfold entryOff; omega
  refine ⟨by omega, ?_⟩
  by_cases hsame : (⟨(blocksOf d regs).getD (j / 256) 0, .block d⟩ : Region) =
      ⟨(blocksOf c regs).getD ((blocksOf c regs).length - 1) 0, .block c⟩
  · left
    simp only [Region.mk.injEq, Seg.block.injEq] at hsame
    obtain ⟨hst, hdc⟩ := hsame
    subst hdc
    exact ⟨rfl, hI.blocks_inj d hk (by omega) hst⟩
  · right
    have := hI.disjoint hmem hmemt hsame
    simp only [Region.size] at this
    omega

/-- A call of insert leaves every entry in use as it is. -/
theorem insert_entry_kept {F : Format} {buf : QByteArray} {regs : List Region}
    (hF : F.WF) (hI : Inv F buf regs) (hlen : buf.length < 2 ^ 31) (c : Chain)
    (data entry : List Byte) (hentry : entry.length = (F.entry c).size)
    {buf' : QByteArray} {e : Nat} (h : insert F c buf data entry = .ok buf' e)
    (d : Chain) (j : Nat) (hj : j < (entitiesOf d regs).length) :
    mid buf' (entryOff (F.entry d) ((blocksOf d regs).getD (j / 256) 0) (j % 256))
        (F.entry d).size =
      mid buf (entryOff (F.entry d) ((blocksOf d regs).getD (j / 256) 0) (j % 256))
        (F.entry d).size := by
  have hC := hI.chain c
  have hm := hC.nonempty
  have hge := hC.count_ge
  have hpos := hF.pos_in c
  have hbs4 := blockSize_pos (F.entry c)
  obtain ⟨_, hlo, hhi⟩ := hI.block_bounds (c := c) (k := (blocksOf c regs).length - 1)
    (by omega)
  obtain ⟨hin, hrel⟩ := used_entry_range hI c d j hj
  have hge4 : (blocksOf d regs).getD (j / 256) 0 + 4 ≤
      entryOff (F.entry d) ((blocksOf d regs).getD (j / 256) 0) (j % 256) := by
    unfold entryOff; omega
  rw [insert_shape hF hI hlen c data entry hentry] at h
  by_cases hroom : (entitiesOf c regs).length < 256 * (blocksOf c regs).length
  · rw [if_pos hroom] at h
    simp only [InsertResult.ok.injEq] at h
    have hi : (entitiesOf c regs).length - 256 * ((blocksOf c regs).length - 1) < 256 := by
      omega
    have hinE := entry_in_block (F.entry c)
      ((blocksOf c regs).getD ((blocksOf c regs).length - 1) 0) _ hi
    have hgeE : (blocksOf c regs).getD ((blocksOf c regs).length - 1) 0 + 4 ≤
        entryOff (F.entry c) ((blocksOf c regs).getD ((blocksOf c regs).length - 1) 0)
          ((entitiesOf c regs).length - 256 * ((blocksOf c regs).length - 1)) := by
      unfold entryOff; omega
    rw [← h.1]
    apply mid_placed_old hentry hpos (by omega) _ _ hin
    rcases hrel with ⟨hdc, hblk⟩ | hdis
    · subst hdc
      rw [hblk]
      exact entry_disjoint (F.entry d) _ _ _ (by omega)
    · omega
  · rw [if_neg hroom] at h
    simp only [InsertResult.ok.injEq] at h
    have hb4 : (blocksOf c regs).getD ((blocksOf c regs).length - 1) 0 + 4 ≤ buf.length := by
      omega
    have hlg : (grown (F.entry c) buf
        ((blocksOf c regs).getD ((blocksOf c regs).length - 1) 0)).length =
        buf.length + blockSize (F.entry c) := length_grown hb4
    have hinE := entry_in_block (F.entry c) buf.length 0 (by decide)
    have he0 : entryOff (F.entry c) buf.length 0 = buf.length + 4 := by
      unfold entryOff; omega
    rw [← h.1, mid_placed_old hentry hpos (by rw [hlg]; exact hinE) _ _ (by rw [hlg]; omega)
      (Or.inl (by rw [he0]; omega))]
    apply mid_grown_old hb4 _ _ hin
    rcases hrel with ⟨hdc, hblk⟩ | hdis
    · subst hdc
      rw [hblk] at hge4 ⊢
      omega
    · omega

end OcdEntityIndex

namespace OcdEntityIndex

/-- The entry filled by a call of insert holds the entry argument with its
member `pos` set. -/
theorem insert_entry_stored {F : Format} {buf : QByteArray} {regs : List Region}
    (hF : F.WF) (hI : Inv F buf regs) (hlen : buf.length < 2 ^ 31) (c : Chain)
    (data entry : List Byte) (hentry : entry.length = (F.entry c).size)
    {buf' : QByteArray} {e p : Nat} (h : insert F c buf data entry = .ok buf' e)
    (hp : readU32 buf' (e + (F.entry c).posOff) = some p) :
    mid buf' e (F.entry c).size = put entry (F.entry c).posOff (natToLe 4 p) := by
  have hC := hI.chain c
  have hm := hC.nonempty
  have hge := hC.count_ge
  have hpos := hF.pos_in c
  have hbs4 := blockSize_pos (F.entry c)
  obtain ⟨_, hlo, hhi⟩ := hI.block_bounds (c := c) (k := (blocksOf c regs).length - 1)
    (by omega)
  rw [insert_shape hF hI hlen c data entry hentry] at h
  by_cases hroom : (entitiesOf c regs).length < 256 * (blocksOf c regs).length
  · rw [if_pos hroom] at h
    simp only [InsertResult.ok.injEq] at h
    have hi : (entitiesOf c regs).length - 256 * ((blocksOf c regs).length - 1) < 256 := by
      omega
    have hinE := entry_in_block (F.entry c)
      ((blocksOf c regs).getD ((blocksOf c regs).length - 1) 0) _ hi
    rw [← h.1, ← h.2] at hp
    have hq := @readU32_placed_pos (F.entry c) buf
      ((blocksOf c regs).getD ((blocksOf c regs).length - 1) 0)
      ((entitiesOf c regs).length - 256 * ((blocksOf c regs).length - 1)) data entry
      hentry hpos (by omega)
    unfold entryPosOff at hq
    rw [hp] at hq
    simp only [Option.some.injEq] at hq
    rw [← h.1, ← h.2, hq]
    exact mid_placed_entry hentry hpos (by omega)
  · rw [if_neg hroom] at h
    simp only [InsertResult.ok.injEq] at h
    have hb4 : (blocksOf c regs).getD ((blocksOf c regs).length - 1) 0 + 4 ≤ buf.length := by
      omega
    have hlg : (grown (F.entry c) buf
        ((blocksOf c regs).getD ((blocksOf c regs).length - 1) 0)).length =
        buf.length + blockSize (F.entry c) := length_grown hb4
    have hinE := entry_in_block (F.entry c) buf.length 0 (by decide)
    rw [← h.1, ← h.2] at hp
    have hq := @readU32_placed_pos (F.entry c) (grown (F.entry c) buf
      ((blocksOf c regs).getD ((blocksOf c regs).length - 1) 0)) buf.length 0 data entry
      hentry hpos (by rw [hlg]; exact hinE)
    unfold entryPosOff at hq
    rw [hp] at hq
    simp only [Option.some.injEq] at hq
    rw [← h.1, ← h.2, hq]
    exact mid_placed_entry hentry hpos (by rw [hlg]; exact hinE)

end OcdEntityIndex

namespace OcdFile

open OcdEntityIndex

/-- After a sequence of calls of insert on a buffer that has the layout of a
fresh file, the entry that each call returned holds the entry argument of the
call with its member `pos` set. -/
theorem run_entries {F : Format} (hF : F.WF) (b0 : QByteArray) (hI0 : Inv F b0 (freshRegs F))
    (calls : List InsertCall)
    (hentry : ∀ call, call ∈ calls → call.entry.length = (F.entry call.chain).size)
    (hsize : expectedLength F calls < 2 ^ 31) :
    ∃ buf recs regs, run F b0 calls = some (buf, recs) ∧ RunInv F calls buf recs regs ∧
      ∀ (k : Nat) (call : InsertCall) (r : Inserted),
        calls[k]? = some call → recs[k]? = some r →
        mid buf r.entry (F.entry call.chain).size =
          put call.entry (F.entry call.chain).posOff (natToLe 4 r.pos) := by
  induction calls using List.reverseRecOn with
  | nil =>
    obtain ⟨buf, recs, regs, hrun, hR, _⟩ := run_from hF b0 hI0 [] hentry hsize
    exact ⟨buf, recs, regs, hrun, hR, fun k call r hc _ => by simp at hc⟩
  | append_singleton calls call ih =>
    have hsn := expectedLength_snoc F calls call
    obtain ⟨buf, recs, regs, hrun, hR, hE⟩ := ih
      (fun c hc => hentry c (List.mem_append_left _ hc)) (by omega)
    have hlen : buf.length < 2 ^ 31 := by rw [hR.length_eq]; omega
    have hce := hentry call (List.mem_append_right _ (List.mem_singleton_self _))
    obtain ⟨buf', e, p, pre, hins, hread, _, _, _, _, _⟩ :=
      insert_inv hF hR.inv hlen call.chain call.entity_data call.entry hce
    have hcall : insertCall F buf call = some (buf', { entry := e, pos := p }) := by
      unfold insertCall
      simp only [hins, hread]
    obtain ⟨buf3, recs3, regs3, hrun3, hR3, _⟩ := run_from hF b0 hI0 (calls ++ [call]) hentry hsize
    have h3 := run_snoc F _ calls call hrun hcall
    rw [hrun3] at h3
    simp only [Option.some.injEq, Prod.mk.injEq] at h3
    obtain ⟨hb, hr⟩ := h3
    subst hb hr
    refine ⟨_, _, regs3, hrun3, hR3, ?_⟩
    intro k ck rk hc hr
    have hrl := hR.recs_length
    rcases Nat.lt_trichotomy k calls.length with hlt | heq | hgt
    · rw [List.getElem?_append_left hlt] at hc
      rw [List.getElem?_append_left (by omega)] at hr
      obtain ⟨j, hj, hre⟩ := hR.entry_slot hc hr
      rw [hre, insert_entry_kept hF hR.inv hlen call.chain call.entity_data call.entry hce hins
        ck.chain j hj, ← hre]
      exact hE k ck rk hc hr
    · subst heq
      rw [List.getElem?_append_right (le_refl _)] at hc
      rw [List.getElem?_append_right (by omega), ← hrl] at hr
      simp only [Nat.sub_self, List.getElem?_cons_zero, Option.some.injEq] at hc hr
      subst hc hr
      exact insert_entry_stored hF hR.inv hlen _ _ _ hce hins hread
    · rw [List.getElem?_eq_none (by simp; omega)] at hc
      exact absurd hc (by simp)

end OcdFile

namespace OcdFileExport

open OcdEntityIndex OcdFile Mapper

/-! ### The string chain of a generic export -/

/-- The entries returned by calls of which the first ones go to one chain and
the others to a different chain: walking the first chain meets the entries of
the first calls. -/
theorem filterMap_zip_chain (c : Chain) (first others : List InsertCall) (recs : List Inserted)
    (hlen : recs.length = (first ++ others).length)
    (h1 : ∀ call, call ∈ first → call.chain = c)
    (h2 : ∀ call, call ∈ others → call.chain ≠ c) :
    ((List.zip (first ++ others) recs).filterMap
      fun cr => if cr.1.chain = c then some cr.2 else none) = recs.take first.length := by
  rw [List.length_append] at hlen
  have hsplit : recs = recs.take first.length ++ recs.drop first.length :=
    (List.take_append_drop _ _).symm
  have htl : (recs.take first.length).length = first.length := by
    rw [List.length_take]; omega
  conv_lhs => rw [hsplit]
  rw [List.zip_append htl.symm, List.filterMap_append]
  have e1 : ((List.zip first (recs.take first.length)).filterMap
      fun cr => if cr.1.chain = c then some cr.2 else none) = recs.take first.length := by
    have hall : ∀ cr, cr ∈ List.zip first (recs.take first.length) →
        (if cr.1.chain = c then some cr.2 else none) = some cr.2 := by
      intro cr hcr
      rw [if_pos (h1 cr.1 (List.of_mem_zip hcr).1)]
    rw [List.filterMap_congr hall]
    show List.filterMap (some ∘ Prod.snd) _ = _
    rw [List.filterMap_eq_map, List.map_snd_zip _ _ (by rw [htl])]
  have e2 : ((List.zip others (recs.drop first.length)).filterMap
      fun cr => if cr.1.chain = c then some cr.2 else none) = [] := by
    rw [List.filterMap_eq_nil_iff]
    intro cr hcr
    rw [if_neg (h2 cr.1 (List.of_mem_zip hcr).1)]
  rw [e1, e2, List.append_nil]

/-- The string chain of the document written by the generic path of
`exportImplementation`. -/
theorem exportImplementation_strings (fs : Formats) (enc : Encoders) (id : FormatId)
    (hid : id ≠ .V8) (actual_version : Nat) (codecAvailable : Bool) (map : Map)
    (hW : ExportWF fs enc id)
    (hsize : expectedLength (fs.format id) (exportCalls fs enc id map) < 2 ^ 31) :
    ∃ bytes head entries,
      exportImplementation fs enc id actual_version codecAvailable map =
        .written bytes (startWarnings fs id codecAvailable ++ [.spotColorIgnored]) ∧
      firstBlock (fs.format id) .strings bytes = some head ∧
      chainEntries bytes (fs.format id).stringEntry (bytes.length + 1) head = some entries ∧
      entries.length = map.colors.length + 1 ∧
      ∀ (k : Nat) (r : Inserted) (type : Nat) (string : List Byte),
        entries[k]? = some r →
        (k = 0 ∧ type = 1039 ∧ string = enc.string1039 map (fs.format id).version) ∨
          (∃ color, map.colors[k - 1]? = some color ∧ 0 < k ∧ type = 9 ∧
            string = enc.string9 color) →
        r.pos ≠ 0 ∧
        mid bytes r.entry (fs.format id).stringEntry.size =
          put (enc.stringInsert type string).2 (fs.format id).stringEntry.posOff
            (natToLe 4 r.pos) ∧
        mid bytes r.pos (enc.stringInsert type string).1.length =
          (enc.stringInsert type string).1 := by
  have hF := hW.format_wf
  have hentry := exportCalls_entry map hW
  have hfresh := freshLength_lt hsize
  have hS := headerState_start hF hfresh hW.subversion_init actual_version
  obtain ⟨buf, recs, regs, hrun, hR, hE⟩ := run_entries hF _ hS.inv _ hentry hsize
  have hexp := exportImplementation_of_run fs enc id hid actual_version codecAvailable map hF hrun
  have hlenb : buf.length < 2 ^ 31 := by rw [hR.length_eq]; exact hsize
  obtain ⟨hhead, hwalk⟩ := chainEntries_inv hF hR.inv hlenb .strings
  have hcalls : exportCalls fs enc id map =
      (georeferencingCalls enc map (fs.format id).version ++ colorCalls enc map) ++
        symbolCalls enc map := by
    cases id with
    | V8 => exact absurd rfl hid
    | V9 | V11 | V12 => rfl
  have hfl : (georeferencingCalls enc map (fs.format id).version ++ colorCalls enc map).length =
      map.colors.length + 1 := by
    simp [georeferencingCalls, colorCalls]
  have hview : chainView (fs.format id).stringEntry (blocksOf .strings regs)
      (entitiesOf .strings regs) = recs.take (map.colors.length + 1) := by
    have := hR.views .strings
    rw [hcalls] at this
    rw [← hfl]
    rw [← filterMap_zip_chain .strings _ (symbolCalls enc map) recs
      (by rw [hR.recs_length, hcalls])
      (fun call hc => by
        simp only [List.mem_append, georeferencingCalls, List.mem_singleton, colorCalls,
          List.mem_map] at hc
        rcases hc with rfl | ⟨color, _, rfl⟩ <;> rfl)
      (fun call hc => by
        unfold symbolCalls at hc
        rw [List.mem_filterMap] at hc
        obtain ⟨symbol, _, h⟩ := hc
        split at h
        · simp only [Option.some.injEq] at h
          rw [← h]
          simp [symbolCall]
        · simp at h)]
    exact this
  have hrl : map.colors.length + 1 ≤ recs.length := by
    rw [hR.recs_length, hcalls, List.length_append, hfl]
    omega
  refine ⟨buf, _, recs.take (map.colors.length + 1), hexp, hhead, ?_, ?_, ?_⟩
  · exact hwalk.trans (congrArg some hview)
  · rw [List.length_take]; omega
  · intro k r type string hk hcase
    have hkl : k < map.colors.length + 1 := by
      by_contra hn
      rw [List.getElem?_eq_none (by rw [List.length_take]; omega)] at hk
      exact absurd hk (by simp)
    rw [List.getElem?_take_of_lt hkl] at hk
    have hck : (exportCalls fs enc id map)[k]? = some (stringCall enc type string) := by
      rw [hcalls, List.getElem?_append_left (by rw [hfl]; exact hkl)]
      rcases hcase with ⟨rfl, rfl, rfl⟩ | ⟨color, hcol, hpos, rfl, rfl⟩
      · unfold georeferencingCalls
        rw [List.singleton_append, List.getElem?_cons_zero]
      · have hk1 : k = (k - 1) + 1 := by omega
        rw [hk1]
        unfold georeferencingCalls colorCalls
        rw [List.singleton_append, List.getElem?_cons_succ, List.getElem?_map, hcol]
        rfl
    have h1 := hE k _ r hck hk
    have h2 := hR.entity_at hF hck hk
    exact ⟨h2.1, h1, h2.2.2⟩

end OcdFileExport

namespace OcdFileExport

open OcdEntityIndex OcdFile Mapper

end OcdFileExport

namespace OcdFileExport

open Mapper

/-- A composite number that `symbolNumber` returns lies in the range of `int`. -/
theorem symbolNumber_range {factor : Int} {symbol : Symbol} {n : Int}
    (h : symbolNumber factor symbol = some n) : -2 ^ 31 ≤ n ∧ n < 2 ^ 31 := by
  unfold symbolNumber at h
  simp only [inInt] at h
  split at h
  · rename_i h1
    split at h
    · split at h
      · exact absurd h (by simp)
      · split at h
        · rename_i h2
          simp only [Option.some.injEq] at h
          subst h
          simpa using h2
        · exact absurd h (by simp)
    · simp only [Option.some.injEq] at h
      subst h
      simpa using h1
  · exact absurd h (by simp)

/-- A `number` field of at least 32 bits never holds 0 after `setupBaseSymbol`:
a composite other than 0 in the range of `int` is not a multiple of `2 ^ bits`. -/
theorem setupBaseSymbol_wide_field (B : BaseSymbolType) (description : String → List Byte)
    (symbol : Symbol) (r : OcdBaseSymbol) (hbits : 32 ≤ B.numberType.bits)
    (h : setupBaseSymbol B description symbol = some r) : r.number ≠ 0 := by
  unfold setupBaseSymbol at h
  cases hn : symbolNumber B.symbol_number_factor symbol with
  | none => simp [hn] at h
  | some n =>
    obtain ⟨hlo, hhi⟩ := symbolNumber_range hn
    simp only [hn, Option.some.injEq] at h
    subst h
    show (if n ≠ 0 then B.numberType.convert n else 1) ≠ 0
    by_cases h0 : n = 0
    · simp [h0]
    · rw [if_pos h0]
      obtain ⟨d, hd⟩ := Nat.exists_eq_add_of_le hbits
      have hp : (2 : Int) ^ B.numberType.bits = 2 ^ 32 * 2 ^ d := by
        rw [hd, pow_add]
      have hd1 : (1 : Int) ≤ 2 ^ d := one_le_pow₀ (by norm_num)
      have hbig : (2 : Int) ^ 32 ≤ 2 ^ B.numberType.bits := by
        rw [hp]; nlinarith
      have hhalf : (2 : Int) ^ B.numberType.bits = 2 * 2 ^ (B.numberType.bits - 1) := by
        rw [← pow_succ']
        congr 1
        omega
      unfold IntType.convert
      by_cases hs : B.numberType.signed = true
      · rw [if_pos hs]
        rw [Int.emod_eq_of_lt (by omega) (by omega)]
        omega
      · rw [if_neg hs]
        intro hz
        have hdvd := Int.dvd_of_emod_eq_zero hz
        obtain ⟨q, hq⟩ := hdvd
        rcases lt_trichotomy q 0 with hq0 | hq0 | hq0
        · have : q ≤ -1 := by omega
          nlinarith
        · subst hq0
          simp at hq
          exact h0 hq
        · have : 1 ≤ q := by omega
          nlinarith

/-- C21 (at the failing input): the symbol number 6553.6 with the factor 10
gives the composite 65536, which lies in the range of `int` and is not 0, and
for a base symbol whose `number` is an unsigned 16 bit field `setupBaseSymbol`
stores 0 in it. -/
theorem setupBaseSymbol_stores_zero :
    symbolNumber sampleBaseSymbolType.symbol_number_factor wrappingSymbol = some 65536 ∧
    (setupBaseSymbol sampleBaseSymbolType (fun _ => []) wrappingSymbol).map
      (fun r => r.number) = some 0 := by
  constructor <;> decide

end OcdFileExport

namespace Mapper

/-- C27 (amended): `operator==` returns true exactly when every one of the four
components of the two values differs by at most `epsilon`, so it returns true
for a value and itself, and `operator!=` returns the negation of `operator==`. -/
theorem operator_eq_iff (a b : MapColorCmyk) :
    (MapColorCmyk.operator_eq a b = true ↔
      |a.c - b.c| ≤ MapColorCmyk.epsilon ∧ |a.m - b.m| ≤ MapColorCmyk.epsilon ∧
      |a.y - b.y| ≤ MapColorCmyk.epsilon ∧ |a.k - b.k| ≤ MapColorCmyk.epsilon) ∧
    MapColorCmyk.operator_eq a a = true ∧
    MapColorCmyk.operator_ne a b = !MapColorCmyk.operator_eq a b := by
  refine ⟨?_, ?_, rfl⟩
  · simp only [MapColorCmyk.operator_eq, Bool.and_eq_true, decide_eq_true_eq, and_assoc]
  · simp only [MapColorCmyk.operator_eq, MapColorCmyk.epsilon, sub_self, abs_zero,
      Bool.and_eq_true, decide_eq_true_eq, and_self]
    norm_num

/-- Counterexample for C27: two values whose cyan components 0 and 0.0001 are
not equal, for which `operator==` returns true and `operator!=` returns false. -/
theorem operator_eq_counterexample :
    (⟨0, 0, 0, 0⟩ : MapColorCmyk).c ≠ (⟨1 / 10000, 0, 0, 0⟩ : MapColorCmyk).c ∧
    MapColorCmyk.operator_eq ⟨0, 0, 0, 0⟩ ⟨1 / 10000, 0, 0, 0⟩ = true ∧
    MapColorCmyk.operator_ne ⟨0, 0, 0, 0⟩ ⟨1 / 10000, 0, 0, 0⟩ = false := by
  refine ⟨by norm_num, ?_, ?_⟩
  · simp only [MapColorCmyk.operator_eq, MapColorCmyk.epsilon, Bool.and_eq_true,
      decide_eq_true_eq]
    norm_num [abs_le]
  · simp only [MapColorCmyk.operator_ne, MapColorCmyk.operator_eq, MapColorCmyk.epsilon,
      Bool.not_eq_false', Bool.and_eq_true, decide_eq_true_eq]
    norm_num [abs_le]

end Mapper

namespace OcdFileExport

open Mapper

/-- The function `qRound` rounds to the nearest integer, a half upwards, also
for a negative value. -/
theorem qRound_eq_floor (d : ℚ) : qRound d = ⌊d + 1 / 2⌋ := by
  by_cases h : 0 ≤ d
  · exact qRound_of_nonneg h
  · unfold qRound
    rw [if_neg h]
    have h1 : truncate (d - 1) = ⌈d⌉ - 1 := by
      unfold truncate
      rw [if_neg (by linarith)]
      rw [Int.ceil_sub_one]
    rw [h1]
    have hc1 := Int.ceil_lt_add_one d
    have hc2 := Int.le_ceil d
    have h2 : truncate (d - ((⌈d⌉ - 1 : Int) : ℚ) + 1 / 2) = ⌊d + 1 / 2⌋ - (⌈d⌉ - 1) := by
      unfold truncate
      rw [if_pos (by push_cast; linarith)]
      have : d - ((⌈d⌉ - 1 : Int) : ℚ) + 1 / 2 = d + 1 / 2 - ((⌈d⌉ - 1 : Int) : ℚ) := by ring
      rw [this, Int.floor_sub_int]
    rw [h2]
    ring

theorem fixedNotation_zero : fixedNotation 2 0 = "0.00" := by decide

/-- The text that `makeString1039` writes for a version up to 9. -/
theorem makeString1039_eq (map : Map) (version : Nat) :
    makeString1039 map version =
      "\tm" ++ toString map.georeferencing.scaleDenominator ++
        "\tg" ++ fixedNotation 4 (gridSpacing map).2 ++
        "\tr" ++ toString (1 : Int) ++
        "\tx" ++ toString (qRound map.georeferencing.toProjectedCoordsOriginX) ++
        "\ty" ++ toString (qRound map.georeferencing.toProjectedCoordsOriginY) ++
        "\ta" ++ fixedNotation 8 map.georeferencing.grivation ++
        "\td" ++ fixedNotation 6 (gridSpacing map).1 ++
        "\ti" ++ toString (0 : Int) ++
        (if version > 9 then "\tb0.00\tc0.00" else "") := by
  unfold makeString1039
  simp only [QTextStream.putString, QTextStream.putInt, QTextStream.putUInt,
    QTextStream.putReal, String.empty_append]
  by_cases hv : version > 9
  · simp only [if_pos hv, fixedNotation_zero, String.append_assoc]
    rfl
  · simp only [if_neg hv, String.append_empty]

/-- The text of a version above 9 is the text of version 9 followed by the two
fields that are always zero. -/
theorem makeString1039_above (map : Map) (version : Nat) (hv : 9 < version) :
    makeString1039 map version = makeString1039 map 9 ++ "\tb0.00\tc0.00" := by
  rw [makeString1039_eq, makeString1039_eq map 9, if_pos hv, if_neg (by decide),
    String.append_empty]

theorem makeString1039_upto (map : Map) (version : Nat) (hv : version ≤ 9) :
    makeString1039 map version = makeString1039 map 9 := by
  rw [makeString1039_eq, makeString1039_eq map 9, if_neg (by omega), if_neg (by decide)]

/-- The text of version 9 ends with the field `i` and therefore not with the
fields `b` and `c`. -/
theorem makeString1039_nine (map : Map) :
    "\ti0".toList <:+ (makeString1039 map 9).toList ∧
    ¬ "\tb0.00\tc0.00".toList <:+ (makeString1039 map 9).toList := by
  have h1 : "\ti0".toList <:+ (makeString1039 map 9).toList := by
    rw [makeString1039_eq, if_neg (by decide), String.append_empty, String.append_assoc]
    simp only [String.toList, String.data_append]
    exact List.suffix_append _ _
  refine ⟨h1, fun h2 => ?_⟩
  rcases List.suffix_or_suffix_of_suffix h1 h2 with h | h
  · revert h; decide
  · revert h; decide

end OcdFileExport

namespace OcdFile

open OcdEntityIndex

/-! ### The regions of a document behind the fresh image -/

/-- One more call on a document that satisfies the invariant of a run. -/
theorem RunInv.snoc {F : Format} {calls : List InsertCall} {buf : QByteArray}
    {recs : List Inserted} {regs : List Region} (hR : RunInv F calls buf recs regs)
    (call : InsertCall) {final : QByteArray} {e p : Nat} {pre : List Region}
    (hI : Inv F final (regs ++ pre ++ [⟨p, .entity call.chain call.entity_data⟩]))
    (hpre : (pre = [] ∧
        (entitiesOf call.chain regs).length < 256 * (blocksOf call.chain regs).length) ∨
      (pre = [⟨buf.length, .block call.chain⟩] ∧
        (entitiesOf call.chain regs).length = 256 * (blocksOf call.chain regs).length))
    (hp : p = buf.length + (pre.map (Region.size F)).sum)
    (hlen : final.length = p + call.entity_data.length)
    (he : e = entryOff (F.entry call.chain)
      ((blocksOf call.chain (regs ++ pre)).getD ((entitiesOf call.chain regs).length / 256) 0)
      ((entitiesOf call.chain regs).length % 256)) :
    RunInv F (calls ++ [call]) final (recs ++ [{ entry := e, pos := p }])
      (regs ++ pre ++ [⟨p, .entity call.chain call.entity_data⟩]) := by
  have hsn := expectedLength_snoc F calls call
  have hC := hR.inv.chain call.chain
  have hT := hR.tight call.chain
  have hN := hR.count call.chain
  have hpreE : ∀ d, entitiesOf d pre = [] := by
    intro d
    rcases hpre with ⟨rfl, _⟩ | ⟨rfl, _⟩
    · rfl
    · exact entitiesOf_block _ _ _
  have hpreR : entityRegs pre = [] := by
    rcases hpre with ⟨rfl, _⟩ | ⟨rfl, _⟩
    · rfl
    · exact entityRegs_block _ _
  refine ⟨hI, tight_step hR.tight hpre hC.count_ge, ?_, ?_, ?_, ?_, ?_⟩
  · rw [hlen, hp, hsn, hR.length_eq]
    have hle := hC.count_le
    have hm := hC.nonempty
    rcases hpre with ⟨rfl, hroom⟩ | ⟨rfl, hfull⟩
    · rw [if_neg (by omega)]
      simp
    · rw [if_pos (by omega)]
      simp [Region.size]
  · intro d
    rw [entitiesOf_append, entitiesOf_append, hpreE, List.append_nil, entitiesOf_entity,
      List.length_append, hR.count d, callsOf_snoc]
    by_cases hd : call.chain = d <;> simp [hd]
  · simp only [List.length_append, List.length_singleton, hR.recs_length]
  · rw [entityRegs_append, entityRegs_append, hpreR, List.append_nil, entityRegs_entity,
      hR.entities, List.zipWith_append _ _ _ _ _ hR.recs_length.symm]
    rfl
  · intro d
    rw [chainView_step F hpre hC.count_le d, hR.views d,
      List.zip_append hR.recs_length.symm, List.filterMap_append, ← he]
    by_cases hd : call.chain = d <;> simp [hd]

theorem freshLength_le_expectedLength (F : Format) (calls : List InsertCall) :
    freshLength F ≤ expectedLength F calls := by
  rw [← expectedLength_nil F]
  induction calls using List.reverseRecOn with
  | nil => exact le_refl _
  | append_singleton calls call ih =>
    have := expectedLength_snoc F calls call
    omega

/-- A sequence of calls on a document with the layout of a fresh file leaves the
three first blocks in front of every other region: every region that the calls
add starts at or behind the end of the fresh image. -/
theorem run_prefix {F : Format} (hF : F.WF) (b0 : QByteArray) (hI0 : Inv F b0 (freshRegs F))
    (calls : List InsertCall)
    (hentry : ∀ call, call ∈ calls → call.entry.length = (F.entry call.chain).size)
    (hsize : expectedLength F calls < 2 ^ 31) :
    ∃ buf recs rest, run F b0 calls = some (buf, recs) ∧
      RunInv F calls buf recs (freshRegs F ++ rest) ∧
      (∀ r, r ∈ rest → freshLength F ≤ r.start) ∧
      ∀ j, j < F.imageStart → buf[j]? = b0[j]? := by
  induction calls using List.reverseRecOn with
  | nil =>
    obtain ⟨buf, recs, regs, hrun, hR, hlow⟩ := run_from hF b0 hI0 [] hentry hsize
    simp only [run, Option.some.injEq, Prod.mk.injEq] at hrun
    obtain ⟨rfl, rfl⟩ := hrun
    refine ⟨b0, [], [], rfl, ?_, by simp, fun _ _ => rfl⟩
    rw [List.append_nil]
    refine ⟨hI0, fresh_tight F, hR.length_eq, ?_, rfl, ?_, ?_⟩
    · intro c
      cases c <;> simp [entitiesOf, freshRegs, callsOf]
    · simp [entityRegs, freshRegs]
    · intro c
      cases c <;> simp [chainView, entitiesOf, freshRegs]
  | append_singleton calls call ih =>
    have hsn := expectedLength_snoc F calls call
    obtain ⟨buf, recs, rest, hrun, hR, hrest, hlow⟩ := ih
      (fun c hc => hentry c (List.mem_append_left _ hc)) (by omega)
    have hlen : buf.length < 2 ^ 31 := by rw [hR.length_eq]; omega
    have hfl : freshLength F ≤ buf.length := by
      rw [hR.length_eq]; exact freshLength_le_expectedLength F calls
    obtain ⟨buf', e, p, pre, hins, hread, hI', hpre, hp, hlen', he⟩ :=
      insert_inv hF hR.inv hlen call.chain call.entity_data call.entry
        (hentry call (List.mem_append_right _ (List.mem_singleton_self _)))
    have hlow2 : ∀ j, j < F.imageStart → buf'[j]? = b0[j]? := fun j hj =>
      (insert_low hF hR.inv hlen call.chain call.entity_data call.entry
        (hentry call (List.mem_append_right _ (List.mem_singleton_self _))) hins j hj).trans
        (hlow j hj)
    have hcall : insertCall F buf call = some (buf', { entry := e, pos := p }) := by
      unfold insertCall
      simp only [hins, hread]
    have hS := hR.snoc call hI' hpre hp hlen' he
    refine ⟨buf', recs ++ [{ entry := e, pos := p }],
      rest ++ pre ++ [⟨p, .entity call.chain call.entity_data⟩],
      run_snoc F _ calls call hrun hcall, ?_, ?_, hlow2⟩
    · rw [← List.append_assoc, ← List.append_assoc]
      exact hS
    · intro r hr
      rw [List.mem_append, List.mem_append, List.mem_singleton] at hr
      rcases hr with (hr | hr) | hr
      · exact hrest r hr
      · rcases hpre with ⟨rfl, _⟩ | ⟨rfl, _⟩
        · simp at hr
        · rw [List.mem_singleton] at hr
          subst hr
          exact hfl
      · subst hr
        show freshLength F ≤ p
        omega

theorem blocksOf_fresh (F : Format) (c : Chain) (rest : List Region) :
    blocksOf c (freshRegs F ++ rest) = firstBlockPos F c :: blocksOf c rest := by
  rw [blocksOf_append]
  cases c <;> simp [blocksOf, freshRegs, firstBlockPos]

theorem entitiesOf_fresh (F : Format) (c : Chain) (rest : List Region) :
    entitiesOf c (freshRegs F ++ rest) = entitiesOf c rest := by
  rw [entitiesOf_append]
  cases c <;> simp [entitiesOf, freshRegs]

end OcdFile

namespace OcdEntityIndex

/-- The offsets that the walk of a chain of a document examines are the blocks
of the chain, in their order, and the walk ends behind the last of them. -/
theorem walkPos_chain {F : Format} {buf : QByteArray} {regs : List Region}
    (hF : F.WF) (hI : Inv F buf regs) (hlen : buf.length < 2 ^ 31) (c : Chain)
    (k j : Nat) (hj : j < (blocksOf c regs).length) :
    walkPos buf (blockSize (F.entry c)) k ((blocksOf c regs).getD j 0) =
      if j + k < (blocksOf c regs).length then some ((blocksOf c regs).getD (j + k) 0)
      else none := by
  have hC := hI.chain c
  have h4 := Format.WF.imageStart_pos hF
  have hbs := blockSize_pos (F.entry c)
  induction k generalizing j with
  | zero => rw [if_pos (by omega)]; rfl
  | succ k ih =>
    obtain ⟨_, hlo, hhi⟩ := hI.block_bounds (c := c) (k := j) hj
    have hres : (getBlockChecked buf ((blocksOf c regs).getD j 0)
        (blockSize (F.entry c))).block = some ((blocksOf c regs).getD j 0) := by
      rw [getBlockChecked_inside hlen (by omega) (by omega) hhi]
    have hl := hC.link j hj
    rw [walkPos_succ, hres]
    simp only [hl]
    by_cases hnext : j + 1 < (blocksOf c regs).length
    · obtain ⟨_, hlo', _⟩ := hI.block_bounds (c := c) (k := j + 1) hnext
      rw [if_pos hnext, if_pos (by omega), ih (j + 1) hnext,
        show j + (k + 1) = j + 1 + k by omega]
    · rw [if_neg hnext, if_neg (by simp), if_neg (by omega)]

end OcdEntityIndex

namespace OcdFile

open OcdEntityIndex

/-- A block met by the walk of a chain is a block of the chain, and a
`next_block` other than 0 is the offset of a block behind the fresh image that
lies inside the buffer. -/
theorem Inv.walk_blocks {F : Format} {buf : QByteArray} {rest : List Region}
    (hF : F.WF) (hI : Inv F buf (freshRegs F ++ rest))
    (hrest : ∀ r, r ∈ rest → freshLength F ≤ r.start) (hlen : buf.length < 2 ^ 31)
    (c : Chain) {k b : Nat}
    (hwalk : walkPos buf (blockSize (F.entry c)) k (firstBlockPos F c) = some b) :
    b ≠ 0 ∧ b + blockSize (F.entry c) ≤ buf.length ∧
    getBlockChecked buf b (blockSize (F.entry c)) = { block := some b, warned := false } ∧
    ∃ next, readU32 buf b = some next ∧
      (next ≠ 0 → freshLength F ≤ next ∧ next + blockSize (F.entry c) ≤ buf.length) := by
  have hC := hI.chain c
  have h4 := Format.WF.imageStart_pos hF
  have hbs := blockSize_pos (F.entry c)
  have hbl := blocksOf_fresh F c rest
  have h0 : (blocksOf c (freshRegs F ++ rest)).getD 0 0 = firstBlockPos F c := by
    rw [hbl]; rfl
  have hw := walkPos_chain hF hI hlen c k 0 hC.nonempty
  rw [h0, hwalk, Nat.zero_add] at hw
  by_cases hk : k < (blocksOf c (freshRegs F ++ rest)).length
  · rw [if_pos hk] at hw
    simp only [Option.some.injEq] at hw
    obtain ⟨_, hlo, hhi⟩ := hI.block_bounds (c := c) (k := k) hk
    rw [← hw] at hlo hhi
    have hl := hC.link k hk
    rw [← hw] at hl
    refine ⟨by omega, hhi, getBlockChecked_inside hlen (by omega) (by omega) hhi, _, hl, ?_⟩
    intro hne
    by_cases hk1 : k + 1 < (blocksOf c (freshRegs F ++ rest)).length
    · rw [if_pos hk1]
      obtain ⟨hmem, _, hhi'⟩ := hI.block_bounds (c := c) (k := k + 1) hk1
      refine ⟨?_, hhi'⟩
      have hlr : k < (blocksOf c rest).length := by
        rw [hbl, List.length_cons] at hk1
        omega
      have hg : (blocksOf c (freshRegs F ++ rest)).getD (k + 1) 0 =
          (blocksOf c rest).getD k 0 := by
        rw [hbl]; rfl
      rw [hg]
      exact hrest _ (mem_blocksOf.mp (getD_mem hlr))
    · rw [if_neg hk1] at hne
      exact absurd rfl hne
  · rw [if_neg hk] at hw
    exact absurd hw (by simp)

end OcdFile

namespace OcdEntityIndex

end OcdEntityIndex

namespace OcdFile

open OcdEntityIndex

end OcdFile

namespace OcdFile

open OcdEntityIndex

/-- C30: for every document built from a fresh file by calls of insert whose
buffer is below `2^31` bytes, a further call of insert into any chain, with any
entity and any entry of the size of the entry type, returns normally and so
does not end in `qFatal`: the walk from the head offset ends at a tail block,
and every offset that the walk examines is not 0 and resolves, without the
warning, to a block that lies wholly inside the buffer. -/
theorem insert_not_fatal (F : Format) (hF : F.WF) (calls : List InsertCall)
    (hentry : ∀ call, call ∈ calls → call.entry.length = (F.entry call.chain).size)
    (hsize : expectedLength F calls < 2 ^ 31) :
    ∃ fresh buf recs,
      OcdFile F = some fresh ∧ run F fresh calls = some (buf, recs) ∧ buf.length < 2 ^ 31 ∧
      ∀ (c : Chain) (data entry : List Byte), entry.length = (F.entry c).size →
        (∃ final e, insert F c buf data entry = .ok final e) ∧
        (∀ b, insert F c buf data entry ≠ .fatal b) ∧
        ∃ head tail,
          firstBlock F c buf = some head ∧
          walk buf (blockSize (F.entry c)) (buf.length + 1) head = .tail tail ∧
          ∀ k b, walkPos buf (blockSize (F.entry c)) k head = some b →
            b ≠ 0 ∧ b + blockSize (F.entry c) ≤ buf.length ∧
            getBlockChecked buf b (blockSize (F.entry c)) =
              { block := some b, warned := false } := by
  have hfresh : freshLength F < 2 ^ 32 := by
    have := freshLength_le_expectedLength F calls
    omega
  obtain ⟨buf, recs, rest, hrun, hR, hrest, _⟩ :=
    run_prefix hF (image F) (fresh_inv hF hfresh) calls hentry hsize
  have hlen : buf.length < 2 ^ 31 := by rw [hR.length_eq]; exact hsize
  refine ⟨image F, buf, recs, OcdFile_eq hF, hrun, hlen, ?_⟩
  intro c data entry hce
  obtain ⟨final, e, p, pre, hins, _⟩ := insert_inv hF hR.inv hlen c data entry hce
  obtain ⟨hhead, hwalk⟩ := walk_inv hF hR.inv hlen c
  have h0 : (blocksOf c (freshRegs F ++ rest)).getD 0 0 = firstBlockPos F c := by
    rw [blocksOf_fresh]; rfl
  rw [h0] at hhead hwalk
  refine ⟨⟨final, e, hins⟩, ?_, _, _, hhead, walk_adequate hwalk (by simp), ?_⟩
  · intro b hb
    rw [hins] at hb
    exact absurd hb (by simp)
  · intro k b hw
    obtain ⟨h1, h2, h3, _⟩ := Inv.walk_blocks hF hR.inv hrest hlen c hw
    exact ⟨h1, h2, h3⟩

/-- Witness for C30: a version 9 file after two calls. -/
theorem insert_not_fatal_witness :
    ∃ fresh buf recs,
      OcdFile FormatV9 = some fresh ∧
      run FormatV9 fresh [⟨.symbols, [1, 2, 3], zeros 4⟩, ⟨.strings, [4], zeros 16⟩] =
        some (buf, recs) ∧
      buf.length < 2 ^ 31 ∧
      ∀ (c : Chain) (data entry : List Byte), entry.length = (FormatV9.entry c).size →
        (∃ final e, insert FormatV9 c buf data entry = .ok final e) ∧
        (∀ b, insert FormatV9 c buf data entry ≠ .fatal b) ∧
        ∃ head tail,
          firstBlock FormatV9 c buf = some head ∧
          walk buf (blockSize (FormatV9.entry c)) (buf.length + 1) head = .tail tail ∧
          ∀ k b, walkPos buf (blockSize (FormatV9.entry c)) k head = some b →
            b ≠ 0 ∧ b + blockSize (FormatV9.entry c) ≤ buf.length ∧
            getBlockChecked buf b (blockSize (FormatV9.entry c)) =
              { block := some b, warned := false } :=
  insert_not_fatal FormatV9 FormatV9_wf
    [⟨.symbols, [1, 2, 3], zeros 4⟩, ⟨.strings, [4], zeros 16⟩]
    (by simp [FormatV9, Format.entry, zeros]) (by decide)

end OcdFile

namespace OcdFileExport
open Mapper

/-- The function `doExport` for a version from 8 to 12 without a file name: the
call of `exportImplementation` of lines 134-150. -/
theorem doExport_version (fs : Formats) (enc : Encoders) (v : Nat)
    (hv : v = 8 ∨ v = 9 ∨ v = 10 ∨ v = 11 ∨ v = 12) (codecAvailable : Bool) (map : Map) :
    doExport fs enc v none codecAvailable map =
      exportImplementation fs enc (formatIdOf v) v codecAvailable map := by
  rcases hv with rfl | rfl | rfl | rfl | rfl <;> rfl

theorem gridSpacing_sample : gridSpacing sampleMap = (500, 20) := by
  simp only [gridSpacing, sampleMap]
  norm_num

theorem qRound_zero : qRound 0 = 0 := by
  rw [qRound_eq_floor, Int.floor_eq_iff]; norm_num

theorem makeString1039_sample (version : Nat) :
    makeString1039 sampleMap version =
      "\tm25000\tg20.0000\tr1\tx0\ty0\ta0.00000000\td500.000000\ti0" ++
        (if version > 9 then "\tb0.00\tc0.00" else "") := by
  rw [makeString1039_eq, gridSpacing_sample]
  have e1 : fixedNotation 4 ((500, 20) : ℚ × ℚ).2 = "20.0000" := by
    simp only [fixedNotation, Rat.num_ofNat, Rat.den_ofNat]
    decide
  have e2 : fixedNotation 6 ((500, 20) : ℚ × ℚ).1 = "500.000000" := by
    simp only [fixedNotation, Rat.num_ofNat, Rat.den_ofNat]
    decide
  have e3 : fixedNotation 8 sampleMap.georeferencing.grivation = "0.00000000" := by
    decide
  have e4 : qRound sampleMap.georeferencing.toProjectedCoordsOriginX = 0 := qRound_zero
  have e5 : qRound sampleMap.georeferencing.toProjectedCoordsOriginY = 0 := qRound_zero
  rw [e1, e2, e3, e4, e5]
  rfl
end OcdFileExport

namespace OcdFileExport

open Mapper

end OcdFileExport

namespace OcdFileExport

open Mapper

/-- C26: for every point symbol whose number stays in the range of `int`,
`exportPointSymbol` builds a record whose `status` is the bitwise OR of
`Ocd::SymbolProtected`, taken when the symbol is protected, and
`Ocd::SymbolHidden`, taken when it is hidden, and so is 0 when it is neither;
whose `type` is `Ocd::SymbolTypePoint`; and whose `flags` are 1 when the symbol
is rotatable and 0 otherwise.  The bytes returned are the first
`sizeof(OcdPointSymbol) - sizeof(Element)` bytes of that record. -/
theorem exportPointSymbol_record (P : PointSymbolType) (description : String → List Byte)
    (symbol : Symbol) (n : Int)
    (hn : symbolNumber P.base.symbol_number_factor symbol = some n) :
    ∃ r, exportPointSymbolRecord P description symbol = some r ∧
      exportPointSymbol P description symbol =
        some ((P.objectBytes r).take (P.size - P.elementSize)) ∧
      r.status = ((if symbol.isProtected then P.base.symbolProtected else 0) |||
        (if symbol.isHidden then P.base.symbolHidden else 0)) ∧
      (symbol.isProtected = false ∧ symbol.isHidden = false → r.status = 0) ∧
      r.type = P.symbolTypePoint ∧
      r.flags = (if symbol.isRotatable then 1 else 0) := by
  have hrec : exportPointSymbolRecord P description symbol =
      some (if symbol.isRotatable then
        { description := description symbol.name
          number := if n ≠ 0 then P.base.numberType.convert n else 1
          type := P.symbolTypePoint, flags := 0 ||| 1
          status := (if symbol.isProtected then P.base.symbolProtected else 0) |||
            (if symbol.isHidden then P.base.symbolHidden else 0) }
      else
        { description := description symbol.name
          number := if n ≠ 0 then P.base.numberType.convert n else 1
          type := P.symbolTypePoint, flags := 0
          status := (if symbol.isProtected then P.base.symbolProtected else 0) |||
            (if symbol.isHidden then P.base.symbolHidden else 0) }) := by
    unfold exportPointSymbolRecord setupBaseSymbol
    simp only [hn]
  refine ⟨_, hrec, ?_, ?_, ?_, ?_, ?_⟩
  · unfold exportPointSymbol
    rw [hrec]
  · cases symbol.isRotatable <;> rfl
  · rintro ⟨hp, hh⟩
    cases symbol.isRotatable <;> simp [hp, hh]
  · cases symbol.isRotatable <;> rfl
  · cases symbol.isRotatable <;> rfl

/-- Witness for C26: a rotatable, protected point symbol with the number 101.0
and the sample record type. -/
theorem exportPointSymbol_record_witness :
    ∃ r, exportPointSymbolRecord samplePointSymbolType latin1
        { type := .point, name := "Knoll", number0 := 101, number1 := 0, isProtected := true,
          isHidden := false, isRotatable := true } = some r ∧
      exportPointSymbol samplePointSymbolType latin1
          { type := .point, name := "Knoll", number0 := 101, number1 := 0, isProtected := true,
            isHidden := false, isRotatable := true } =
        some ((samplePointSymbolType.objectBytes r).take
          (samplePointSymbolType.size - samplePointSymbolType.elementSize)) ∧
      r.status = ((if (true : Bool) then samplePointSymbolType.base.symbolProtected else 0) |||
        (if (false : Bool) then samplePointSymbolType.base.symbolHidden else 0)) ∧
      ((true : Bool) = false ∧ (false : Bool) = false → r.status = 0) ∧
      r.type = samplePointSymbolType.symbolTypePoint ∧
      r.flags = (if (true : Bool) then 1 else 0) :=
  exportPointSymbol_record samplePointSymbolType latin1
    { type := .point, name := "Knoll", number0 := 101, number1 := 0, isProtected := true,
      isHidden := false, isRotatable := true } 1010 (by decide)

end OcdFileExport

namespace OcdFileExport

open OcdEntityIndex OcdFile Mapper

theorem text_exportWF : ExportWF sampleFormats textEncoders .V11 where
  format_wf := sampleFormats_wf
  version_eq := rfl
  subversion_init := by decide
  string_entry := by intro t s; rfl
  symbol_entry := by intro d; rfl
  layout := by intro h; exact absurd h (by decide)

theorem text_calls_v11 :
    exportCalls sampleFormats textEncoders .V11 sampleMap =
      [stringCall sampleEncoders 1039 (latin1
          "\tm25000\tg20.0000\tr1\tx0\ty0\ta0.00000000\td500.000000\ti0\tb0.00\tc0.00"),
        stringCall sampleEncoders 9 [82, 101, 100],
        symbolCall sampleEncoders (natToLe 2 1010 ++ [1, 0, 0] ++ zeros 19)] := by
  have h : textEncoders.string1039 sampleMap (sampleFormats.format .V11).version = latin1
      "\tm25000\tg20.0000\tr1\tx0\ty0\ta0.00000000\td500.000000\ti0\tb0.00\tc0.00" := by
    show latin1 (makeString1039 sampleMap 11) = _
    rw [makeString1039_sample]
    rfl
  unfold exportCalls georeferencingCalls
  simp only [h]
  rfl

theorem text_size_v11 :
    expectedLength (sampleFormats.format (formatIdOf 11))
      (exportCalls sampleFormats textEncoders (formatIdOf 11) sampleMap) < 2 ^ 31 := by
  show expectedLength (sampleFormats.format .V11)
    (exportCalls sampleFormats textEncoders .V11 sampleMap) < 2 ^ 31
  rw [text_calls_v11]
  decide

/-- C24 (amended): for every generic export of version 9, 10, 11 or 12 (the
buffer staying below `2^31` bytes) the first entry of the string chain of the
written document holds the entity that `strings().insert(1039, ...)` stores
for the text of `makeString1039` at `Format::version` of the instantiation
used.  For the versions 11 and 12 this text is the text of version 9 followed
by `\tb0.00\tc0.00`; for the versions 9 and 10 it is the text of version 9,
which ends with the field `\ti0` and not with `\tb0.00\tc0.00`. -/
theorem export_string1039_fields (fs : Formats) (enc : Encoders)
    (toOcdString : String → List Byte) (v : Nat)
    (hv : v = 9 ∨ v = 10 ∨ v = 11 ∨ v = 12) (codecAvailable : Bool) (map : Map)
    (hW : ExportWF fs enc (formatIdOf v))
    (hsize : expectedLength (fs.format (formatIdOf v))
      (exportCalls fs enc (formatIdOf v) map) < 2 ^ 31)
    (henc : ∀ version, enc.string1039 map version = toOcdString (makeString1039 map version)) :
    ∃ bytes warnings head entries r string,
      doExport fs enc v none codecAvailable map = .written bytes warnings ∧
      firstBlock (fs.format (formatIdOf v)) .strings bytes = some head ∧
      chainEntries bytes (fs.format (formatIdOf v)).stringEntry (bytes.length + 1) head =
        some entries ∧
      entries[0]? = some r ∧
      string = makeString1039 map (formatIdOf v).version ∧
      mid bytes r.pos (enc.stringInsert 1039 (toOcdString string)).1.length =
        (enc.stringInsert 1039 (toOcdString string)).1 ∧
      (v = 11 ∨ v = 12 → string = makeString1039 map 9 ++ "\tb0.00\tc0.00") ∧
      (v = 9 ∨ v = 10 →
        string = makeString1039 map 9 ∧ "\ti0".toList <:+ string.toList ∧
        ¬ "\tb0.00\tc0.00".toList <:+ string.toList) := by
  have hid : formatIdOf v ≠ .V8 := by
    rcases hv with rfl | rfl | rfl | rfl <;> decide
  have hex : doExport fs enc v none codecAvailable map =
      exportImplementation fs enc (formatIdOf v) v codecAvailable map := by
    rcases hv with rfl | rfl | rfl | rfl <;> rfl
  obtain ⟨bytes, head, entries, h1, h2, h3, h4, h5⟩ :=
    exportImplementation_strings fs enc (formatIdOf v) hid v codecAvailable map hW hsize
  have hne : 0 < entries.length := by omega
  obtain ⟨r, hr⟩ : ∃ r, entries[0]? = some r :=
    ⟨entries[0], List.getElem?_eq_getElem hne⟩
  have h6 := (h5 0 r 1039 _ hr (Or.inl ⟨rfl, rfl, rfl⟩)).2.2
  rw [hW.version_eq, henc] at h6
  refine ⟨bytes, _, head, entries, r, _, hex.trans h1, h2, h3, hr, rfl, h6, ?_, ?_⟩
  · intro h
    rcases h with rfl | rfl
    · exact makeString1039_above map _ (by decide)
    · exact makeString1039_above map _ (by decide)
  · intro h
    have e : makeString1039 map (formatIdOf v).version = makeString1039 map 9 := by
      rcases h with rfl | rfl <;> rfl
    rw [e]
    exact ⟨rfl, makeString1039_nine map⟩

/-- Witness for C24: the export of version 11 of the sample map with the texts
stored in Latin-1. -/
theorem export_string1039_fields_witness :
    ∃ bytes warnings head entries r string,
      doExport sampleFormats textEncoders (11 : Nat) none true sampleMap =
        .written bytes warnings ∧
      firstBlock (sampleFormats.format (formatIdOf 11)) .strings bytes = some head ∧
      chainEntries bytes (sampleFormats.format (formatIdOf 11)).stringEntry (bytes.length + 1)
        head = some entries ∧
      entries[0]? = some r ∧
      string = makeString1039 sampleMap (formatIdOf 11).version ∧
      mid bytes r.pos (textEncoders.stringInsert 1039 (latin1 string)).1.length =
        (textEncoders.stringInsert 1039 (latin1 string)).1 ∧
      ((11 : Nat) = 11 ∨ (11 : Nat) = 12 →
        string = makeString1039 sampleMap 9 ++ "\tb0.00\tc0.00") ∧
      ((11 : Nat) = 9 ∨ (11 : Nat) = 10 →
        string = makeString1039 sampleMap 9 ∧ "\ti0".toList <:+ string.toList ∧
        ¬ "\tb0.00\tc0.00".toList <:+ string.toList) :=
  export_string1039_fields sampleFormats textEncoders latin1 11 (by decide) true sampleMap
    text_exportWF text_size_v11 (fun _ => rfl)

/-- Counterexample for C24: the export of version 10 uses the instantiation for
`Ocd::FormatV9`, whose `Format::version` is 9, so the text that its first call
of insert stores is the text of version 9, and for the sample map this text,
`\tm25000\tg20.0000\tr1\tx0\ty0\ta0.00000000\td500.000000\ti0`, does not end
with `\tb0.00\tc0.00`. -/
theorem export_string1039_counterexample :
    doExport sampleFormats textEncoders (10 : Nat) none true sampleMap =
      exportImplementation sampleFormats textEncoders .V9 10 true sampleMap ∧
    (exportCalls sampleFormats textEncoders .V9 sampleMap)[0]? =
      some (stringCall textEncoders 1039 (latin1 (makeString1039 sampleMap 9))) ∧
    makeString1039 sampleMap 9 =
      "\tm25000\tg20.0000\tr1\tx0\ty0\ta0.00000000\td500.000000\ti0" ∧
    ¬ "\tb0.00\tc0.00".toList <:+ (makeString1039 sampleMap 9).toList := by
  refine ⟨doExport_version sampleFormats textEncoders 10 (by decide) true sampleMap, rfl, ?_,
    (makeString1039_nine sampleMap).2⟩
  rw [makeString1039_sample]
  rfl

end OcdFileExport

namespace OcdFileExport

open OcdEntityIndex OcdFile Mapper

/-! ### The symbol chain of an export -/

/-- A sequence of calls is the first call followed by the others. -/
theorem runCalls_cons (F : Format) (s : ExportState) (call : InsertCall)
    (calls : List InsertCall) :
    runCalls F s (call :: calls) =
      match runCalls F s [call] with
      | none => none
      | some next => runCalls F next calls := by
  unfold runCalls
  rw [run_cons, run_cons]
  cases h1 : insertCall F s.byte_array call with
  | none => rfl
  | some p =>
    obtain ⟨next, r⟩ := p
    simp only [run_nil]
    cases h2 : run F next calls with
    | none => rfl
    | some q => rfl

/-- The function `exportSymbols` is the loop over the symbols of the map. -/
theorem exportSymbols_loop (F : Format) (enc : Encoders) (map : Map) (s : ExportState) :
    exportSymbols F enc map s = exportSymbolsLoop F enc s map.symbols := by
  unfold exportSymbols symbolCalls
  induction map.symbols generalizing s with
  | nil => rfl
  | cons symbol rest ih =>
    rw [List.filterMap_cons]
    unfold exportSymbolsLoop exportSymbol
    cases h : symbol.type with
    | point =>
      simp only []
      rw [runCalls_cons]
      cases h1 : runCalls F s [symbolCall enc (enc.pointSymbol symbol)] with
      | none => rfl
      | some next => exact ih next
    | line => exact ih s
    | area => exact ih s
    | text => exact ih s
    | combined => exact ih s

end OcdFileExport

namespace OcdFileExport

open OcdEntityIndex OcdFile Mapper

end OcdFileExport

namespace OcdFileExport

open OcdEntityIndex OcdFile Mapper

/-- The export of version 8 of the sample map stays below `2^31` bytes. -/
theorem sampleMap_size_v8 :
    expectedLength (sampleFormats.format (formatIdOf 8))
      (exportCalls sampleFormats sampleEncoders (formatIdOf 8) sampleMap) < 2 ^ 31 := by
  have hc : exportCalls sampleFormats sampleEncoders (formatIdOf 8) sampleMap =
      [] ++ [symbolCall sampleEncoders (zeros 24)] := rfl
  have hf : sampleFormats.format (formatIdOf 8) = FormatV8 := rfl
  rw [hc, hf, expectedLength_snoc, expectedLength_nil, freshLength_FormatV8]
  decide

/-- C23 (amended): for every export of version 8, 9, 10, 11 or 12 (the buffer
staying below `2^31` bytes) the export completes, whatever the types of the
symbols of the map are.  A symbol of a type other than point is skipped
without a warning: its round of the loop of `exportSymbols` leaves the buffer
and the warnings as they are.  The warnings of the export are the warnings of
the start of the export, for version 8 the warning for too many colors when
the map has more than 256 colors, and the warning for the spot colors; every
map with the same number of colors, such as the map without the skipped
symbol, gives the same list. -/
theorem export_skips_symbols (fs : Formats) (enc : Encoders) (v : Nat)
    (hv : v = 8 ∨ v = 9 ∨ v = 10 ∨ v = 11 ∨ v = 12) (codecAvailable : Bool) (map : Map)
    (hW : ExportWF fs enc (formatIdOf v))
    (hsize : expectedLength (fs.format (formatIdOf v))
      (exportCalls fs enc (formatIdOf v) map) < 2 ^ 31) :
    (∃ bytes, doExport fs enc v none codecAvailable map =
      .written bytes (startWarnings fs (formatIdOf v) codecAvailable ++
        (if v = 8 ∧ map.colors.length > 256 then [Warning.tooManyColors] else []) ++
        [.spotColorIgnored])) ∧
    (∀ symbol, symbol ∈ map.symbols → symbol.type ≠ .point →
      ∀ s, exportSymbol (fs.format (formatIdOf v)) enc s symbol = some s) ∧
    (∀ s, exportSymbols (fs.format (formatIdOf v)) enc map s =
      exportSymbolsLoop (fs.format (formatIdOf v)) enc s map.symbols) ∧
    ∀ other : Map, other.colors.length = map.colors.length →
      expectedLength (fs.format (formatIdOf v))
        (exportCalls fs enc (formatIdOf v) other) < 2 ^ 31 →
      ∃ bytes, doExport fs enc v none codecAvailable other =
        .written bytes (startWarnings fs (formatIdOf v) codecAvailable ++
          (if v = 8 ∧ map.colors.length > 256 then [Warning.tooManyColors] else []) ++
          [.spotColorIgnored]) := by
  have hall : ∀ m : Map,
      expectedLength (fs.format (formatIdOf v)) (exportCalls fs enc (formatIdOf v) m) < 2 ^ 31 →
      ∃ bytes, doExport fs enc v none codecAvailable m =
        .written bytes (startWarnings fs (formatIdOf v) codecAvailable ++
          (if v = 8 ∧ m.colors.length > 256 then [Warning.tooManyColors] else []) ++
          [.spotColorIgnored]) := by
    intro m hm
    have hex := doExport_version fs enc v hv codecAvailable m
    by_cases h8 : v = 8
    · subst h8
      obtain ⟨bytes, h1, _⟩ := exportImplementation_v8 fs enc 8 codecAvailable m hW hm
      refine ⟨bytes, hex.trans ?_⟩
      simp only [true_and]
      exact h1
    · have hid : formatIdOf v ≠ .V8 := by
        rcases hv with rfl | rfl | rfl | rfl | rfl
        · exact absurd rfl h8
        all_goals decide
      obtain ⟨bytes, h1, _⟩ :=
        exportImplementation_generic fs enc (formatIdOf v) hid v codecAvailable m hW hm
      refine ⟨bytes, hex.trans ?_⟩
      rw [if_neg (fun h => h8 h.1), List.append_nil]
      exact h1
  refine ⟨hall map hsize, ?_, fun s => exportSymbols_loop _ enc map s, ?_⟩
  · intro symbol _ hne s
    unfold exportSymbol
    cases h : symbol.type with
    | point => exact absurd h hne
    | line | area | text | combined => rfl
  · intro other hc ho
    rw [← hc]
    exact hall other ho

/-- Witness for C23: the export of version 8 of the sample map, which has a
line symbol. -/
theorem export_skips_symbols_witness :
    (∃ bytes, doExport sampleFormats sampleEncoders (8 : Nat) none true sampleMap =
      .written bytes (startWarnings sampleFormats (formatIdOf 8) true ++
        (if 8 = 8 ∧ sampleMap.colors.length > 256 then [Warning.tooManyColors] else []) ++
        [.spotColorIgnored])) ∧
    (∀ symbol, symbol ∈ sampleMap.symbols → symbol.type ≠ .point →
      ∀ s, exportSymbol (sampleFormats.format (formatIdOf 8)) sampleEncoders s symbol =
        some s) ∧
    (∀ s, exportSymbols (sampleFormats.format (formatIdOf 8)) sampleEncoders sampleMap s =
      exportSymbolsLoop (sampleFormats.format (formatIdOf 8)) sampleEncoders s
        sampleMap.symbols) ∧
    ∀ other : Map, other.colors.length = sampleMap.colors.length →
      expectedLength (sampleFormats.format (formatIdOf 8))
        (exportCalls sampleFormats sampleEncoders (formatIdOf 8) other) < 2 ^ 31 →
      ∃ bytes, doExport sampleFormats sampleEncoders (8 : Nat) none true other =
        .written bytes (startWarnings sampleFormats (formatIdOf 8) true ++
          (if 8 = 8 ∧ sampleMap.colors.length > 256 then [Warning.tooManyColors] else []) ++
          [.spotColorIgnored]) :=
  export_skips_symbols sampleFormats sampleEncoders 8 (by decide) true sampleMap
    sample_exportWF_v8 sampleMap_size_v8

/-- Counterexample for C23: the sample map has the line symbol "Path", a symbol
of a type that `exportSymbols` does not handle; its export of version 11
completes with exactly two warnings, the one of the start of the export and
the one for the spot colors, the same two that the export of the map without
that symbol gives, and neither is a warning for the symbol. -/
theorem export_skips_symbols_counterexample :
    (∃ symbol, symbol ∈ sampleMap.symbols ∧ symbol.type = .line ∧ symbol.name = "Path") ∧
    (∃ bytes, doExport sampleFormats sampleEncoders (11 : Nat) none true sampleMap =
      .written bytes [.workInProgress, .spotColorIgnored]) ∧
    ∃ bytes, doExport sampleFormats sampleEncoders (11 : Nat) none true
        { sampleMap with
          symbols := sampleMap.symbols.filter (fun symbol => decide (symbol.type = .point)) } =
      .written bytes [.workInProgress, .spotColorIgnored] := by
  refine ⟨⟨_, List.mem_cons_of_mem _ (List.mem_singleton_self _), rfl, rfl⟩, ?_, ?_⟩
  · obtain ⟨bytes, h, _⟩ := exportImplementation_generic sampleFormats sampleEncoders .V11
      (by decide) 11 true sampleMap sample_exportWF (by decide)
    exact ⟨bytes, (doExport_version sampleFormats sampleEncoders 11 (by decide) true
      sampleMap).trans h⟩
  · obtain ⟨bytes, h, _⟩ := exportImplementation_generic sampleFormats sampleEncoders .V11
      (by decide) 11 true
      { sampleMap with
        symbols := sampleMap.symbols.filter (fun symbol => decide (symbol.type = .point)) }
      sample_exportWF (by decide)
    exact ⟨bytes, (doExport_version sampleFormats sampleEncoders 11 (by decide) true _).trans h⟩

end OcdFileExport

namespace OcdEntityIndex

/-! ### Chains without and with a cycle -/

/-- A walk that meets an offset twice goes on for ever. -/
theorem walkPos_cycle {buf : QByteArray} {bs head k m b : Nat}
    (hk : walkPos buf bs k head = some b) (hm : 0 < m)
    (hkm : walkPos buf bs (k + m) head = some b) (n : Nat) :
    walkPos buf bs n head ≠ none := by
  have h1 : walkPos buf bs m b = some b := by
    rw [walkPos_add, hk] at hkm
    exact hkm
  have hj : ∀ j, walkPos buf bs (j * m) b = some b := by
    intro j
    induction j with
    | zero => rw [Nat.zero_mul]; rfl
    | succ j ih =>
      rw [Nat.succ_mul, walkPos_add, ih]
      exact h1
  have hbig : walkPos buf bs (k + n * m) head ≠ none := by
    rw [walkPos_add, hk]
    show walkPos buf bs (n * m) b ≠ none
    rw [hj n]
    simp
  have hle : n ≤ k + n * m := by
    have := Nat.le_mul_of_pos_right n hm
    omega
  exact walkPos_le hle hbig

/-- On a buffer whose chain has a cycle the call of insert does not return. -/
theorem insert_cycle (F : Format) (c : Chain) {buf : QByteArray} {head k m b : Nat}
    (data entry : List Byte) (hhead : firstBlock F c buf = some head)
    (hk : walkPos buf (blockSize (F.entry c)) k head = some b) (hm : 0 < m)
    (hkm : walkPos buf (blockSize (F.entry c)) (k + m) head = some b) :
    (∀ fuel, walk buf (blockSize (F.entry c)) fuel head = .running) ∧
    insert F c buf data entry = .diverges := by
  have hrun : ∀ fuel, walk buf (blockSize (F.entry c)) fuel head = .running := fun fuel =>
    (walk_running_iff buf _ fuel head).mpr (walkPos_cycle hk hm hkm fuel)
  refine ⟨hrun, ?_⟩
  unfold insert
  simp only [hhead, hrun]

end OcdEntityIndex

namespace OcdFile

open OcdEntityIndex

/-- C31: in every document built from a fresh file by calls of insert (the
buffer staying below `2^31` bytes) and for every chain, a `next_block` other
than 0 of a block met by the walk is greater than the offset of the block; the
offsets that the walk examines increase strictly, so no block is met twice;
the walk examines `n` blocks, `n` at least 1, and ends at the last of them,
with `n` iterations as well as with the budget of `insert`.  On any buffer, of
any format, in which the walk of a chain meets some offset twice, the walk is
still running after every number of iterations and the call of insert does not
return. -/
theorem chain_acyclic (F : Format) (hF : F.WF) (calls : List InsertCall)
    (hentry : ∀ call, call ∈ calls → call.entry.length = (F.entry call.chain).size)
    (hsize : expectedLength F calls < 2 ^ 31) :
    (∃ fresh buf recs,
      OcdFile F = some fresh ∧ run F fresh calls = some (buf, recs) ∧
      ∀ c, ∃ head n tail,
        firstBlock F c buf = some head ∧ 0 < n ∧
        (∀ k b next, walkPos buf (blockSize (F.entry c)) k head = some b →
          readU32 buf b = some next → next ≠ 0 → b < next) ∧
        (∀ j k b b', j < k → walkPos buf (blockSize (F.entry c)) j head = some b →
          walkPos buf (blockSize (F.entry c)) k head = some b' → b < b') ∧
        (∀ k, k < n → ∃ b, walkPos buf (blockSize (F.entry c)) k head = some b) ∧
        walkPos buf (blockSize (F.entry c)) n head = none ∧
        walkPos buf (blockSize (F.entry c)) (n - 1) head = some tail ∧
        walk buf (blockSize (F.entry c)) n head = .tail tail ∧
        walk buf (blockSize (F.entry c)) (buf.length + 1) head = .tail tail) ∧
    ∀ (G : Format) (c : Chain) (buf : QByteArray) (head k m b : Nat) (data entry : List Byte),
      firstBlock G c buf = some head →
      walkPos buf (blockSize (G.entry c)) k head = some b → 0 < m →
      walkPos buf (blockSize (G.entry c)) (k + m) head = some b →
      (∀ fuel, walk buf (blockSize (G.entry c)) fuel head = .running) ∧
      insert G c buf data entry = .diverges := by
  refine ⟨?_, fun G c buf head k m b data entry hhead hk hm hkm =>
    insert_cycle G c data entry hhead hk hm hkm⟩
  obtain ⟨buf, recs, regs, hrun, hR⟩ := run_fresh hF calls hentry hsize
  have hlen : buf.length < 2 ^ 31 := by rw [hR.length_eq]; exact hsize
  have hI := hR.inv
  refine ⟨image F, buf, recs, OcdFile_eq hF, hrun, ?_⟩
  intro c
  have hC := hI.chain c
  have hm := hC.nonempty
  obtain ⟨hhead, hwalk⟩ := walk_inv hF hI hlen c
  have hs := List.pairwise_iff_getElem.mp (hI.blocks_sorted c)
  have hwp : ∀ k, walkPos buf (blockSize (F.entry c)) k ((blocksOf c regs).getD 0 0) =
      if k < (blocksOf c regs).length then some ((blocksOf c regs).getD k 0) else none := by
    intro k
    have := walkPos_chain hF hI hlen c k 0 hm
    rw [Nat.zero_add] at this
    exact this
  have hat : ∀ k b, walkPos buf (blockSize (F.entry c)) k ((blocksOf c regs).getD 0 0) =
      some b → k < (blocksOf c regs).length ∧ b = (blocksOf c regs).getD k 0 := by
    intro k b h
    rw [hwp k] at h
    by_cases hk : k < (blocksOf c regs).length
    · rw [if_pos hk] at h
      exact ⟨hk, (Option.some.inj h).symm⟩
    · rw [if_neg hk] at h
      exact absurd h (by simp)
  have hlt : ∀ j k, j < k → k < (blocksOf c regs).length →
      (blocksOf c regs).getD j 0 < (blocksOf c regs).getD k 0 := by
    intro j k hjk hk
    rw [List.getD_eq_getElem _ 0 (by omega), List.getD_eq_getElem _ 0 hk]
    exact hs j k (by omega) hk hjk
  refine ⟨_, (blocksOf c regs).length, _, hhead, hm, ?_, ?_, ?_, ?_, ?_, hwalk,
    walk_adequate hwalk (by simp)⟩
  · intro k b next hw hread hne
    obtain ⟨hk, hb⟩ := hat k b hw
    have hl := hC.link k hk
    rw [← hb, hread] at hl
    simp only [Option.some.injEq] at hl
    by_cases hk1 : k + 1 < (blocksOf c regs).length
    · rw [if_pos hk1] at hl
      rw [hl, hb]
      exact hlt k (k + 1) (by omega) hk1
    · rw [if_neg hk1] at hl
      exact absurd hl hne
  · intro j k b b' hjk hj hk
    obtain ⟨_, hb⟩ := hat j b hj
    obtain ⟨hk2, hb'⟩ := hat k b' hk
    rw [hb, hb']
    exact hlt j k hjk hk2
  · intro k hk
    exact ⟨_, by rw [hwp k, if_pos hk]⟩
  · rw [hwp, if_neg (by omega)]
  · rw [hwp, if_pos (by omega)]

set_option maxRecDepth 1000000 in
/-- Witness for C31: a version 9 file after two calls, and for the second part
the buffer `cyclicSymbolDoc`, whose only symbol block at the offset 48 has the
`next_block` 48. -/
theorem chain_acyclic_witness :
    ((∃ fresh buf recs,
      OcdFile FormatV9 = some fresh ∧
      run FormatV9 fresh [⟨.symbols, [1, 2, 3], zeros 4⟩, ⟨.strings, [4], zeros 16⟩] =
        some (buf, recs) ∧
      ∀ c, ∃ head n tail,
        firstBlock FormatV9 c buf = some head ∧ 0 < n ∧
        (∀ k b next, walkPos buf (blockSize (FormatV9.entry c)) k head = some b →
          readU32 buf b = some next → next ≠ 0 → b < next) ∧
        (∀ j k b b', j < k → walkPos buf (blockSize (FormatV9.entry c)) j head = some b →
          walkPos buf (blockSize (FormatV9.entry c)) k head = some b' → b < b') ∧
        (∀ k, k < n → ∃ b, walkPos buf (blockSize (FormatV9.entry c)) k head = some b) ∧
        walkPos buf (blockSize (FormatV9.entry c)) n head = none ∧
        walkPos buf (blockSize (FormatV9.entry c)) (n - 1) head = some tail ∧
        walk buf (blockSize (FormatV9.entry c)) n head = .tail tail ∧
        walk buf (blockSize (FormatV9.entry c)) (buf.length + 1) head = .tail tail) ∧
    ∀ (G : Format) (c : Chain) (buf : QByteArray) (head k m b : Nat) (data entry : List Byte),
      firstBlock G c buf = some head →
      walkPos buf (blockSize (G.entry c)) k head = some b → 0 < m →
      walkPos buf (blockSize (G.entry c)) (k + m) head = some b →
      (∀ fuel, walk buf (blockSize (G.entry c)) fuel head = .running) ∧
      insert G c buf data entry = .diverges) ∧
    ((∀ fuel, walk cyclicSymbolDoc (blockSize (FormatV9.entry .symbols)) fuel 48 = .running) ∧
      insert FormatV9 .symbols cyclicSymbolDoc [7] (zeros 4) = .diverges) :=
  ⟨chain_acyclic FormatV9 FormatV9_wf
      [⟨.symbols, [1, 2, 3], zeros 4⟩, ⟨.strings, [4], zeros 16⟩]
      (by simp [FormatV9, Format.entry, zeros]) (by decide),
    (chain_acyclic FormatV9 FormatV9_wf [] (by simp) (by decide)).2 FormatV9 .symbols
      cyclicSymbolDoc 48 0 1 48 [7] (zeros 4) (by decide) rfl (by decide) (by decide)⟩

end OcdFile

namespace OcdFile

open OcdEntityIndex

end OcdFile

namespace OcdFileExport

open Mapper

/-- C33: for every factor `f > 0` and every symbol with the number components
`p >= 0` and `0 <= s < f` whose composite `n = p*f + s` stays in the range of
`int`, `setupBaseSymbol` computes `n` and stores `n` converted to the type of
the member, or 1 when `n` is 0.  Unless `p = s = 0` the composite is not 0 and
decodes to the components: `n / f = p` and `n % f = s`.  For `p = s = 0` the
composite is 0 and the value before the conversion is 1, which is also the
value before the conversion for the components 0 and 1. -/
theorem symbolNumber_round_trip (B : BaseSymbolType) (description : String → List Byte)
    (symbol : Symbol) (hf : 0 < B.symbol_number_factor) (hp : 0 ≤ symbol.number0)
    (hs0 : 0 ≤ symbol.number1) (hsf : symbol.number1 < B.symbol_number_factor)
    (hrange : symbol.number0 * B.symbol_number_factor + symbol.number1 < 2 ^ 31) :
    symbolNumber B.symbol_number_factor symbol =
      some (symbol.number0 * B.symbol_number_factor + symbol.number1) ∧
    (setupBaseSymbol B description symbol).map (fun r => r.number) =
      some (if symbol.number0 * B.symbol_number_factor + symbol.number1 ≠ 0
        then B.numberType.convert (symbol.number0 * B.symbol_number_factor + symbol.number1)
        else 1) ∧
    (¬ (symbol.number0 = 0 ∧ symbol.number1 = 0) →
      symbol.number0 * B.symbol_number_factor + symbol.number1 ≠ 0 ∧
      (symbol.number0 * B.symbol_number_factor + symbol.number1) / B.symbol_number_factor =
        symbol.number0 ∧
      (symbol.number0 * B.symbol_number_factor + symbol.number1) % B.symbol_number_factor =
        symbol.number1 ∧
      (symbol.number0 * B.symbol_number_factor + symbol.number1).tdiv B.symbol_number_factor =
        symbol.number0 ∧
      (symbol.number0 * B.symbol_number_factor + symbol.number1).tmod B.symbol_number_factor =
        symbol.number1) ∧
    (symbol.number0 = 0 ∧ symbol.number1 = 0 →
      symbol.number0 * B.symbol_number_factor + symbol.number1 = 0 ∧
      (if symbol.number0 * B.symbol_number_factor + symbol.number1 ≠ 0
        then symbol.number0 * B.symbol_number_factor + symbol.number1 else 1) = 1) ∧
    ∀ other : Symbol, other.number0 = 0 → other.number1 = 1 →
      ∃ m, symbolNumber B.symbol_number_factor other = some m ∧
        (if m ≠ 0 then m else 1) = 1 := by
  have hpf : 0 ≤ symbol.number0 * B.symbol_number_factor := Int.mul_nonneg hp (le_of_lt hf)
  have hmod : symbol.number1 % B.symbol_number_factor = symbol.number1 :=
    Int.emod_eq_of_lt hs0 hsf
  have hnum : symbolNumber B.symbol_number_factor symbol =
      some (symbol.number0 * B.symbol_number_factor + symbol.number1) := by
    rw [symbolNumber_eq _ symbol hf (by simp only [inInt, decide_eq_true_eq]; omega)
      (fun _ => by rw [hmod]; simp only [inInt, decide_eq_true_eq]; omega), if_pos hs0, hmod]
  have hdiv : (symbol.number0 * B.symbol_number_factor + symbol.number1) /
      B.symbol_number_factor = symbol.number0 := by
    rw [Int.add_comm, Int.add_mul_ediv_right _ _ (ne_of_gt hf), Int.ediv_eq_zero_of_lt hs0 hsf,
      Int.zero_add]
  have hrem : (symbol.number0 * B.symbol_number_factor + symbol.number1) %
      B.symbol_number_factor = symbol.number1 := by
    rw [Int.add_comm, Int.add_mul_emod_self, hmod]
  have hn0 : 0 ≤ symbol.number0 * B.symbol_number_factor + symbol.number1 := by omega
  refine ⟨hnum, ?_, ?_, ?_, ?_⟩
  · unfold setupBaseSymbol
    simp only [hnum, Option.map_some']
  · intro hne
    refine ⟨?_, hdiv, hrem, ?_, ?_⟩
    · intro hz
      have h1 : symbol.number0 * B.symbol_number_factor = 0 := by omega
      have h2 : symbol.number1 = 0 := by omega
      rcases Int.mul_eq_zero.mp h1 with h | h
      · exact hne ⟨h, h2⟩
      · omega
    · rw [Int.tdiv_eq_ediv hn0 (le_of_lt hf), hdiv]
    · rw [Int.tmod_eq_emod hn0 (le_of_lt hf), hrem]
  · rintro ⟨h0, h1⟩
    rw [h0, h1]
    simp
  · intro other h0 h1
    have hin0 : inInt (other.number0 * B.symbol_number_factor) = true := by
      rw [h0]; simp [inInt]
    have hm01 : (1 : Int) % B.symbol_number_factor = 0 ∨
        (1 : Int) % B.symbol_number_factor = 1 := by
      rcases lt_or_ge 1 B.symbol_number_factor with h | h
      · right
        exact Int.emod_eq_of_lt (by decide) h
      · left
        have hf1 : B.symbol_number_factor = 1 := by omega
        rw [hf1]
        decide
    have hval : symbolNumber B.symbol_number_factor other =
        some ((1 : Int) % B.symbol_number_factor) := by
      rw [symbolNumber_eq _ other hf hin0 (fun _ => by
        rw [h0, h1]
        simp only [inInt, decide_eq_true_eq, Int.zero_mul, Int.zero_add]
        omega), h0, h1, if_pos (by decide), Int.zero_mul, Int.zero_add]
    refine ⟨_, hval, ?_⟩
    rcases hm01 with h | h <;> rw [h] <;> decide

/-- Witness for C33: the symbol number 701.5 with the factor 10 of the sample
base symbol, whose composite 7015 decodes to 701 and 5. -/
theorem symbolNumber_round_trip_witness :
    (symbolNumber sampleBaseSymbolType.symbol_number_factor
        { type := .point, name := "Knoll", number0 := 701, number1 := 5, isProtected := false,
          isHidden := false, isRotatable := false } =
      some ((701 : Int) * sampleBaseSymbolType.symbol_number_factor + 5) ∧
    (setupBaseSymbol sampleBaseSymbolType latin1
        { type := .point, name := "Knoll", number0 := 701, number1 := 5, isProtected := false,
          isHidden := false, isRotatable := false }).map (fun r => r.number) =
      some (if (701 : Int) * sampleBaseSymbolType.symbol_number_factor + 5 ≠ 0
        then sampleBaseSymbolType.numberType.convert
          ((701 : Int) * sampleBaseSymbolType.symbol_number_factor + 5)
        else 1) ∧
    (¬ ((701 : Int) = 0 ∧ (5 : Int) = 0) →
      (701 : Int) * sampleBaseSymbolType.symbol_number_factor + 5 ≠ 0 ∧
      ((701 : Int) * sampleBaseSymbolType.symbol_number_factor + 5) /
        sampleBaseSymbolType.symbol_number_factor = 701 ∧
      ((701 : Int) * sampleBaseSymbolType.symbol_number_factor + 5) %
        sampleBaseSymbolType.symbol_number_factor = 5 ∧
      ((701 : Int) * sampleBaseSymbolType.symbol_number_factor + 5).tdiv
        sampleBaseSymbolType.symbol_number_factor = 701 ∧
      ((701 : Int) * sampleBaseSymbolType.symbol_number_factor + 5).tmod
        sampleBaseSymbolType.symbol_number_factor = 5) ∧
    ((701 : Int) = 0 ∧ (5 : Int) = 0 →
      (701 : Int) * sampleBaseSymbolType.symbol_number_factor + 5 = 0 ∧
      (if (701 : Int) * sampleBaseSymbolType.symbol_number_factor + 5 ≠ 0
        then (701 : Int) * sampleBaseSymbolType.symbol_number_factor + 5 else 1) = 1) ∧
    ∀ other : Symbol, other.number0 = 0 → other.number1 = 1 →
      ∃ m, symbolNumber sampleBaseSymbolType.symbol_number_factor other = some m ∧
        (if m ≠ 0 then m else 1) = 1) ∧
    (701 : Int) * sampleBaseSymbolType.symbol_number_factor + 5 = 7015 :=
  ⟨symbolNumber_round_trip sampleBaseSymbolType latin1
      { type := .point, name := "Knoll", number0 := 701, number1 := 5, isProtected := false,
        isHidden := false, isRotatable := false }
      (by decide) (by decide) (by decide) (by decide) (by decide), by decide⟩

end OcdFileExport
